import Mathlib

/-!
# Columba: search schemes, the naive backtracking strategy, the banded DP check and the front end

A shallow embedding of `src/searchstrategy.h` and `src/main.cpp` of Columba 1.1
(approximate pattern matching with search schemes on a bidirectional FM-index).

Conventions of the embedding:

* a `std::vector<T>` is a `List`, a `std::string` is a `List Char` (one `Char` per C++ `char`);
* values of the unsigned types `length_t`, `uint` and `size_t` are natural numbers, and a
  conversion to a narrower unsigned type is written as an explicit remainder;
* values of type `int` are integers: an `int` operation that overflows has no defined result,
  and the conversion of an unsigned value to `int` is taken modulo `2^32`;
* a value of type `double` is the exact rational number, and a decimal literal is the rational
  that it denotes;
* an operation without a defined result (failed `assert`, thrown exception, subscript outside a
  vector) makes the embedded function return `none`; where a thrown exception has to be told
  from undefined behaviour (`getReads`, `main`), the result says which of the two it is;
* a loop whose counter can wrap around is run for a bounded number of passes (`Loop`), so that
  a loop that does not end is told from one that ends;
* what `main` does to the outside (output, files, the index, the matching) is a list of events,
  and what lies outside of the two source files is a parameter (`Columba.World`).
-/

set_option autoImplicit false

/-! ## The search descriptor -/

/-- Modelled from the spec: the class `Search` (its header `search.h` is not among the source
files).  A search is the triple `(π, L, U)`: the order `pi` in which the parts are visited and
the cumulative lower and upper error bounds `L`, `U` after each visited part. -/
structure Search where
  pi : List Nat
  L : List Nat
  U : List Nat
deriving DecidableEq, Repr

namespace Search

/-- Modelled from the spec: `Search::makeSearch(order, lowerBounds, upperBounds)` stores the three
arrays as they are given. -/
def makeSearch (order lowerBounds upperBounds : List Nat) : Search :=
  ⟨order, lowerBounds, upperBounds⟩

/-- Modelled from the spec: `getNumParts()`, the number of parts of the search. -/
def getNumParts (s : Search) : Nat := s.pi.length

/-- Modelled from the spec: `getPart(i) = π[i]`. -/
def getPart (s : Search) (i : Nat) : Nat := s.pi.getD i 0

/-- Modelled from the spec: `getLowerBound(i) = L[i]`. -/
def getLowerBound (s : Search) (i : Nat) : Nat := s.L.getD i 0

/-- Modelled from the spec: `getUpperBound(i) = U[i]`. -/
def getUpperBound (s : Search) (i : Nat) : Nat := s.U.getD i 0

end Search

/-- The expression `schemePerED[maxED - 1]` on a `std::vector` with `unsigned int maxED`: for
`maxED = 0` the subtraction wraps around to `UINT_MAX`, which like every index past the end of
the vector has no defined result. -/
def schemeAt (schemePerED : List (List Search)) (maxED : Nat) : Option (List Search) :=
  if maxED = 0 then none else schemePerED[maxED - 1]?

/-! ## The hard-coded strategies -/

namespace KucherovKplus1

def ED1 : List Search :=
  [Search.makeSearch [0, 1] [0, 1] [0, 1],
   Search.makeSearch [1, 0] [0, 0] [0, 1]]

def ED2 : List Search :=
  [Search.makeSearch [0, 1, 2] [0, 0, 0] [0, 2, 2],
   Search.makeSearch [2, 1, 0] [0, 0, 0] [0, 1, 2],
   Search.makeSearch [1, 0, 2] [0, 0, 1] [0, 1, 2]]

def ED3 : List Search :=
  [Search.makeSearch [0, 1, 2, 3] [0, 0, 0, 0] [0, 1, 3, 3],
   Search.makeSearch [1, 0, 2, 3] [0, 0, 1, 1] [0, 1, 3, 3],
   Search.makeSearch [2, 3, 1, 0] [0, 0, 0, 0] [0, 1, 3, 3],
   Search.makeSearch [3, 2, 1, 0] [0, 0, 1, 1] [0, 1, 3, 3]]

def ED4 : List Search :=
  [Search.makeSearch [0, 1, 2, 3, 4] [0, 0, 0, 0, 0] [0, 2, 2, 4, 4],
   Search.makeSearch [4, 3, 2, 1, 0] [0, 0, 0, 0, 0] [0, 1, 3, 4, 4],
   Search.makeSearch [1, 0, 2, 3, 4] [0, 0, 1, 3, 3] [0, 1, 3, 3, 4],
   Search.makeSearch [0, 1, 2, 3, 4] [0, 0, 1, 3, 3] [0, 1, 3, 3, 4],
   Search.makeSearch [3, 2, 4, 1, 0] [0, 0, 0, 1, 1] [0, 1, 2, 4, 4],
   Search.makeSearch [2, 1, 0, 3, 4] [0, 0, 0, 1, 3] [0, 1, 2, 4, 4],
   Search.makeSearch [1, 0, 2, 3, 4] [0, 0, 1, 2, 4] [0, 1, 2, 4, 4],
   Search.makeSearch [0, 1, 2, 3, 4] [0, 0, 0, 3, 4] [0, 0, 4, 4, 4]]

def schemePerED : List (List Search) := [ED1, ED2, ED3, ED4]

def calculateNumParts (maxED : Nat) : Nat := maxED + 1

/-- The two `assert`s guard the table access: outside `1 ≤ maxED ≤ 4` there is no result. -/
def createSearches (maxED : Nat) : Option (List Search) :=
  if maxED ≥ 1 ∧ maxED ≤ 4 then schemeAt schemePerED maxED else none

end KucherovKplus1

namespace KucherovKplus2

def ED1 : List Search :=
  [Search.makeSearch [0, 1, 2] [0, 0, 0] [0, 1, 1],
   Search.makeSearch [1, 2, 0] [0, 0, 0] [0, 0, 1]]

def ED2 : List Search :=
  [Search.makeSearch [0, 1, 2, 3] [0, 0, 0, 0] [0, 1, 1, 2],
   Search.makeSearch [3, 2, 1, 0] [0, 0, 0, 0] [0, 1, 2, 2],
   Search.makeSearch [1, 2, 3, 0] [0, 0, 0, 1] [0, 0, 1, 2],
   Search.makeSearch [0, 1, 2, 3] [0, 0, 0, 2] [0, 0, 2, 2]]

def ED3 : List Search :=
  [Search.makeSearch [0, 1, 2, 3, 4] [0, 0, 0, 0, 0] [0, 1, 2, 3, 3],
   Search.makeSearch [1, 2, 3, 4, 0] [0, 0, 0, 0, 0] [0, 1, 2, 2, 3],
   Search.makeSearch [2, 3, 4, 1, 0] [0, 0, 0, 0, 1] [0, 1, 1, 3, 3],
   Search.makeSearch [3, 4, 2, 1, 0] [0, 0, 0, 1, 2] [0, 0, 3, 3, 3]]

def ED4 : List Search :=
  [Search.makeSearch [0, 1, 2, 3, 4, 5] [0, 0, 0, 0, 0, 0] [0, 1, 2, 3, 4, 4],
   Search.makeSearch [1, 2, 3, 4, 5, 0] [0, 0, 0, 0, 0, 0] [0, 1, 2, 3, 4, 4],
   Search.makeSearch [5, 4, 3, 2, 1, 0] [0, 0, 0, 0, 0, 1] [0, 1, 2, 2, 4, 4],
   Search.makeSearch [3, 4, 5, 2, 1, 0] [0, 0, 0, 0, 1, 2] [0, 1, 1, 3, 4, 4],
   Search.makeSearch [2, 3, 4, 5, 1, 0] [0, 0, 0, 0, 2, 3] [0, 1, 1, 2, 4, 4],
   Search.makeSearch [4, 5, 3, 2, 1, 0] [0, 0, 0, 1, 3, 3] [0, 0, 3, 3, 4, 4],
   Search.makeSearch [0, 1, 2, 3, 4, 5] [0, 0, 0, 3, 3, 3] [0, 0, 3, 3, 4, 4],
   Search.makeSearch [0, 1, 2, 3, 4, 5] [0, 0, 0, 0, 4, 4] [0, 0, 2, 4, 4, 4],
   Search.makeSearch [2, 3, 1, 0, 4, 5] [0, 0, 0, 1, 2, 4] [0, 0, 2, 2, 4, 4],
   Search.makeSearch [4, 5, 3, 2, 1, 0] [0, 0, 0, 0, 4, 4] [0, 0, 1, 4, 4, 4]]

def schemePerED : List (List Search) := [ED1, ED2, ED3, ED4]

def calculateNumParts (maxED : Nat) : Nat := maxED + 2

def createSearches (maxED : Nat) : Option (List Search) :=
  schemeAt schemePerED maxED

end KucherovKplus2

namespace OptimalKianfar

def ED1 : List Search :=
  [Search.makeSearch [0, 1] [0, 0] [0, 1],
   Search.makeSearch [1, 0] [0, 1] [0, 1]]

def ED2 : List Search :=
  [Search.makeSearch [0, 1, 2] [0, 0, 2] [0, 1, 2],
   Search.makeSearch [2, 1, 0] [0, 0, 0] [0, 2, 2],
   Search.makeSearch [1, 2, 0] [0, 1, 1] [0, 1, 2]]

def ED3 : List Search :=
  [Search.makeSearch [0, 1, 2, 3] [0, 0, 0, 3] [0, 2, 3, 3],
   Search.makeSearch [1, 2, 3, 0] [0, 0, 0, 0] [1, 2, 3, 3],
   Search.makeSearch [2, 3, 1, 0] [0, 0, 2, 2] [0, 0, 3, 3]]

def ED4 : List Search :=
  [Search.makeSearch [0, 1, 2, 3, 4] [0, 0, 0, 0, 4] [0, 3, 3, 4, 4],
   Search.makeSearch [1, 2, 3, 4, 0] [0, 0, 0, 0, 0] [2, 2, 3, 3, 4],
   Search.makeSearch [4, 3, 2, 1, 0] [0, 0, 0, 3, 3] [0, 0, 4, 4, 4]]

def schemePerED : List (List Search) := [ED1, ED2, ED3, ED4]

def calculateNumParts (maxED : Nat) : Nat := maxED + 1

/-- For `maxED < 1` or `maxED > 4` the source throws `std::invalid_argument`: no result. -/
def createSearches (maxED : Nat) : Option (List Search) :=
  if maxED < 1 ∨ maxED > 4 then none else schemeAt schemePerED maxED

end OptimalKianfar

namespace O1StarSearchStrategy

def ED1 : List Search :=
  [Search.makeSearch [0, 1, 2] [0, 0, 0] [0, 1, 1],
   Search.makeSearch [1, 2, 0] [0, 0, 0] [0, 0, 1]]

def ED2 : List Search :=
  [Search.makeSearch [0, 1, 2, 3] [0, 0, 0, 0] [0, 1, 2, 2],
   Search.makeSearch [1, 2, 3, 0] [0, 0, 0, 0] [0, 1, 2, 2],
   Search.makeSearch [2, 3, 1, 0] [0, 0, 0, 0] [0, 0, 2, 2]]

def ED3 : List Search :=
  [Search.makeSearch [0, 1, 2, 3, 4] [0, 0, 0, 0, 0] [0, 1, 3, 3, 3],
   Search.makeSearch [1, 2, 3, 4, 0] [0, 0, 0, 0, 0] [0, 1, 3, 3, 3],
   Search.makeSearch [2, 3, 4, 1, 0] [0, 0, 0, 0, 0] [0, 1, 3, 3, 3],
   Search.makeSearch [3, 4, 2, 1, 0] [0, 0, 0, 0, 0] [0, 0, 3, 3, 3]]

def ED4 : List Search :=
  [Search.makeSearch [0, 1, 2, 3, 4, 5] [0, 0, 0, 0, 0, 0] [0, 1, 4, 4, 4, 4],
   Search.makeSearch [1, 2, 3, 4, 5, 0] [0, 0, 0, 0, 0, 0] [0, 1, 4, 4, 4, 4],
   Search.makeSearch [2, 3, 4, 5, 1, 0] [0, 0, 0, 0, 0, 0] [0, 1, 4, 4, 4, 4],
   Search.makeSearch [3, 4, 5, 2, 1, 0] [0, 0, 0, 0, 0, 0] [0, 1, 4, 4, 4, 4],
   Search.makeSearch [4, 5, 3, 2, 1, 0] [0, 0, 0, 0, 0, 0] [0, 0, 4, 4, 4, 4]]

def schemePerED : List (List Search) := [ED1, ED2, ED3, ED4]

def calculateNumParts (maxED : Nat) : Nat := maxED + 2

def createSearches (maxED : Nat) : Option (List Search) :=
  schemeAt schemePerED maxED

end O1StarSearchStrategy

namespace ManBestStrategy

def ED4 : List Search :=
  [Search.makeSearch [0, 1, 2, 3, 4, 5] [0, 0, 0, 0, 0, 4] [0, 3, 3, 3, 4, 4],
   Search.makeSearch [1, 2, 3, 4, 5, 0] [0, 0, 0, 0, 0, 0] [0, 2, 2, 3, 3, 4],
   Search.makeSearch [2, 1, 3, 4, 5, 0] [0, 1, 1, 1, 1, 1] [0, 2, 2, 3, 3, 4],
   Search.makeSearch [3, 2, 1, 4, 5, 0] [0, 1, 2, 2, 2, 2] [0, 1, 2, 3, 3, 4],
   Search.makeSearch [5, 4, 3, 2, 1, 0] [0, 0, 0, 0, 3, 3] [0, 0, 4, 4, 4, 4]]

def calculateNumParts (maxED : Nat) : Nat := maxED + 2

/-- The source asserts `maxED == 4` and returns its only table. -/
def createSearches (maxED : Nat) : Option (List Search) :=
  if maxED = 4 then some ED4 else none

end ManBestStrategy

namespace PigeonHoleSearchStrategy

def ED1 : List Search :=
  [Search.makeSearch [0, 1] [0, 0] [0, 1],
   Search.makeSearch [1, 0] [0, 0] [0, 1]]

def ED2 : List Search :=
  [Search.makeSearch [0, 1, 2] [0, 0, 0] [0, 2, 2],
   Search.makeSearch [1, 2, 0] [0, 0, 0] [0, 2, 2],
   Search.makeSearch [2, 1, 0] [0, 0, 0] [0, 2, 2]]

def ED3 : List Search :=
  [Search.makeSearch [0, 1, 2, 3] [0, 0, 0, 0] [0, 3, 3, 3],
   Search.makeSearch [1, 0, 2, 3] [0, 0, 0, 0] [0, 3, 3, 3],
   Search.makeSearch [2, 3, 1, 0] [0, 0, 0, 0] [0, 3, 3, 3],
   Search.makeSearch [3, 2, 1, 0] [0, 0, 0, 0] [0, 3, 3, 3]]

def ED4 : List Search :=
  [Search.makeSearch [0, 1, 2, 3, 4] [0, 0, 0, 0, 0] [0, 4, 4, 4, 4],
   Search.makeSearch [1, 2, 3, 4, 0] [0, 0, 0, 0, 0] [0, 4, 4, 4, 4],
   Search.makeSearch [2, 3, 4, 1, 0] [0, 0, 0, 0, 0] [0, 4, 4, 4, 4],
   Search.makeSearch [3, 4, 2, 1, 0] [0, 0, 0, 0, 0] [0, 4, 4, 4, 4],
   Search.makeSearch [4, 3, 2, 1, 0] [0, 0, 0, 0, 0] [0, 4, 4, 4, 4]]

def schemePerED : List (List Search) := [ED1, ED2, ED3, ED4]

def calculateNumParts (maxED : Nat) : Nat := maxED + 1

def createSearches (maxED : Nat) : Option (List Search) :=
  schemeAt schemePerED maxED

end PigeonHoleSearchStrategy

/-! ## Dispatch over the hard-coded strategies -/

/-- The hard-coded classes derived from `SearchStrategy`, named by their command-line scheme
names in `main.cpp` (`kuch1`, `kuch2`, `kianfar`, `manbest`, `pigeon`, `01*0`). -/
inductive HardcodedScheme where
  | kuch1
  | kuch2
  | kianfar
  | manbest
  | pigeon
  | o1star0
deriving DecidableEq, Repr

namespace HardcodedScheme

/-- The virtual call `strategy->createSearches(maxED)`. -/
def createSearches : HardcodedScheme → Nat → Option (List Search)
  | kuch1 => KucherovKplus1.createSearches
  | kuch2 => KucherovKplus2.createSearches
  | kianfar => OptimalKianfar.createSearches
  | manbest => ManBestStrategy.createSearches
  | pigeon => PigeonHoleSearchStrategy.createSearches
  | o1star0 => O1StarSearchStrategy.createSearches

/-- The virtual call `strategy->calculateNumParts(maxED)`. -/
def calculateNumParts : HardcodedScheme → Nat → Nat
  | kuch1 => KucherovKplus1.calculateNumParts
  | kuch2 => KucherovKplus2.calculateNumParts
  | kianfar => OptimalKianfar.calculateNumParts
  | manbest => ManBestStrategy.calculateNumParts
  | pigeon => PigeonHoleSearchStrategy.calculateNumParts
  | o1star0 => O1StarSearchStrategy.calculateNumParts

end HardcodedScheme

/-! ## Error patterns and coverage -/

/-- An error pattern (`#define Pattern std::vector<int>`): the number of errors in each part. -/
abbrev Pattern := List Nat

/-- Number of errors met after the parts `π[0], …, π[i]` of the search have been visited. -/
def Search.errorsUpTo (s : Search) (e : Pattern) (i : Nat) : Nat :=
  ((List.range (i + 1)).map (fun j => e.getD (s.getPart j) 0)).sum

/-- Executable form of "the search covers the error pattern on its first `p` parts". -/
def Search.coversPattern (s : Search) (p : Nat) (e : Pattern) : Bool :=
  (List.range p).all (fun i =>
    decide (s.getLowerBound i ≤ s.errorsUpTo e i) && decide (s.errorsUpTo e i ≤ s.getUpperBound i))

/-- All error patterns with `P` parts and at most `K` errors in total, the patterns that the
sanity check `SearchStrategy::genErrorPatterns` / `coversPatterns` of the header is declared for.
-/
def errorPatterns : Nat → Nat → List Pattern
  | 0, _ => [[]]
  | P + 1, K =>
    (List.range (K + 1)).flatMap
      (fun x => (errorPatterns P (K - x)).map (fun rest => x :: rest))

/-- Executable check that each of the given patterns is covered, on its first `p` parts, by some
search of the scheme. -/
def coversAll (p : Nat) (patterns : List Pattern) (scheme : List Search) : Bool :=
  patterns.all (fun e => scheme.any (fun s => s.coversPattern p e))

/-! ## Occurrences and the naive backtracking strategy -/

/-- Modelled from the spec: `Range`, the half-open interval `[begin, end)` of positions in the
text (`getBegin()`, `getEnd()` in `main.cpp`); both ends are `length_t` values. -/
structure Range where
  getBegin : Nat
  getEnd : Nat
deriving DecidableEq, Repr

/-- Modelled from the spec: `TextOcc`, an occurrence in the text: (range in `T`, edit distance,
CIGAR), together with the output line that `generateOutput()` prepares for `getOutput()`.  A run
of the CIGAR string is a `std::pair<char, uint>`. -/
structure TextOcc where
  range : Range
  distance : Nat
  CIGAR : List (Char × Nat)
  output : List Char
deriving DecidableEq, Repr

namespace TextOcc

/-- The constructor `TextOcc(range, distance, CIGAR)`: the output line starts out empty. -/
def create (range : Range) (distance : Nat) (CIGAR : List (Char × Nat)) : TextOcc :=
  ⟨range, distance, CIGAR, []⟩

/-- Modelled from the spec: `generateOutput()` renders the occurrence into its output line and
changes nothing else.  The text of the line is fixed in a header that is not among the source
files, so the rendering is the parameter `render`. -/
def generateOutput (render : Range → Nat → List (Char × Nat) → List Char) (t : TextOcc) :
    TextOcc :=
  { t with output := render t.range t.distance t.CIGAR }

def getRange (t : TextOcc) : Range := t.range

def getDistance (t : TextOcc) : Nat := t.distance

def getOutput (t : TextOcc) : List Char := t.output

end TextOcc

/-- Modelled from the spec: the `Counters` of a run, with the counters that `doBench` reports. -/
structure Counters where
  nodeCounter : Nat
  totalReportedPositions : Nat
  cigarsInTextVerification : Nat
  usefulCigarsInText : Nat
  cigarsInIndex : Nat
  inTextStarted : Nat
  abortedInTextVerificationCounter : Nat
  immediateSwitch : Nat
  approximateSearchStarted : Nat
deriving DecidableEq, Repr

/-- Modelled from the spec: `resetCounters()` sets every counter back to zero. -/
def Counters.resetCounters (_ : Counters) : Counters :=
  ⟨0, 0, 0, 0, 0, 0, 0, 0, 0⟩

/-- The two operations of the absent class `FMIndex` that the naive strategy calls, taken as
they come: `exactMatches(pattern, counters)` and `approxMatchesNaive(pattern, maxED, counters)`,
each returning its result and the updated counters. -/
structure FMIndex where
  exactMatches : List Char → Counters → List Nat × Counters
  approxMatchesNaive : List Char → Nat → Counters → List TextOcc × Counters

namespace NaiveBackTrackingStrategy

def searches : List Search := []

def calculateNumParts (_ : Nat) : Nat := 1

def createSearches (_ : Nat) : Option (List Search) := some searches

/-- `NaiveBackTrackingStrategy::matchApprox(pattern, maxED, counters)`.  `lengthBits` is the
width of the typedef `length_t` (declared in a header that is not among the source files);
`uint` has 32 bits.  The loop over `result` appends one occurrence per start position. -/
def matchApprox (lengthBits : Nat) (render : Range → Nat → List (Char × Nat) → List Char)
    (index : FMIndex) (pattern : List Char) (maxED : Nat) (counters : Counters) :
    List TextOcc × Counters :=
  let counters := counters.resetCounters
  if maxED = 0 then
    let (result, counters) := index.exactMatches pattern counters
    let CIGAR : List (Char × Nat) := [('M', pattern.length % 2 ^ 32)]
    let returnvalue := result.foldl
      (fun returnvalue startpos =>
        returnvalue ++
          [(TextOcc.create (Range.mk startpos ((startpos + pattern.length) % 2 ^ lengthBits)) 0
            CIGAR).generateOutput render])
      []
    (returnvalue, counters)
  else
    index.approxMatchesNaive pattern maxED counters

end NaiveBackTrackingStrategy

/-! ## The banded matrix and the edit-distance check of `main.cpp` -/

/-- Modelled from the spec: `BandMatrix`, the classical banded DP edit-distance matrix (its header
is not among the source files).  `W` is the band radius, `m` the height, `n` the last column,
`cell` the content. -/
structure BandMatrix where
  W : Nat
  m : Nat
  n : Nat
  cell : Nat → Nat → Nat

namespace BandMatrix

/-- Modelled from the spec: the content of a cell of a freshly created classical banded matrix:
row 0 and column 0 hold the distance to the empty string inside the band (`cell (0, j) = j`,
`cell (i, 0) = i` up to `W`), every other cell starts at the value `fill` that stands for "more
than `W`". -/
def borderCell (fill W i j : Nat) : Nat :=
  if i = 0 ∧ j ≤ W then j else if j = 0 ∧ i ≤ W then i else fill

/-- Modelled from the spec: the constructor `BandMatrix(m, W)`.  The spec fixes neither the start
value `fill` of the cells nor the last column `n`; both are parameters. -/
def create (n fill m W : Nat) : BandMatrix where
  W := W
  m := m
  n := n
  cell := borderCell fill W

/-- Modelled from the spec: `getFirstColumn(i) = max(1, i-k)`. -/
def getFirstColumn (mat : BandMatrix) (i : Nat) : Nat := max 1 (i - mat.W)

/-- Modelled from the spec: `getLastColumn(i) = min(n, i+k)`. -/
def getLastColumn (mat : BandMatrix) (i : Nat) : Nat := min mat.n (i + mat.W)

/-- Modelled from the spec: `updateMatrix(diff, i, j)` sets
`cell (i,j) = min(up+1, left+1, diag+diff)`. -/
def updateMatrix (mat : BandMatrix) (diff : Bool) (i j : Nat) : BandMatrix :=
  { mat with
    cell := fun a b =>
      if a = i ∧ b = j then
        min (mat.cell (i - 1) j + 1)
          (min (mat.cell i (j - 1) + 1) (mat.cell (i - 1) (j - 1) + (if diff then 1 else 0)))
      else mat.cell a b }

/-- The read access `mat(i, j)`. -/
def get (mat : BandMatrix) (i j : Nat) : Nat := mat.cell i j

end BandMatrix

/-- `numeric_limits<int>::max()`. -/
def INT_MAX : Int := 2147483647

/-- The inner loop of `editDistDP` for row `i`:
`for (j = mat.getFirstColumn(i); j <= mat.getLastColumn(i) && j <= n; j++)`. -/
def editDistDP.fillRow (horizontal vertical : List Char) (n : Nat) (mat : BandMatrix) (i : Nat) :
    BandMatrix :=
  (List.range' (mat.getFirstColumn i)
      (min (mat.getLastColumn i) n + 1 - mat.getFirstColumn i)).foldl
    (fun mat j => mat.updateMatrix (vertical[i - 1]? != horizontal[j - 1]?) i j) mat

/-- The conversion `(int)x` of an unsigned value `x` to the 32-bit `int`: the value modulo `2^32`
in the range of `int` (the result that C++20 fixes and that the compilers give before it). -/
def toInt (x : Nat) : Int := ((x : Int) + 2147483648) % 4294967296 - 2147483648

/-- `editDistDP(P, O, maxED)` of `main.cpp`.  The lengths are converted to `int`; `none` is the
result when an `int` operation overflows (`max(m, n) - min(m, n)`, `m + 1 + maxED`) or when a
converted length is negative, so that the matrix would be read at a negative index.  `cols` and
`fill` are the two parameters of the matrix that the spec leaves open. -/
def editDistDP (cols fill : Nat) (P O : List Char) (maxED : Int) : Option Int :=
  let n := toInt P.length
  let m := toInt O.length
  let horizontal := if n > m then O else P
  let vertical := if n > m then P else O
  let n' := if n > m then m else n
  let m' := if n > m then n else m
  if max m' n' - min m' n' > INT_MAX then none
  else if max m' n' - min m' n' > maxED then some INT_MAX
  else if m' + 1 + maxED > INT_MAX then none
  else if n' < 0 then none
  else
    let mat := BandMatrix.create cols fill (m' + 1 + maxED).toNat maxED.toNat
    let mat :=
      (List.range' 1 m'.toNat).foldl (editDistDP.fillRow horizontal vertical n'.toNat) mat
    some (mat.get m'.toNat n'.toNat : Int)

/-! ## Notions used to state and prove the correctness of `editDistDP` -/

/-- The unit-cost Levenshtein distance `d(xs, ys)`: Mathlib's `levenshtein` with the default cost
(insertion, deletion and substitution of a different character cost 1 each). -/
abbrev lev (xs ys : List Char) : Nat := levenshtein Levenshtein.defaultCost xs ys

/-- Cost of writing `y` for `x`. -/
abbrev subCost (x y : Char) : Nat := if x = y then 0 else 1

/-- A cell value `c` stands for the distance `d` in a band of radius `k`: it is `d` when `d ≤ k`
and above `k` otherwise. -/
def BandMatrix.Agrees (k c d : Nat) : Prop := (d ≤ k → c = d) ∧ (k < d → k < c)

/-- State of the matrix after the rows `1..r` have been filled: every cell of the rows `0..r`
agrees with the distance of the prefixes, the rows below are as created. -/
def editDistDP.RowsDone (horizontal vertical : List Char) (cols fill k : Nat) (mat : BandMatrix)
    (r : Nat) : Prop :=
  mat.W = k ∧ mat.n = cols ∧
    (∀ i j, i ≤ vertical.length → j ≤ horizontal.length → i ≤ r →
      BandMatrix.Agrees k (mat.cell i j) (lev (vertical.take i) (horizontal.take j))) ∧
    (∀ i j, r < i → mat.cell i j = BandMatrix.borderCell fill k i j)

/-- State of the matrix while row `r + 1` is being filled, the columns up to `c` being done. -/
def editDistDP.RowPart (horizontal vertical : List Char) (cols fill k : Nat) (mat : BandMatrix)
    (r c : Nat) : Prop :=
  mat.W = k ∧ mat.n = cols ∧
    (∀ i j, i ≤ vertical.length → j ≤ horizontal.length → (i ≤ r ∨ (i = r + 1 ∧ j ≤ c)) →
      BandMatrix.Agrees k (mat.cell i j) (lev (vertical.take i) (horizontal.take j))) ∧
    (∀ i j, (r + 1 < i ∨ (i = r + 1 ∧ c < j)) → mat.cell i j = BandMatrix.borderCell fill k i j)

/-! ## Reading the reads file (`getFileExt`, `getReads` of `main.cpp`) -/

/-- Result of a function that may throw: a value, an exception with its `what()` text, or no
defined result (a subscript outside a vector). -/
inductive Result (α : Type) where
  | ok (value : α)
  | throws (what : List Char)
  | undefined
deriving DecidableEq, Repr

/-- `s.rfind(c, s.length())`: the index of the last occurrence of `c` in `s`, `npos` being `none`.
-/
def rfind (c : Char) : List Char → Option Nat
  | [] => none
  | x :: xs =>
    match rfind c xs with
    | some i => some (i + 1)
    | none => if x = c then some 0 else none

/-- `s.substr(pos, n)` for `pos ≤ s.length()`. -/
def substr (s : List Char) (pos n : Nat) : List Char := (s.drop pos).take n

/-- `s.substr(pos)` for `pos ≤ s.length()`: the rest of the string from `pos` on. -/
def substrFrom (s : List Char) (pos : Nat) : List Char := s.drop pos

/-- `getFileExt(s)` of `main.cpp`. -/
def getFileExt (s : List Char) : List Char :=
  match rfind '.' s with
  | some i => substr s (i + 1) (s.length - i)
  | none => []

/-- A read and the identifier it is stored under: `pair<string, string>` (identifier, sequence).
-/
abbrev Read := List Char × List Char

/-- State of the FASTA loop of `getReads`: the reads pushed so far, the sequence `read` collected
for the current record and its identifier `p`. -/
structure getReads.FastaState where
  reads : List Read
  read : List Char
  p : List Char
deriving DecidableEq, Repr

/-- One pass of the body of the FASTA loop of `getReads`, for the line read by `getline`. -/
def getReads.fastaLine (getRevCompl : List Char → List Char) (st : getReads.FastaState)
    (line : List Char) : getReads.FastaState :=
  if line ≠ [] ∧ line.head? = some '>' then
    if st.read ≠ [] then
      { reads := st.reads ++ [(st.p, st.read), (st.p, getRevCompl st.read)]
        read := []
        p := substrFrom line 1 }
    else { st with p := substrFrom line 1 }
  else { st with read := st.read ++ line }

/-- The FASTA branch of `getReads`: the loop over the lines and the push after the loop. -/
def getReads.fasta (getRevCompl : List Char → List Char) (lines : List (List Char)) :
    List Read :=
  let st := lines.foldl (getReads.fastaLine getRevCompl) ⟨[], [], []⟩
  if st.read ≠ [] then st.reads ++ [(st.p, st.read), (st.p, getRevCompl st.read)] else st.reads

/-- State of the FASTQ loop of `getReads`: the reads pushed so far, the sequence `read`, the
identifier `id` and the flag `readLine`. -/
structure getReads.FastqState where
  reads : List Read
  read : List Char
  id : List Char
  readLine : Bool
deriving DecidableEq, Repr

/-- One pass of the body of the FASTQ loop of `getReads`. -/
def getReads.fastqLine (getRevCompl : List Char → List Char) (st : getReads.FastqState)
    (line : List Char) : getReads.FastqState :=
  if line ≠ [] ∧ line.head? = some '@' then
    if st.read ≠ [] then
      { reads := st.reads ++ [(st.id, st.read), (st.id, getRevCompl st.read)]
        read := []
        id := substrFrom line 1
        readLine := true }
    else { st with id := substrFrom line 1, readLine := true }
  else if st.readLine then { st with read := line, readLine := false }
  else st

/-- The FASTQ branch of `getReads`. -/
def getReads.fastq (getRevCompl : List Char → List Char) (lines : List (List Char)) :
    List Read :=
  let st := lines.foldl (getReads.fastqLine getRevCompl) ⟨[], [], [], false⟩
  if st.read ≠ [] then st.reads ++ [(st.id, st.read), (st.id, getRevCompl st.read)] else st.reads

/-- The tokens that `while (getline(iss, token, ','))` extracts from a line; `cur` is the token
being read.  An extraction that meets the end of the line before any character fails, so a line
that ends in a comma has no empty last token. -/
def getReads.csvTokens : List Char → List Char → List (List Char)
  | [], cur => if cur = [] then [] else [cur]
  | c :: cs, cur => if c = ',' then cur :: getReads.csvTokens cs [] else
      getReads.csvTokens cs (cur ++ [c])

/-- The CSV branch of `getReads` after the header line has been skipped: every line gives the
single entry `(tokens[1], tokens[2])`; a line with fewer than three tokens is subscripted outside
of `tokens`. -/
def getReads.csv : List (List Char) → Result (List Read)
  | [] => .ok []
  | line :: lines =>
    match getReads.csvTokens line [] with
    | _ :: position :: read :: _ =>
      match getReads.csv lines with
      | .ok reads => .ok ((position, read) :: reads)
      | .throws what => .throws what
      | .undefined => .undefined
    | _ => .undefined

/-- `getReads(file)` of `main.cpp`.  `open_ file` is what opening the file gives: `none` when the
file cannot be opened, else the lines that `getline` reads from it, in order.
`Nucleotide::getRevCompl` is defined in a header that is not among the source files and is the
parameter `getRevCompl`. -/
def getReads (open_ : List Char → Option (List (List Char)))
    (getRevCompl : List Char → List Char) (file : List Char) : Result (List Read) :=
  let extension := getFileExt file
  let fasta := extension = "FASTA".toList ∨ extension = "fasta".toList ∨ extension = "fa".toList
  let fastq := extension = "fq".toList ∨ extension = "fastq".toList
  match open_ file with
  | none => .throws ("Cannot open file ".toList ++ file)
  | some lines =>
    if ¬ fasta ∧ ¬ fastq then
      if extension ≠ "csv".toList then
        .throws ("extension ".toList ++ extension ++
          " is not a valid extension for the readsfile".toList)
      else getReads.csv (lines.drop 1)
    else if fasta then .ok (getReads.fasta getRevCompl lines)
    else .ok (getReads.fastq getRevCompl lines)

/-- The reads come in pairs: the list has even length and the entries `2i` and `2i+1` carry the
same identifier, the sequence of entry `2i+1` being the reverse complement of that of entry `2i`.
-/
def PairedReads (getRevCompl : List Char → List Char) (reads : List Read) : Prop :=
  reads.length % 2 = 0 ∧
    ∀ i, 2 * i + 1 < reads.length →
      ∃ id seq, reads[2 * i]? = some (id, seq) ∧ reads[2 * i + 1]? = some (id, getRevCompl seq)

/-! ## Writing the output file (`writeToOutput` of `main.cpp`) -/

/-- The header line of the output file. -/
def writeToOutput.header : List Char :=
  "identifier\tposition\tlength\tED\tCIGAR\treverseComplement\n".toList

/-- The text that `f2 << id << "\t" << m.getOutput() << "\t0\n"` writes for each match of a list
(`flag` is the character `0` or `1`). -/
def writeToOutput.matchLines (id : List Char) (flag : Char) (ms : List TextOcc) : List Char :=
  ms.foldl (fun f2 m => f2 ++ id ++ ['\t'] ++ m.getOutput ++ ['\t', flag, '\n']) []

/-- How a loop that is run for a bounded number of passes ends: with its result, at an operation
without a defined result, or still running when the passes are used up. -/
inductive Loop (α : Type) where
  | finished (value : α)
  | undefined
  | outOfFuel
deriving DecidableEq, Repr

/-- The loop `for (unsigned int i = 0; i < reads.size(); i += 2)` of `writeToOutput`, from the
value `i` of the counter and the text `f2` written so far, for at most `fuel` tests of the loop
condition.  The counter is a 32-bit `unsigned int`: `i + 1` and `i += 2` are taken modulo `2^32`.
A subscript outside of `reads` or `mPerRead` has no defined result. -/
def writeToOutput.loop (mPerRead : List (List TextOcc)) (reads : List Read) :
    Nat → Nat → List Char → Loop (List Char)
  | 0, _, _ => .outOfFuel
  | fuel + 1, i, f2 =>
    if i < reads.length then
      match reads[i]?, mPerRead[i]?, mPerRead[(i + 1) % 4294967296]? with
      | some (id, _), some ms, some msRev =>
        writeToOutput.loop mPerRead reads fuel ((i + 2) % 4294967296)
          (f2 ++ writeToOutput.matchLines id '0' ms ++ writeToOutput.matchLines id '1' msRev)
      | _, _, _ => .undefined
    else .finished f2

/-- `writeToOutput(file, mPerRead, reads)` of `main.cpp`: the text written to the stream `f2`
when the loop ends within `fuel` tests of its condition. -/
def writeToOutput (fuel : Nat) (mPerRead : List (List TextOcc)) (reads : List Read) :
    Loop (List Char) :=
  writeToOutput.loop mPerRead reads fuel 0 writeToOutput.header

/-- The even indices `0, 2, 4, …` below `size`, in increasing order. -/
def writeToOutput.evenIndices (size : Nat) : List Nat :=
  (List.range ((size + 1) / 2)).map (fun h => 2 * h)

/-- The data lines of the output file as the spec describes them, without their line ends: for
every even index `i`, one line per match of `mPerRead[i]` ending in the field `0`, then one line
per match of `mPerRead[i+1]` ending in the field `1`, each starting with `reads[i].first`. -/
def writeToOutput.dataLines (mPerRead : List (List TextOcc)) (reads : List Read) :
    List (List Char) :=
  (writeToOutput.evenIndices reads.length).flatMap (fun i =>
    ((mPerRead.getD i []).map
        (fun m => (reads.getD i ([], [])).1 ++ ['\t'] ++ m.getOutput ++ ['\t', '0'])) ++
      ((mPerRead.getD (i + 1) []).map
        (fun m => (reads.getD i ([], [])).1 ++ ['\t'] ++ m.getOutput ++ ['\t', '1'])))

/-- The list of reads in which every record `(identifier, sequence)` is followed by its reverse
complement under the same identifier. -/
def pairUp (getRevCompl : List Char → List Char) (records : List Read) : List Read :=
  records.flatMap (fun r => [(r.1, r.2), (r.1, getRevCompl r.2)])

/-! ## The command line (`main` of `main.cpp`) -/

inductive PartitionStrategy where
  | UNIFORM
  | STATIC
  | DYNAMIC
deriving DecidableEq, Repr

inductive DistanceMetric where
  | HAMMING
  | EDITNAIVE
  | EDITOPTIMIZED
deriving DecidableEq, Repr

namespace Columba

/-- The global `schemes` of `main.cpp`. -/
def schemes : List (List Char) :=
  ["kuch1".toList, "kuch2".toList, "kianfar".toList, "manbest".toList, "pigeon".toList,
    "01*0".toList, "custom".toList, "naive".toList]

def EXIT_SUCCESS : Int := 0

def EXIT_FAILURE : Int := 1

/-- How a run of `main` ends: it returns an exit status, or an exception that nobody catches
ends the program (`std::terminate`), or the run has no defined behaviour. -/
inductive Outcome where
  | returned (status : Int)
  | terminated (what : List Char)
  | undefined
deriving DecidableEq, Repr

/-- What a run of `main` does, as far as it can be observed from outside. -/
inductive Event where
  | cout (text : List Char)
  | cerr (text : List Char)
  | showUsage
  | getReads (readsFile : List Char)
  | newFMIndex (baseFile : List Char) (inTextSwitchPoint saSF : Nat)
  | newStrategy (searchscheme customFile : List Char) (pStrat : PartitionStrategy)
      (metric : DistanceMetric)
  | doBench (readsFile : List Char) (ED : Nat)
deriving DecidableEq, Repr

/-- A run of `main`: its events in order, and how it ends. -/
structure Run where
  events : List Event
  outcome : Outcome
deriving DecidableEq, Repr

/-- A part of `main` either goes on with a value or ends the run; `log` holds its events. -/
inductive Step (α : Type) where
  | continues (log : List Event) (value : α)
  | stops (log : List Event) (outcome : Outcome)
deriving DecidableEq, Repr

/-- The local variables of `main` that the options set. -/
structure Settings where
  saSparse : List Char
  maxED : List Char
  searchscheme : List Char
  customFile : List Char
  inTextPoint : List Char
  pStrat : PartitionStrategy
  metric : DistanceMetric
deriving DecidableEq, Repr

/-- The initial values of the local variables of `main`. -/
def defaults : Settings where
  saSparse := "1".toList
  maxED := "0".toList
  searchscheme := "kuch1".toList
  customFile := []
  inTextPoint := "5".toList
  pStrat := .DYNAMIC
  metric := .EDITOPTIMIZED

/-- The loop `for (int i = 1; i < argc - requiredArguments; i++)` of `main` over the optional
arguments.  The second argument is `argv[i], …, argv[argc-1]` and the first is the number
`argc - requiredArguments - i` of loop positions that are left (0 ends the loop), so that
`i + 1 < argc` says that the list has a second entry and `argv[++i]` takes it. -/
def processOptions : Nat → List (List Char) → Settings → Step Settings
  | 0, _, s => .continues [] s
  | _ + 1, [], s => .continues [] s
  | k + 1, arg :: rest, s =>
    if arg = "-p".toList ∨ arg = "--partitioning".toList then
      match rest with
      | v :: rest' =>
        if v = "uniform".toList then processOptions (k - 1) rest' { s with pStrat := .UNIFORM }
        else if v = "dynamic".toList then
          processOptions (k - 1) rest' { s with pStrat := .DYNAMIC }
        else if v = "static".toList then
          processOptions (k - 1) rest' { s with pStrat := .STATIC }
        else
          .stops [] (.terminated (v ++
            " is not a partitioning option\nOptions are: uniform, static, dynamic".toList))
      | [] => .stops [] (.terminated (arg ++ " takes 1 argument as input".toList))
    else if arg = "-s".toList ∨ arg = "--sa-sparseness".toList then
      match rest with
      | v :: rest' => processOptions (k - 1) rest' { s with saSparse := v }
      | [] => .stops [] (.terminated (arg ++ " takes 1 argument as input".toList))
    else if arg = "-e".toList ∨ arg = "--max-ed".toList then
      match rest with
      | v :: rest' => processOptions (k - 1) rest' { s with maxED := v }
      | [] => processOptions k [] s
    else if arg = "-ss".toList ∨ arg = "--search-scheme".toList then
      match rest with
      | v :: rest' =>
        if v ∉ schemes then
          .stops [] (.terminated (v ++ " is not on option as search scheme".toList))
        else if v = "custom".toList then
          match rest' with
          | folder :: rest'' =>
            processOptions (k - 2) rest'' { s with searchscheme := v, customFile := folder }
          | [] =>
            .stops [] (.terminated "custom search scheme takes a folder as argument".toList)
        else processOptions (k - 1) rest' { s with searchscheme := v }
      | [] => .stops [] (.terminated (arg ++ " takes 1 argument as input".toList))
    else if arg = "-m".toList ∨ arg = "-metric".toList then
      match rest with
      | v :: rest' =>
        if v = "editopt".toList then
          processOptions (k - 1) rest' { s with metric := .EDITOPTIMIZED }
        else if v = "editnaive".toList then
          processOptions (k - 1) rest' { s with metric := .EDITNAIVE }
        else if v = "hamming".toList then
          processOptions (k - 1) rest' { s with metric := .HAMMING }
        else
          .stops [] (.terminated (v ++
            " is not a metric option\nOptions are: editopt, editnaive, hamming".toList))
      | [] => .stops [] (.terminated (arg ++ " takes 1 argument as input".toList))
    else if arg = "-i".toList ∨ arg = "--in-text".toList then
      match rest with
      | v :: rest' => processOptions (k - 1) rest' { s with inTextPoint := v }
      | [] => .stops [] (.terminated (arg ++ " takes 1 argument as input".toList))
    else
      .stops [.cerr ("Unknown argument: ".toList ++ arg ++ " is not an option\n".toList)]
        (.returned 0)

/-- `isspace` in the C locale. -/
def isspace (c : Char) : Bool :=
  c = ' ' || c = '\t' || c = '\n' || c = '\x0b' || c = '\x0c' || c = '\r'

/-- `std::stoi(str)` of the standard library, base 10: white space is skipped, an optional sign
and the longest run of digits are read, what follows is ignored.  `none` stands for the exception
(`std::invalid_argument` without a digit, `std::out_of_range` outside of `int`), whose `what()`
is `stoi`. -/
def stoi (str : List Char) : Option Int :=
  let s := str.dropWhile isspace
  let negative := s.head? = some '-'
  let s := if s.head? = some '-' ∨ s.head? = some '+' then s.drop 1 else s
  let digits := s.takeWhile Char.isDigit
  if digits = [] then none
  else
    let value : Int := (digits.foldl (fun acc c => 10 * acc + (c.toNat - '0'.toNat)) 0 : Nat)
    let value := if negative then -value else value
    if -2147483648 ≤ value ∧ value ≤ 2147483647 then some value else none

/-- The conversion of an `int` to the unsigned type `length_t` of `lengthBits` bits. -/
def toLength (lengthBits : Nat) (x : Int) : Nat := (x % (2 : Int) ^ lengthBits).toNat

/-- The values that `main` hands on after its checks. -/
structure Config where
  ed : Nat
  saSF : Nat
  inTextSwitchPoint : Nat
  searchscheme : List Char
  customFile : List Char
  pStrat : PartitionStrategy
  metric : DistanceMetric
deriving DecidableEq, Repr

/-- The checks of `main` between the option loop and the reading of the reads: the conversions
with `stoi`, the bound on `ed`, the test of the sparseness factor and the test for `manbest`. -/
def argumentChecks (lengthBits : Nat) (s : Settings) : Step Config :=
  match stoi s.maxED with
  | none => .stops [] (.terminated "stoi".toList)
  | some maxED =>
    let ed := toLength lengthBits maxED
    if ed > 6 then
      .stops
        [.cerr ((Nat.repr ed).toList ++ " is not allowed as maxED should be in [0, 4]\n".toList)]
        (.returned EXIT_FAILURE)
    else
      match stoi s.saSparse with
      | none => .stops [] (.terminated "stoi".toList)
      | some saSparse =>
        let saSF := toLength lengthBits saSparse
        let log :=
          if saSF = 0 ∨ saSF > 256 ∨ Nat.land saSF (saSF - 1) ≠ 0 then
            [Event.cerr ((Nat.repr saSF).toList ++
              " is not allowed as sparse factor, should be in 2^[0, 8]\n".toList)]
          else []
        match stoi s.inTextPoint with
        | none => .stops log (.terminated "stoi".toList)
        | some inTextPoint =>
          if ed ≠ 4 ∧ s.searchscheme = "manbest".toList then
            .stops log (.terminated "manbest only supports 4 allowed errors".toList)
          else
            .continues log
              { ed := ed
                saSF := saSF
                inTextSwitchPoint := toLength lengthBits inTextPoint
                searchscheme := s.searchscheme
                customFile := s.customFile
                pStrat := s.pStrat
                metric := s.metric }

/-- What lies outside of `main.cpp`: the files (`open_ file` is `none` when the file cannot be
opened, else its lines), `Nucleotide::getRevCompl`, and for the constructor of `FMIndex`, the
constructor of `CustomSearchStrategy` and the matching inside `doBench` the `what()` of the
exception that leaves them, if any. -/
structure World where
  open_ : List Char → Option (List (List Char))
  getRevCompl : List Char → List Char
  newFMIndex : List Char → Nat → Nat → Option (List Char)
  newCustomSearchStrategy : List Char → Option (List Char)
  doBench : List Read → List Char → Nat → Option (List Char)

/-- The last part of `main`: the reads are read, the index is loaded, the strategy is created and
`doBench` is called. -/
def runBench (w : World) (argv : List (List Char)) (c : Config) : Run :=
  let argc := argv.length
  let baseFile := argv.getD (argc - 2) []
  let readsFile := argv.getD (argc - 1) []
  let log := [Event.cout ("Reading in reads from ".toList ++ readsFile ++ ['\n']),
    Event.getReads readsFile]
  match getReads w.open_ w.getRevCompl readsFile with
  | .undefined => ⟨log, .undefined⟩
  | .throws what => ⟨log, .terminated (what ++ " Did you provide a valid reads file?".toList)⟩
  | .ok reads =>
    let log := log ++ [Event.newFMIndex baseFile c.inTextSwitchPoint c.saSF]
    match w.newFMIndex baseFile c.inTextSwitchPoint c.saSF with
    | some what => ⟨log, .terminated what⟩
    | none =>
      if c.searchscheme ∉ schemes then
        ⟨log, .terminated (c.searchscheme ++ " is not on option as search scheme".toList)⟩
      else
        let log := log ++ [Event.newStrategy c.searchscheme c.customFile c.pStrat c.metric]
        match (if c.searchscheme = "custom".toList then w.newCustomSearchStrategy c.customFile
          else none) with
        | some what => ⟨log, .terminated what⟩
        | none =>
          let log := log ++ [Event.doBench readsFile c.ed]
          match w.doBench reads c.searchscheme c.ed with
          | some what => ⟨log, .terminated what⟩
          | none => ⟨log ++ [Event.cout "Bye...\n".toList], .returned 0⟩

/-- `main(argc, argv)` of `main.cpp`, with `argc = argv.length`. -/
def main (w : World) (lengthBits : Nat) (argv : List (List Char)) : Run :=
  let argc := argv.length
  let requiredArguments := 2
  if argc < requiredArguments then
    ⟨[.cerr "Insufficient number of arguments\n".toList, .showUsage], .returned EXIT_FAILURE⟩
  else if argc = 2 ∧ argv[1]? = some "help".toList then
    ⟨[.showUsage], .returned EXIT_SUCCESS⟩
  else
    let welcome := Event.cout "Welcome to Columba!\n".toList
    match processOptions (argc - requiredArguments - 1) (argv.drop 1) defaults with
    | .stops log outcome => ⟨welcome :: log, outcome⟩
    | .continues log s =>
      match argumentChecks lengthBits s with
      | .stops log' outcome => ⟨welcome :: (log ++ log'), outcome⟩
      | .continues log' c =>
        let run := runBench w argv c
        ⟨welcome :: (log ++ log' ++ run.events), run.outcome⟩

/-- The class that `main` instantiates for a scheme name with hard-coded searches. -/
def hardcodedScheme (searchscheme : List Char) : Option HardcodedScheme :=
  if searchscheme = "kuch1".toList then some .kuch1
  else if searchscheme = "kuch2".toList then some .kuch2
  else if searchscheme = "kianfar".toList then some .kianfar
  else if searchscheme = "manbest".toList then some .manbest
  else if searchscheme = "01*0".toList then some .o1star0
  else if searchscheme = "pigeon".toList then some .pigeon
  else none

end Columba

/-! ## The observation behind the 01*0 strategy -/

/-- The pattern has a seed: two error-free parts `i < j` with exactly one error in every part
between them. -/
def O1StarSearchStrategy.HasSeed (e : Pattern) : Prop :=
  ∃ i j, i < j ∧ j < e.length ∧ e[i]? = some 0 ∧ e[j]? = some 0 ∧
    ∀ l, i < l → l < j → e[l]? = some 1

/-- The pattern starts with parts of exactly one error each, followed by an error-free part. -/
def O1StarSearchStrategy.HasOpenSeed (e : Pattern) : Prop :=
  ∃ j, j < e.length ∧ e[j]? = some 0 ∧ ∀ l, l < j → e[l]? = some 1

namespace Columba

/-- The settings `s` and `s0` agree in every setting whose option does not occur in `rest`:
the option `-ss` owns the search scheme and the folder of a custom scheme. -/
def Frame (rest : List (List Char)) (s0 s : Settings) : Prop :=
  ("-p".toList ∉ rest → "--partitioning".toList ∉ rest → s.pStrat = s0.pStrat) ∧
    ("-s".toList ∉ rest → "--sa-sparseness".toList ∉ rest → s.saSparse = s0.saSparse) ∧
    ("-e".toList ∉ rest → "--max-ed".toList ∉ rest → s.maxED = s0.maxED) ∧
    ("-ss".toList ∉ rest → "--search-scheme".toList ∉ rest →
      s.searchscheme = s0.searchscheme ∧ s.customFile = s0.customFile) ∧
    ("-m".toList ∉ rest → "-metric".toList ∉ rest → s.metric = s0.metric) ∧
    ("-i".toList ∉ rest → "--in-text".toList ∉ rest → s.inTextPoint = s0.inTextPoint)

/-- The values that `main` hands on when no option is given. -/
def defaultConfig : Config where
  ed := 0
  saSF := 1
  inTextSwitchPoint := 5
  searchscheme := "kuch1".toList
  customFile := []
  pStrat := .DYNAMIC
  metric := .EDITOPTIMIZED

/-- An example of a world: the file `reads.fq` holds one FASTQ record and is the only file that
can be opened, the reverse complement is taken over the letters A, C, G and T, and nothing
outside of `main.cpp` throws. -/
def exampleWorld : World where
  open_ := fun file =>
    if file = "reads.fq".toList then
      some ["@r1".toList, "ACGT".toList, "+".toList, "IIII".toList]
    else none
  getRevCompl := fun read =>
    (read.map (fun c =>
      if c = 'A' then 'T' else if c = 'T' then 'A' else if c = 'C' then 'G'
      else if c = 'G' then 'C' else c)).reverse
  newFMIndex := fun _ _ _ => none
  newCustomSearchStrategy := fun _ => none
  doBench := fun _ _ _ => none

end Columba

/-! ## Partitioning: the positions and weights of `searchstrategy.h` -/

/-- The expression `table[maxScore - 1]` on a `std::vector` with `int maxScore`: the index is
converted to `size_t`, so that `maxScore ≤ 0` gives an index past the end, which like every such
index has no defined result. -/
def tableAt {α : Type} (table : List α) (maxScore : Int) : Option α :=
  if maxScore - 1 < 0 then none else table[(maxScore - 1).toNat]?

namespace SearchStrategy

/-- The default `SearchStrategy::getBegins(numParts, maxScore)`: `u = 1.0 / numParts` and the
values `i * u` for `i = 1, …, numParts - 1` (`double`s taken as exact rationals). -/
def getBegins (numParts _maxScore : Int) : List ℚ :=
  let u : ℚ := 1 / (numParts : ℚ)
  (List.range' 1 (numParts - 1).toNat).map (fun (i : Nat) => (i : ℚ) * u)

end SearchStrategy

namespace CustomSearchStrategy

/-- `CustomSearchStrategy::getBeginsDefault(numParts, maxScore)`. -/
def getBeginsDefault (numParts maxScore : Int) : List ℚ :=
  SearchStrategy.getBegins numParts maxScore

end CustomSearchStrategy

namespace KucherovKplus1

def seedingPositions : List (List ℚ) := [[], [0.57], [0.38, 0.65], [0.38, 0.55, 0.73]]

def weights : List (List Int) := [[1, 1], [39, 10, 40], [400, 4, 5, 400], [100, 5, 1, 6, 105]]

def staticPositions : List (List ℚ) :=
  [[0.5], [0.41, 0.7], [0.25, 0.50, 0.75], [0.27, 0.47, 0.62, 0.81]]

def getBegins (_numParts maxScore : Int) : Option (List ℚ) := tableAt staticPositions maxScore

def getWeights (_numParts maxScore : Int) : Option (List Int) := tableAt weights maxScore

def getSeedingPositions (_numParts maxScore : Int) : Option (List ℚ) :=
  tableAt seedingPositions maxScore

end KucherovKplus1

namespace KucherovKplus2

def seedingPositions : List (List ℚ) :=
  [[0.94], [0.48, 0.55], [0.4, 0.63, 0.9], [0.34, 0.5, 0.65, 0.7]]

def weights : List (List Int) :=
  [[11, 10, 1], [400, 4, 1, 800], [6, 3, 2, 1, 1], [52, 42, 16, 14, 1, 800]]

def staticPositions : List (List ℚ) :=
  [[0.47, 0.94], [0.35, 0.50, 0.65], [0.22, 0.44, 0.66, 0.88], [0.18, 0.37, 0.53, 0.69, 0.83]]

def getBegins (_numParts maxScore : Int) : Option (List ℚ) := tableAt staticPositions maxScore

def getWeights (_numParts maxScore : Int) : Option (List Int) := tableAt weights maxScore

def getSeedingPositions (_numParts maxScore : Int) : Option (List ℚ) :=
  tableAt seedingPositions maxScore

end KucherovKplus2

namespace OptimalKianfar

def seedingPositions : List (List ℚ) := [[], [0.50], [0.34, 0.66], [0.42, 0.56, 0.67]]

def weights : List (List Int) := [[1, 1], [10, 1, 5], [1, 1, 1, 1], [7, 2, 1, 3, 5]]

def staticPositions : List (List ℚ) :=
  [[0.5], [0.30, 0.60], [0.17, 0.69, 0.96], [0.2, 0.5, 0.6, 0.8]]

def getBegins (_numParts maxScore : Int) : Option (List ℚ) := tableAt staticPositions maxScore

def getWeights (_numParts maxScore : Int) : Option (List Int) := tableAt weights maxScore

def getSeedingPositions (_numParts maxScore : Int) : Option (List ℚ) :=
  tableAt seedingPositions maxScore

end OptimalKianfar

namespace O1StarSearchStrategy

def seedingPositions : List (List ℚ) :=
  [[0.94], [0.51, 0.93], [0.34, 0.64, 0.88], [0.28, 0.48, 0.63, 0.94]]

def weights : List (List Int) :=
  [[11, 10, 1], [20, 11, 11, 10], [3, 2, 2, 1, 1], [1, 2, 2, 1, 2, 1]]

def staticPositions : List (List ℚ) :=
  [[0.50, 0.96], [0.26, 0.64, 0.83], [0.22, 0.46, 0.67, 0.95], [0.19, 0.37, 0.57, 0.74, 0.96]]

def getBegins (_numParts maxScore : Int) : Option (List ℚ) := tableAt staticPositions maxScore

def getWeights (_numParts maxScore : Int) : Option (List Int) := tableAt weights maxScore

def getSeedingPositions (_numParts maxScore : Int) : Option (List ℚ) :=
  tableAt seedingPositions maxScore

end O1StarSearchStrategy

namespace ManBestStrategy

def seedingPositions : List ℚ := [0.35, 0.59, 0.67, 0.9]

def weights : List Int := [89, 15, 90, 1, 48, 84]

def staticPositions : List ℚ := [0.24, 0.43, 0.62, 0.73, 0.77]

/-- `getBegins` of `ManBestStrategy`: `assert(maxScore == 4)`. -/
def getBegins (_numParts maxScore : Int) : Option (List ℚ) :=
  if maxScore = 4 then some staticPositions else none

def getWeights (_numParts maxScore : Int) : Option (List Int) :=
  if maxScore = 4 then some weights else none

def getSeedingPositions (_numParts maxScore : Int) : Option (List ℚ) :=
  if maxScore = 4 then some seedingPositions else none

end ManBestStrategy

/-- The hard-coded classes that override the three partitioning functions
(`PigeonHoleSearchStrategy` keeps those of the base class). -/
inductive PartitionedScheme where
  | kuch1
  | kuch2
  | kianfar
  | o1star0
  | manbest
deriving DecidableEq, Repr

namespace PartitionedScheme

/-- The class as one of the hard-coded strategies. -/
def toHardcodedScheme : PartitionedScheme → HardcodedScheme
  | kuch1 => .kuch1
  | kuch2 => .kuch2
  | kianfar => .kianfar
  | o1star0 => .o1star0
  | manbest => .manbest

/-- The virtual call `getBegins(numParts, maxScore)`. -/
def getBegins : PartitionedScheme → Int → Int → Option (List ℚ)
  | kuch1 => KucherovKplus1.getBegins
  | kuch2 => KucherovKplus2.getBegins
  | kianfar => OptimalKianfar.getBegins
  | o1star0 => O1StarSearchStrategy.getBegins
  | manbest => ManBestStrategy.getBegins

/-- The virtual call `getSeedingPositions(numParts, maxScore)`. -/
def getSeedingPositions : PartitionedScheme → Int → Int → Option (List ℚ)
  | kuch1 => KucherovKplus1.getSeedingPositions
  | kuch2 => KucherovKplus2.getSeedingPositions
  | kianfar => OptimalKianfar.getSeedingPositions
  | o1star0 => O1StarSearchStrategy.getSeedingPositions
  | manbest => ManBestStrategy.getSeedingPositions

/-- The virtual call `getWeights(numParts, maxScore)`. -/
def getWeights : PartitionedScheme → Int → Int → Option (List Int)
  | kuch1 => KucherovKplus1.getWeights
  | kuch2 => KucherovKplus2.getWeights
  | kianfar => OptimalKianfar.getWeights
  | o1star0 => O1StarSearchStrategy.getWeights
  | manbest => ManBestStrategy.getWeights

end PartitionedScheme

/-! ## The median of the numbers of matches (`findMedian` of `main.cpp`) -/

/-- What the C++ standard says about `std::nth_element(a.begin(), a.begin() + nth, a.end())` for
`nth < a.size()`, where `nth_element a nth` is the vector after the call: it is a rearrangement
of `a`, the element at position `nth` is the one that a sort would put there, and no element
before position `nth` is greater than an element from position `nth` on.  The order inside the
two parts is not specified. -/
def NthElementSpec (nth_element : List Nat → Nat → List Nat) : Prop :=
  ∀ a nth, nth < a.length →
    (nth_element a nth).Perm a ∧
      (nth_element a nth)[nth]? = (a.insertionSort (fun x y => x ≤ y))[nth]? ∧
      ∀ x ∈ (nth_element a nth).take nth, ∀ y ∈ (nth_element a nth).drop nth, x ≤ y

/-- `findMedian(a, n)` of `main.cpp`.  The standard library's `nth_element` is a parameter; the
vector is passed by value, so the caller's vector is not touched.  `n / 2` and `n % 2` are the
truncating operations of `int`; a position outside of the vector has no defined result.  The sum
is taken in `length_t` (`lengthBits` bits) and the `double` result is an exact rational. -/
def findMedian (lengthBits : Nat) (nth_element : List Nat → Nat → List Nat) (a : List Nat)
    (n : Int) : Option ℚ :=
  if Int.tmod n 2 = 0 then
    let hi := Int.tdiv n 2
    let lo := Int.tdiv (n - 1) 2
    if 0 ≤ lo ∧ 0 ≤ hi ∧ lo < a.length ∧ hi < a.length then
      let a := nth_element a hi.toNat
      let a := nth_element a lo.toNat
      match a[lo.toNat]?, a[hi.toNat]? with
      | some x, some y => some ((((x + y) % 2 ^ lengthBits : Nat) : ℚ) / 2)
      | _, _ => none
    else none
  else
    let mid := Int.tdiv n 2
    if 0 ≤ mid ∧ mid < a.length then
      let a := nth_element a mid.toNat
      (a[mid.toNat]?).map (fun x => (x : ℚ))
    else none

/-- The median of `a` as the claim words it: with `s` the ascending sort of `a` and `n = |a|`,
`s[n/2]` when `n` is odd and `(s[(n-1)/2] + s[n/2]) / 2` when `n` is even. -/
def median (a : List Nat) : Option ℚ :=
  let s := a.insertionSort (fun x y => x ≤ y)
  let n := a.length
  if n % 2 = 1 then (s[n / 2]?).map (fun x => (x : ℚ))
  else
    match s[(n - 1) / 2]?, s[n / 2]? with
    | some x, some y => some (((x + y : Nat) : ℚ) / 2)
    | _, _ => none

/-- An `nth_element` that the standard allows: the `nth + 1` smallest elements in ascending
order, followed by the others in descending order. -/
def nthElementDescending (a : List Nat) (nth : Nat) : List Nat :=
  (a.insertionSort (fun x y => x ≤ y)).take (nth + 1) ++
    ((a.insertionSort (fun x y => x ≤ y)).drop (nth + 1)).reverse

/-! ## The cells that `editDistDP` fills -/

/-- The cells `(i, j)` for which `editDistDP(P, O, maxED)` calls `mat.updateMatrix(…, i, j)`, in
the order of the calls: none when the check of the dimensions returns (or when the call has no
defined result, or the shorter length is converted to a negative `int`, for which the inner loop
does not run), else those of the two loops.  `cols` is the last column of the matrix. -/
def editDistDP.updatedCells (cols : Nat) (P O : List Char) (maxED : Int) : List (Nat × Nat) :=
  let n := toInt P.length
  let m := toInt O.length
  let n' := if n > m then m else n
  let m' := if n > m then n else m
  if max m' n' - min m' n' > INT_MAX then []
  else if max m' n' - min m' n' > maxED then []
  else if m' + 1 + maxED > INT_MAX then []
  else if n' < 0 then []
  else
    (List.range' 1 m'.toNat).flatMap (fun i =>
      (List.range' (max 1 (i - maxED.toNat))
        (min (min cols (i + maxED.toNat)) n'.toNat + 1 - max 1 (i - maxED.toNat))).map
        (fun j => (i, j)))

/-! ## Well-formed FASTQ and FASTA files -/

/-- A FASTQ record: the identifier of the line `@id`, the sequence line, what follows the `+` of
the third line, and the quality line. -/
structure FastqRecord where
  id : List Char
  sequence : List Char
  plus : List Char
  quality : List Char
deriving DecidableEq, Repr

/-- The four lines of a FASTQ record. -/
def FastqRecord.lines (r : FastqRecord) : List (List Char) :=
  ['@' :: r.id, r.sequence, '+' :: r.plus, r.quality]

/-- A FASTQ record is well formed when its sequence line is not empty and does not start with
`@`; the quality line is arbitrary. -/
def FastqRecord.WellFormed (r : FastqRecord) : Prop :=
  r.sequence ≠ [] ∧ r.sequence.head? ≠ some '@'

/-- A FASTA record: the header line without its leading `>` and the sequence lines. -/
structure FastaRecord where
  header : List Char
  sequenceLines : List (List Char)
deriving DecidableEq, Repr

/-- The lines of a FASTA record. -/
def FastaRecord.lines (r : FastaRecord) : List (List Char) :=
  ('>' :: r.header) :: r.sequenceLines

/-- A FASTA record is well formed when it has one or more sequence lines, none of which starts
with `>`, and their concatenation is not empty. -/
def FastaRecord.WellFormed (r : FastaRecord) : Prop :=
  r.sequenceLines ≠ [] ∧ (∀ l ∈ r.sequenceLines, l.head? ≠ some '>') ∧
    r.sequenceLines.flatten ≠ []

/-! ## Coverage of the error patterns -/

theorem mem_errorPatterns (P : Nat) : ∀ (K : Nat) (e : Pattern),
    e.length = P → e.sum ≤ K → e ∈ errorPatterns P K := by
  induction P with
  | zero =>
    intro K e hlen _
    have : e = [] := List.length_eq_zero.mp hlen
    simp [this, errorPatterns]
  | succ P ih =>
    intro K e hlen hsum
    cases e with
    | nil => simp at hlen
    | cons x rest =>
      simp only [List.length_cons, Nat.succ.injEq] at hlen
      simp only [List.sum_cons] at hsum
      simp only [errorPatterns, List.mem_flatMap, List.mem_range, List.mem_map]
      exact ⟨x, by omega, rest, ih (K - x) rest hlen (by omega), rfl⟩

theorem errorsUpTo_eq_sum (s : Search) (e : Pattern) (i : Nat) :
    s.errorsUpTo e i = ∑ j ∈ Finset.range (i + 1), e.getD (s.getPart j) 0 := by
  unfold Search.errorsUpTo
  generalize i + 1 = n
  induction n with
  | zero => simp
  | succ n ih => rw [List.range_succ, List.map_append, List.sum_append, ih, Finset.sum_range_succ]; simp

theorem coversPattern_iff (s : Search) (p : Nat) (e : Pattern) :
    s.coversPattern p e = true ↔
      ∀ i < p, s.getLowerBound i ≤ ∑ j ∈ Finset.range (i + 1), e.getD (s.getPart j) 0 ∧
        ∑ j ∈ Finset.range (i + 1), e.getD (s.getPart j) 0 ≤ s.getUpperBound i := by
  simp [Search.coversPattern, errorsUpTo_eq_sum]

theorem covered_of_coversAll (p k : Nat) (scheme : List Search)
    (h : coversAll p (errorPatterns p k) scheme = true) (e : Pattern)
    (hlen : e.length = p) (hsum : e.sum ≤ k) :
    ∃ s ∈ scheme, ∀ i < p,
      s.getLowerBound i ≤ ∑ j ∈ Finset.range (i + 1), e.getD (s.getPart j) 0 ∧
        ∑ j ∈ Finset.range (i + 1), e.getD (s.getPart j) 0 ≤ s.getUpperBound i := by
  unfold coversAll at h
  rw [List.all_eq_true] at h
  have h1 := h e (mem_errorPatterns p k e hlen hsum)
  rw [List.any_eq_true] at h1
  obtain ⟨s, hs, hc⟩ := h1
  exact ⟨s, hs, (coversPattern_iff s p e).mp hc⟩

/-- C1: for every `k ∈ {1,2,3,4}` and every error pattern `e` with `p = k + 1` parts and at most
`k` errors in total, some search `(π, L, U)` of `KucherovKplus1::createSearches(k)` satisfies
`L[i] ≤ e[π[0]] + … + e[π[i]] ≤ U[i]` for every `i < p`. -/
theorem KucherovKplus1_covers_every_pattern (k : Nat) (hk : 1 ≤ k ∧ k ≤ 4) (e : Pattern)
    (hlen : e.length = KucherovKplus1.calculateNumParts k) (hsum : e.sum ≤ k) :
    ∃ scheme, KucherovKplus1.createSearches k = some scheme ∧
      ∃ s ∈ scheme, ∀ i < KucherovKplus1.calculateNumParts k,
        s.getLowerBound i ≤ ∑ j ∈ Finset.range (i + 1), e.getD (s.getPart j) 0 ∧
          ∑ j ∈ Finset.range (i + 1), e.getD (s.getPart j) 0 ≤ s.getUpperBound i := by
  obtain ⟨h1, h4⟩ := hk
  interval_cases k
  · exact ⟨_, rfl, covered_of_coversAll 2 1 _ (by decide) e hlen hsum⟩
  · exact ⟨_, rfl, covered_of_coversAll 3 2 _ (by decide) e hlen hsum⟩
  · exact ⟨_, rfl, covered_of_coversAll 4 3 _ (by decide) e hlen hsum⟩
  · exact ⟨_, rfl, covered_of_coversAll 5 4 _ (by decide) e hlen hsum⟩

theorem KucherovKplus1_covers_every_pattern_witness :
    (1 ≤ 2 ∧ 2 ≤ 4) ∧ ([1, 0, 1] : Pattern).length = KucherovKplus1.calculateNumParts 2 ∧
      ([1, 0, 1] : Pattern).sum ≤ 2 ∧
      ∃ scheme, KucherovKplus1.createSearches 2 = some scheme ∧
        ∃ s ∈ scheme, ∀ i < KucherovKplus1.calculateNumParts 2,
          s.getLowerBound i ≤ ∑ j ∈ Finset.range (i + 1), ([1, 0, 1] : Pattern).getD (s.getPart j) 0 ∧
            ∑ j ∈ Finset.range (i + 1), ([1, 0, 1] : Pattern).getD (s.getPart j) 0 ≤
              s.getUpperBound i :=
  ⟨by decide, by decide, by decide,
    KucherovKplus1_covers_every_pattern 2 (by decide) [1, 0, 1] (by decide) (by decide)⟩

/-- C2: for every `k ∈ {1,2,3,4}` and every error pattern `e` with `p = k + 2` parts and at
most `k` errors in total, some search `(π, L, U)` of `KucherovKplus2::createSearches(k)`
satisfies `L[i] ≤ e[π[0]] + … + e[π[i]] ≤ U[i]` for every `i < p`. -/
theorem KucherovKplus2_covers_every_pattern (k : Nat) (hk : 1 ≤ k ∧ k ≤ 4) (e : Pattern)
    (hlen : e.length = KucherovKplus2.calculateNumParts k) (hsum : e.sum ≤ k) :
    ∃ scheme, KucherovKplus2.createSearches k = some scheme ∧
      ∃ s ∈ scheme, ∀ i < KucherovKplus2.calculateNumParts k,
        s.getLowerBound i ≤ ∑ j ∈ Finset.range (i + 1), e.getD (s.getPart j) 0 ∧
          ∑ j ∈ Finset.range (i + 1), e.getD (s.getPart j) 0 ≤ s.getUpperBound i := by
  obtain ⟨h1, h4⟩ := hk
  interval_cases k
  · exact ⟨_, rfl, covered_of_coversAll 3 1 _ (by decide) e hlen hsum⟩
  · exact ⟨_, rfl, covered_of_coversAll 4 2 _ (by decide) e hlen hsum⟩
  · exact ⟨_, rfl, covered_of_coversAll 5 3 _ (by decide) e hlen hsum⟩
  · exact ⟨_, rfl, covered_of_coversAll 6 4 _ (by decide) e hlen hsum⟩

theorem KucherovKplus2_covers_every_pattern_witness :
    (1 ≤ 2 ∧ 2 ≤ 4) ∧ ([0, 2, 0, 0] : Pattern).length = KucherovKplus2.calculateNumParts 2 ∧
      ([0, 2, 0, 0] : Pattern).sum ≤ 2 ∧
      ∃ scheme, KucherovKplus2.createSearches 2 = some scheme ∧
        ∃ s ∈ scheme, ∀ i < KucherovKplus2.calculateNumParts 2,
          s.getLowerBound i ≤ ∑ j ∈ Finset.range (i + 1), ([0, 2, 0, 0] : Pattern).getD (s.getPart j) 0 ∧
            ∑ j ∈ Finset.range (i + 1), ([0, 2, 0, 0] : Pattern).getD (s.getPart j) 0 ≤
              s.getUpperBound i :=
  ⟨by decide, by decide, by decide,
    KucherovKplus2_covers_every_pattern 2 (by decide) [0, 2, 0, 0] (by decide) (by decide)⟩

/-- C3: for every `k ∈ {1,2,3,4}` and every error pattern `e` with `p = k + 1` parts and at
most `k` errors in total, some search `(π, L, U)` of `OptimalKianfar::createSearches(k)`
satisfies `L[i] ≤ e[π[0]] + … + e[π[i]] ≤ U[i]` for every `i < p`. -/
theorem OptimalKianfar_covers_every_pattern (k : Nat) (hk : 1 ≤ k ∧ k ≤ 4) (e : Pattern)
    (hlen : e.length = OptimalKianfar.calculateNumParts k) (hsum : e.sum ≤ k) :
    ∃ scheme, OptimalKianfar.createSearches k = some scheme ∧
      ∃ s ∈ scheme, ∀ i < OptimalKianfar.calculateNumParts k,
        s.getLowerBound i ≤ ∑ j ∈ Finset.range (i + 1), e.getD (s.getPart j) 0 ∧
          ∑ j ∈ Finset.range (i + 1), e.getD (s.getPart j) 0 ≤ s.getUpperBound i := by
  obtain ⟨h1, h4⟩ := hk
  interval_cases k
  · exact ⟨_, rfl, covered_of_coversAll 2 1 _ (by decide) e hlen hsum⟩
  · exact ⟨_, rfl, covered_of_coversAll 3 2 _ (by decide) e hlen hsum⟩
  · exact ⟨_, rfl, covered_of_coversAll 4 3 _ (by decide) e hlen hsum⟩
  · exact ⟨_, rfl, covered_of_coversAll 5 4 _ (by decide) e hlen hsum⟩

theorem OptimalKianfar_covers_every_pattern_witness :
    (1 ≤ 2 ∧ 2 ≤ 4) ∧ ([1, 0, 1] : Pattern).length = OptimalKianfar.calculateNumParts 2 ∧
      ([1, 0, 1] : Pattern).sum ≤ 2 ∧
      ∃ scheme, OptimalKianfar.createSearches 2 = some scheme ∧
        ∃ s ∈ scheme, ∀ i < OptimalKianfar.calculateNumParts 2,
          s.getLowerBound i ≤ ∑ j ∈ Finset.range (i + 1), ([1, 0, 1] : Pattern).getD (s.getPart j) 0 ∧
            ∑ j ∈ Finset.range (i + 1), ([1, 0, 1] : Pattern).getD (s.getPart j) 0 ≤
              s.getUpperBound i :=
  ⟨by decide, by decide, by decide,
    OptimalKianfar_covers_every_pattern 2 (by decide) [1, 0, 1] (by decide) (by decide)⟩

/-- C4: for every `k ∈ {1,2,3,4}` and every error pattern `e` with `p = k + 2` parts and at
most `k` errors in total, some search `(π, L, U)` of `O1StarSearchStrategy::createSearches(k)`
satisfies `L[i] ≤ e[π[0]] + … + e[π[i]] ≤ U[i]` for every `i < p`. -/
theorem O1StarSearchStrategy_covers_every_pattern (k : Nat) (hk : 1 ≤ k ∧ k ≤ 4) (e : Pattern)
    (hlen : e.length = O1StarSearchStrategy.calculateNumParts k) (hsum : e.sum ≤ k) :
    ∃ scheme, O1StarSearchStrategy.createSearches k = some scheme ∧
      ∃ s ∈ scheme, ∀ i < O1StarSearchStrategy.calculateNumParts k,
        s.getLowerBound i ≤ ∑ j ∈ Finset.range (i + 1), e.getD (s.getPart j) 0 ∧
          ∑ j ∈ Finset.range (i + 1), e.getD (s.getPart j) 0 ≤ s.getUpperBound i := by
  obtain ⟨h1, h4⟩ := hk
  interval_cases k
  · exact ⟨_, rfl, covered_of_coversAll 3 1 _ (by decide) e hlen hsum⟩
  · exact ⟨_, rfl, covered_of_coversAll 4 2 _ (by decide) e hlen hsum⟩
  · exact ⟨_, rfl, covered_of_coversAll 5 3 _ (by decide) e hlen hsum⟩
  · exact ⟨_, rfl, covered_of_coversAll 6 4 _ (by decide) e hlen hsum⟩

theorem O1StarSearchStrategy_covers_every_pattern_witness :
    (1 ≤ 2 ∧ 2 ≤ 4) ∧ ([0, 2, 0, 0] : Pattern).length = O1StarSearchStrategy.calculateNumParts 2 ∧
      ([0, 2, 0, 0] : Pattern).sum ≤ 2 ∧
      ∃ scheme, O1StarSearchStrategy.createSearches 2 = some scheme ∧
        ∃ s ∈ scheme, ∀ i < O1StarSearchStrategy.calculateNumParts 2,
          s.getLowerBound i ≤ ∑ j ∈ Finset.range (i + 1), ([0, 2, 0, 0] : Pattern).getD (s.getPart j) 0 ∧
            ∑ j ∈ Finset.range (i + 1), ([0, 2, 0, 0] : Pattern).getD (s.getPart j) 0 ≤
              s.getUpperBound i :=
  ⟨by decide, by decide, by decide,
    O1StarSearchStrategy_covers_every_pattern 2 (by decide) [0, 2, 0, 0] (by decide) (by decide)⟩

/-- C5: for every `k ∈ {1,2,3,4}` and every error pattern `e` with `p = k + 1` parts and at
most `k` errors in total, some search `(π, L, U)` of `PigeonHoleSearchStrategy::createSearches(k)`
satisfies `L[i] ≤ e[π[0]] + … + e[π[i]] ≤ U[i]` for every `i < p`. -/
theorem PigeonHoleSearchStrategy_covers_every_pattern (k : Nat) (hk : 1 ≤ k ∧ k ≤ 4) (e : Pattern)
    (hlen : e.length = PigeonHoleSearchStrategy.calculateNumParts k) (hsum : e.sum ≤ k) :
    ∃ scheme, PigeonHoleSearchStrategy.createSearches k = some scheme ∧
      ∃ s ∈ scheme, ∀ i < PigeonHoleSearchStrategy.calculateNumParts k,
        s.getLowerBound i ≤ ∑ j ∈ Finset.range (i + 1), e.getD (s.getPart j) 0 ∧
          ∑ j ∈ Finset.range (i + 1), e.getD (s.getPart j) 0 ≤ s.getUpperBound i := by
  obtain ⟨h1, h4⟩ := hk
  interval_cases k
  · exact ⟨_, rfl, covered_of_coversAll 2 1 _ (by decide) e hlen hsum⟩
  · exact ⟨_, rfl, covered_of_coversAll 3 2 _ (by decide) e hlen hsum⟩
  · exact ⟨_, rfl, covered_of_coversAll 4 3 _ (by decide) e hlen hsum⟩
  · exact ⟨_, rfl, covered_of_coversAll 5 4 _ (by decide) e hlen hsum⟩

theorem PigeonHoleSearchStrategy_covers_every_pattern_witness :
    (1 ≤ 2 ∧ 2 ≤ 4) ∧ ([1, 0, 1] : Pattern).length = PigeonHoleSearchStrategy.calculateNumParts 2 ∧
      ([1, 0, 1] : Pattern).sum ≤ 2 ∧
      ∃ scheme, PigeonHoleSearchStrategy.createSearches 2 = some scheme ∧
        ∃ s ∈ scheme, ∀ i < PigeonHoleSearchStrategy.calculateNumParts 2,
          s.getLowerBound i ≤ ∑ j ∈ Finset.range (i + 1), ([1, 0, 1] : Pattern).getD (s.getPart j) 0 ∧
            ∑ j ∈ Finset.range (i + 1), ([1, 0, 1] : Pattern).getD (s.getPart j) 0 ≤
              s.getUpperBound i :=
  ⟨by decide, by decide, by decide,
    PigeonHoleSearchStrategy_covers_every_pattern 2 (by decide) [1, 0, 1] (by decide) (by decide)⟩

/-- C6: for `k = 4` and `p = 6` parts, every error pattern `e` of 6 parts with at most 4 errors in
total is covered by some search `(π, L, U)` of the `ED4` list of `ManBestStrategy`, the list that
`createSearches(4)` returns: `L[i] ≤ e[π[0]] + … + e[π[i]] ≤ U[i]` for every `i < 6`. -/
theorem ManBestStrategy_covers_every_pattern (e : Pattern) (hlen : e.length = 6)
    (hsum : e.sum ≤ 4) :
    ManBestStrategy.createSearches 4 = some ManBestStrategy.ED4 ∧
      ManBestStrategy.calculateNumParts 4 = 6 ∧
      ∃ s ∈ ManBestStrategy.ED4, ∀ i < 6,
        s.getLowerBound i ≤ ∑ j ∈ Finset.range (i + 1), e.getD (s.getPart j) 0 ∧
          ∑ j ∈ Finset.range (i + 1), e.getD (s.getPart j) 0 ≤ s.getUpperBound i :=
  ⟨rfl, rfl, covered_of_coversAll 6 4 _ (by decide) e hlen hsum⟩

theorem ManBestStrategy_covers_every_pattern_witness :
    ([0, 1, 1, 0, 2, 0] : Pattern).length = 6 ∧ ([0, 1, 1, 0, 2, 0] : Pattern).sum ≤ 4 ∧
      (ManBestStrategy.createSearches 4 = some ManBestStrategy.ED4 ∧
        ManBestStrategy.calculateNumParts 4 = 6 ∧
        ∃ s ∈ ManBestStrategy.ED4, ∀ i < 6,
          s.getLowerBound i ≤
              ∑ j ∈ Finset.range (i + 1), ([0, 1, 1, 0, 2, 0] : Pattern).getD (s.getPart j) 0 ∧
            ∑ j ∈ Finset.range (i + 1), ([0, 1, 1, 0, 2, 0] : Pattern).getD (s.getPart j) 0 ≤
              s.getUpperBound i) :=
  ⟨by decide, by decide,
    ManBestStrategy_covers_every_pattern [0, 1, 1, 0, 2, 0] (by decide) (by decide)⟩

/-! ## Invariants and validity of the hard-coded searches -/

theorem schemeAt_eq_some (a b c d scheme : List Search) (k : Nat)
    (h : schemeAt [a, b, c, d] k = some scheme) :
    (k = 1 ∧ scheme = a) ∨ (k = 2 ∧ scheme = b) ∨ (k = 3 ∧ scheme = c) ∨ (k = 4 ∧ scheme = d) := by
  unfold schemeAt at h
  rcases k with _ | _ | _ | _ | _ | k <;> simp at h <;> simp [h]

theorem createSearches_eq_some (st : HardcodedScheme) (k : Nat) (scheme : List Search)
    (h : st.createSearches k = some scheme) :
    (1 ≤ k ∧ k ≤ 4) ∧ st.createSearches k = some scheme := by
  refine ⟨?_, h⟩
  cases st
  · simp only [HardcodedScheme.createSearches, KucherovKplus1.createSearches] at h
    split at h
    · omega
    · simp at h
  · have := schemeAt_eq_some _ _ _ _ _ _ h
    omega
  · simp only [HardcodedScheme.createSearches, OptimalKianfar.createSearches] at h
    split at h
    · simp at h
    · omega
  · simp only [HardcodedScheme.createSearches, ManBestStrategy.createSearches] at h
    split at h
    · omega
    · simp at h
  · have := schemeAt_eq_some _ _ _ _ _ _ h
    omega
  · have := schemeAt_eq_some _ _ _ _ _ _ h
    omega

/-- C7: every search that a hard-coded strategy (KucherovKplus1, KucherovKplus2, OptimalKianfar,
O1StarSearchStrategy, ManBestStrategy, PigeonHoleSearchStrategy) lists for the error bound `k`,
with `p = calculateNumParts(k)` parts, satisfies the invariants of the data model: `π` is a
permutation of `{0, …, p-1}`, `L[i] ≤ U[i]` for every `i < p` (both arrays having `p` entries),
and `U[p-1] = k`. -/
theorem hardcoded_search_invariants (st : HardcodedScheme) (k : Nat) (scheme : List Search)
    (h : st.createSearches k = some scheme) (s : Search) (hs : s ∈ scheme) :
    s.pi.Perm (List.range (st.calculateNumParts k)) ∧
      (s.L.length = st.calculateNumParts k ∧ s.U.length = st.calculateNumParts k) ∧
      (∀ i < st.calculateNumParts k, s.getLowerBound i ≤ s.getUpperBound i) ∧
      s.getUpperBound (st.calculateNumParts k - 1) = k := by
  obtain ⟨⟨h1, h4⟩, -⟩ := createSearches_eq_some st k scheme h
  revert s
  interval_cases k <;> cases st <;>
    first
    | (simp [HardcodedScheme.createSearches, ManBestStrategy.createSearches] at h; done)
    | (cases h; decide)

theorem hardcoded_search_invariants_witness :
    HardcodedScheme.kianfar.createSearches 3 = some OptimalKianfar.ED3 ∧
      Search.makeSearch [1, 2, 3, 0] [0, 0, 0, 0] [1, 2, 3, 3] ∈ OptimalKianfar.ED3 ∧
      ((Search.makeSearch [1, 2, 3, 0] [0, 0, 0, 0] [1, 2, 3, 3]).pi.Perm
          (List.range (HardcodedScheme.kianfar.calculateNumParts 3)) ∧
        ((Search.makeSearch [1, 2, 3, 0] [0, 0, 0, 0] [1, 2, 3, 3]).L.length =
            HardcodedScheme.kianfar.calculateNumParts 3 ∧
          (Search.makeSearch [1, 2, 3, 0] [0, 0, 0, 0] [1, 2, 3, 3]).U.length =
            HardcodedScheme.kianfar.calculateNumParts 3) ∧
        (∀ i < HardcodedScheme.kianfar.calculateNumParts 3,
          (Search.makeSearch [1, 2, 3, 0] [0, 0, 0, 0] [1, 2, 3, 3]).getLowerBound i ≤
            (Search.makeSearch [1, 2, 3, 0] [0, 0, 0, 0] [1, 2, 3, 3]).getUpperBound i) ∧
        (Search.makeSearch [1, 2, 3, 0] [0, 0, 0, 0] [1, 2, 3, 3]).getUpperBound
            (HardcodedScheme.kianfar.calculateNumParts 3 - 1) = 3) :=
  ⟨rfl, by decide,
    hardcoded_search_invariants HardcodedScheme.kianfar 3 OptimalKianfar.ED3 rfl _ (by decide)⟩

/-- C8: every search that a hard-coded strategy lists for the error bound `k`, with
`p = calculateNumParts(k)` parts, satisfies the validity predicate.  Connectivity: for every
`1 ≤ i < p` the part `π[i]` is `min(π[0..i-1]) - 1` or `max(π[0..i-1]) + 1`, so that the parts
`π[0..i]` visited so far always are the contiguous block starting at their minimum.  Monotone
budgets: `L[i] ≤ L[i+1]` and `U[i] ≤ U[i+1]` for every `i < p - 1`. -/
theorem hardcoded_search_valid (st : HardcodedScheme) (k : Nat) (scheme : List Search)
    (h : st.createSearches k = some scheme) (s : Search) (hs : s ∈ scheme) :
    (∀ i < st.calculateNumParts k, 1 ≤ i →
        (s.pi.take i).min? = some (s.getPart i + 1) ∨
          ((s.pi.take i).max?).map (fun hi => hi + 1) = some (s.getPart i)) ∧
      (∀ i < st.calculateNumParts k, ∃ lo, (s.pi.take (i + 1)).min? = some lo ∧
        (s.pi.take (i + 1)).Perm (List.range' lo (i + 1))) ∧
      (∀ i < st.calculateNumParts k - 1,
        s.getLowerBound i ≤ s.getLowerBound (i + 1) ∧
          s.getUpperBound i ≤ s.getUpperBound (i + 1)) := by
  obtain ⟨⟨h1, h4⟩, -⟩ := createSearches_eq_some st k scheme h
  have aux : (∀ i < st.calculateNumParts k, 1 ≤ i →
        (s.pi.take i).min? = some (s.getPart i + 1) ∨
          ((s.pi.take i).max?).map (fun hi => hi + 1) = some (s.getPart i)) ∧
      (∀ i < st.calculateNumParts k, (s.pi.take (i + 1)).min? ≠ none ∧
        (s.pi.take (i + 1)).Perm (List.range' (((s.pi.take (i + 1)).min?).getD 0) (i + 1))) ∧
      (∀ i < st.calculateNumParts k - 1,
        s.getLowerBound i ≤ s.getLowerBound (i + 1) ∧
          s.getUpperBound i ≤ s.getUpperBound (i + 1)) := by
    revert s
    interval_cases k <;> cases st <;>
      first
      | (simp [HardcodedScheme.createSearches, ManBestStrategy.createSearches] at h; done)
      | (cases h; decide)
  obtain ⟨hconn, hblock, hmono⟩ := aux
  refine ⟨hconn, ?_, hmono⟩
  intro i hi
  obtain ⟨hne, hperm⟩ := hblock i hi
  cases hm : (s.pi.take (i + 1)).min? with
  | none => exact absurd hm hne
  | some lo => exact ⟨lo, rfl, by simpa [hm] using hperm⟩

theorem hardcoded_search_valid_witness :
    HardcodedScheme.kuch1.createSearches 4 = some KucherovKplus1.ED4 ∧
      Search.makeSearch [3, 2, 4, 1, 0] [0, 0, 0, 1, 1] [0, 1, 2, 4, 4] ∈ KucherovKplus1.ED4 ∧
      ((∀ i < HardcodedScheme.kuch1.calculateNumParts 4, 1 ≤ i →
          ((Search.makeSearch [3, 2, 4, 1, 0] [0, 0, 0, 1, 1] [0, 1, 2, 4, 4]).pi.take i).min? =
              some ((Search.makeSearch [3, 2, 4, 1, 0] [0, 0, 0, 1, 1] [0, 1, 2, 4, 4]).getPart i
                + 1) ∨
            (((Search.makeSearch [3, 2, 4, 1, 0] [0, 0, 0, 1, 1] [0, 1, 2, 4, 4]).pi.take i).max?).map
                (fun hi => hi + 1) =
              some ((Search.makeSearch [3, 2, 4, 1, 0] [0, 0, 0, 1, 1] [0, 1, 2, 4, 4]).getPart i)) ∧
        (∀ i < HardcodedScheme.kuch1.calculateNumParts 4, ∃ lo,
          ((Search.makeSearch [3, 2, 4, 1, 0] [0, 0, 0, 1, 1] [0, 1, 2, 4, 4]).pi.take (i + 1)).min?
              = some lo ∧
            ((Search.makeSearch [3, 2, 4, 1, 0] [0, 0, 0, 1, 1] [0, 1, 2, 4, 4]).pi.take
              (i + 1)).Perm (List.range' lo (i + 1))) ∧
        (∀ i < HardcodedScheme.kuch1.calculateNumParts 4 - 1,
          (Search.makeSearch [3, 2, 4, 1, 0] [0, 0, 0, 1, 1] [0, 1, 2, 4, 4]).getLowerBound i ≤
              (Search.makeSearch [3, 2, 4, 1, 0] [0, 0, 0, 1, 1] [0, 1, 2, 4, 4]).getLowerBound
                (i + 1) ∧
            (Search.makeSearch [3, 2, 4, 1, 0] [0, 0, 0, 1, 1] [0, 1, 2, 4, 4]).getUpperBound i ≤
              (Search.makeSearch [3, 2, 4, 1, 0] [0, 0, 0, 1, 1] [0, 1, 2, 4, 4]).getUpperBound
                (i + 1))) :=
  ⟨rfl, by decide,
    hardcoded_search_valid HardcodedScheme.kuch1 4 KucherovKplus1.ED4 rfl _ (by decide)⟩

/-! ## The naive backtracking strategy with `maxED = 0` -/

theorem foldl_append_singleton {α β : Type} (f : α → β) (l : List α) (init : List β) :
    l.foldl (fun acc x => acc ++ [f x]) init = init ++ l.map f := by
  induction l generalizing init with
  | nil => simp
  | cons x l ih => simp [ih]

theorem matchApprox_zero_fst (lengthBits : Nat)
    (render : Range → Nat → List (Char × Nat) → List Char) (index : FMIndex)
    (pattern : List Char) (counters : Counters) :
    (NaiveBackTrackingStrategy.matchApprox lengthBits render index pattern 0 counters).1 =
      (index.exactMatches pattern counters.resetCounters).1.map (fun startpos =>
        (TextOcc.create (Range.mk startpos ((startpos + pattern.length) % 2 ^ lengthBits)) 0
          [('M', pattern.length % 2 ^ 32)]).generateOutput render) := by
  simp [NaiveBackTrackingStrategy.matchApprox, foldl_append_singleton]

/-- C9, as amended: `matchApprox` with `maxED = 0` returns exactly one `TextOcc` per position
returned by `index.exactMatches(pattern)`, in the same order, each beginning at that position and
with distance 0; when the pattern is shorter than `2^32` characters and `start + |pattern|` fits
into `length_t`, each has the range `[start, start + |pattern|)` and the CIGAR string of the
single run `('M', |pattern|)`.  So with `exactMatches` returning `{i : T[i..i+|P|) = P}` the
returned start positions are that set. -/
theorem matchApprox_zero_exactMatches (lengthBits : Nat)
    (render : Range → Nat → List (Char × Nat) → List Char) (index : FMIndex)
    (pattern : List Char) (counters : Counters) :
    (pattern.length < 2 ^ 32 →
      (∀ start ∈ (index.exactMatches pattern counters.resetCounters).1,
        start + pattern.length < 2 ^ lengthBits) →
      (NaiveBackTrackingStrategy.matchApprox lengthBits render index pattern 0 counters).1 =
        (index.exactMatches pattern counters.resetCounters).1.map (fun start =>
          { range := ⟨start, start + pattern.length⟩
            distance := 0
            CIGAR := [('M', pattern.length)]
            output := render ⟨start, start + pattern.length⟩ 0 [('M', pattern.length)] })) ∧
      ((NaiveBackTrackingStrategy.matchApprox lengthBits render index pattern 0 counters).1.map
          (fun occ => (occ.getRange.getBegin, occ.getDistance)) =
        (index.exactMatches pattern counters.resetCounters).1.map (fun start => (start, 0))) ∧
      ∀ T : List Char,
        (∀ i, i ∈ (index.exactMatches pattern counters.resetCounters).1 ↔
          i + pattern.length ≤ T.length ∧ (T.drop i).take pattern.length = pattern) →
        ∀ i, i ∈ (NaiveBackTrackingStrategy.matchApprox lengthBits render index pattern 0
              counters).1.map (fun occ => occ.getRange.getBegin) ↔
          i + pattern.length ≤ T.length ∧ (T.drop i).take pattern.length = pattern := by
  have hbegin : (NaiveBackTrackingStrategy.matchApprox lengthBits render index pattern 0
      counters).1.map (fun occ => occ.getRange.getBegin) =
        (index.exactMatches pattern counters.resetCounters).1 := by
    rw [matchApprox_zero_fst, List.map_map]
    simp [Function.comp_def, TextOcc.generateOutput, TextOcc.create, TextOcc.getRange]
  refine ⟨?_, ?_, ?_⟩
  · intro hP hfit
    rw [matchApprox_zero_fst]
    apply List.map_congr_left
    intro start hstart
    simp only [TextOcc.generateOutput, TextOcc.create, Nat.mod_eq_of_lt hP,
      Nat.mod_eq_of_lt (hfit start hstart)]
  · rw [matchApprox_zero_fst, List.map_map]
    simp [Function.comp_def, TextOcc.generateOutput, TextOcc.create, TextOcc.getRange,
      TextOcc.getDistance]
  · intro T hT i
    rw [hbegin]
    exact hT i

theorem matchApprox_zero_exactMatches_witness :
    (['A', 'C', 'G', 'T'] : List Char).length < 2 ^ 32 ∧
      (∀ start ∈ ([0, 4, 8] : List Nat), start + (['A', 'C', 'G', 'T'] : List Char).length < 2 ^ 64) ∧
      (∀ i, i ∈ ([0, 4, 8] : List Nat) ↔
        i + (['A', 'C', 'G', 'T'] : List Char).length ≤
            (['A', 'C', 'G', 'T', 'A', 'C', 'G', 'T', 'A', 'C', 'G', 'T', '$'] : List Char).length ∧
          ((['A', 'C', 'G', 'T', 'A', 'C', 'G', 'T', 'A', 'C', 'G', 'T', '$'] : List Char).drop
            i).take (['A', 'C', 'G', 'T'] : List Char).length = ['A', 'C', 'G', 'T']) ∧
      (NaiveBackTrackingStrategy.matchApprox 64 (fun _ _ _ => [])
          ⟨fun _ c => ([0, 4, 8], c), fun _ _ c => ([], c)⟩ ['A', 'C', 'G', 'T'] 0
          ⟨7, 7, 7, 7, 7, 7, 7, 7, 7⟩).1 =
        [⟨⟨0, 4⟩, 0, [('M', 4)], []⟩, ⟨⟨4, 8⟩, 0, [('M', 4)], []⟩,
          ⟨⟨8, 12⟩, 0, [('M', 4)], []⟩] ∧
      (∀ i, i ∈ (NaiveBackTrackingStrategy.matchApprox 64 (fun _ _ _ => [])
          ⟨fun _ c => ([0, 4, 8], c), fun _ _ c => ([], c)⟩ ['A', 'C', 'G', 'T'] 0
          ⟨7, 7, 7, 7, 7, 7, 7, 7, 7⟩).1.map (fun occ => occ.getRange.getBegin) ↔
        i + (['A', 'C', 'G', 'T'] : List Char).length ≤
            (['A', 'C', 'G', 'T', 'A', 'C', 'G', 'T', 'A', 'C', 'G', 'T', '$'] : List Char).length ∧
          ((['A', 'C', 'G', 'T', 'A', 'C', 'G', 'T', 'A', 'C', 'G', 'T', '$'] : List Char).drop
            i).take (['A', 'C', 'G', 'T'] : List Char).length = ['A', 'C', 'G', 'T']) := by
  have hT : ∀ i, i ∈ ([0, 4, 8] : List Nat) ↔
      i + (['A', 'C', 'G', 'T'] : List Char).length ≤
          (['A', 'C', 'G', 'T', 'A', 'C', 'G', 'T', 'A', 'C', 'G', 'T', '$'] : List Char).length ∧
        ((['A', 'C', 'G', 'T', 'A', 'C', 'G', 'T', 'A', 'C', 'G', 'T', '$'] : List Char).drop
          i).take (['A', 'C', 'G', 'T'] : List Char).length = ['A', 'C', 'G', 'T'] := by
    intro i
    constructor
    · intro hi
      simp only [List.mem_cons, List.mem_singleton, List.not_mem_nil, or_false] at hi
      rcases hi with rfl | rfl | rfl <;> decide
    · rintro ⟨hle, heq⟩
      simp only [List.length_cons, List.length_nil] at hle
      have hi : i ≤ 9 := by omega
      interval_cases i <;> first | decide | (exact absurd heq (by decide))
  exact ⟨by decide, by decide, hT,
    (matchApprox_zero_exactMatches 64 (fun _ _ _ => [])
      ⟨fun _ c => ([0, 4, 8], c), fun _ _ c => ([], c)⟩ ['A', 'C', 'G', 'T']
      ⟨7, 7, 7, 7, 7, 7, 7, 7, 7⟩).1 (by decide) (by decide),
    (matchApprox_zero_exactMatches 64 (fun _ _ _ => [])
      ⟨fun _ c => ([0, 4, 8], c), fun _ _ c => ([], c)⟩ ['A', 'C', 'G', 'T']
      ⟨7, 7, 7, 7, 7, 7, 7, 7, 7⟩).2.2 _ hT⟩

theorem matchApprox_zero_length_two_pow (pattern : List Char)
    (hlen : pattern.length = 4294967296) :
    (NaiveBackTrackingStrategy.matchApprox 64 (fun _ _ _ => [])
        ⟨fun _ c => ([0], c), fun _ _ c => ([], c)⟩ pattern 0
        ⟨0, 0, 0, 0, 0, 0, 0, 0, 0⟩).1 = [⟨⟨0, 4294967296⟩, 0, [('M', 0)], []⟩] := by
  rw [matchApprox_zero_fst, hlen]
  simp [TextOcc.generateOutput, TextOcc.create]

/-- C9, the claim as stated fails where a length leaves its machine type.  For a pattern of
`2^32` characters, with `exactMatches` returning the single position 0 and a 64-bit `length_t`,
the occurrence that `matchApprox` returns has the range `[0, 2^32)` and distance 0, but its CIGAR
run is `('M', 0)` and not `('M', |pattern|)`: the length is converted to `uint`.  And with a
32-bit `length_t`, for the pattern `A` and the start position `2^32 - 1`, the end of the range is
0 and not `start + |pattern|`. -/
theorem matchApprox_zero_long_pattern :
    ((List.replicate 4294967296 'A').length = 4294967296 ∧
      (NaiveBackTrackingStrategy.matchApprox 64 (fun _ _ _ => [])
          ⟨fun _ c => ([0], c), fun _ _ c => ([], c)⟩ (List.replicate 4294967296 'A') 0
          ⟨0, 0, 0, 0, 0, 0, 0, 0, 0⟩).1 =
        [⟨⟨0, 4294967296⟩, 0, [('M', 0)], []⟩] ∧
      (NaiveBackTrackingStrategy.matchApprox 64 (fun _ _ _ => [])
          ⟨fun _ c => ([0], c), fun _ _ c => ([], c)⟩ (List.replicate 4294967296 'A') 0
          ⟨0, 0, 0, 0, 0, 0, 0, 0, 0⟩).1.map (fun occ => occ.CIGAR) ≠
        [[('M', (List.replicate 4294967296 'A').length)]]) ∧
      (NaiveBackTrackingStrategy.matchApprox 32 (fun _ _ _ => [])
          ⟨fun _ c => ([4294967295], c), fun _ _ c => ([], c)⟩ ['A'] 0
          ⟨0, 0, 0, 0, 0, 0, 0, 0, 0⟩).1 =
        [⟨⟨4294967295, 0⟩, 0, [('M', 1)], []⟩] := by
  have hlen : (List.replicate 4294967296 'A').length = 4294967296 := List.length_replicate _ _
  refine ⟨⟨hlen, matchApprox_zero_length_two_pow _ hlen, ?_⟩, ?_⟩
  · rw [matchApprox_zero_length_two_pow _ hlen, hlen]
    decide
  · rw [matchApprox_zero_fst]
    decide

/-! ## The unit-cost Levenshtein distance -/

theorem lev_nil_left (ys : List Char) : lev [] ys = ys.length := by
  induction ys with
  | nil => simp [lev]
  | cons y ys ih =>
    rw [lev, levenshtein_nil_cons]
    simp only [lev] at ih
    rw [ih]
    simp [Levenshtein.defaultCost]
    omega

theorem lev_nil_right (xs : List Char) : lev xs [] = xs.length := by
  induction xs with
  | nil => simp [lev]
  | cons x xs ih =>
    rw [lev, levenshtein_cons_nil]
    simp only [lev] at ih
    rw [ih]
    simp [Levenshtein.defaultCost]
    omega

theorem lev_cons_cons (x y : Char) (xs ys : List Char) :
    lev (x :: xs) (y :: ys) =
      min (1 + lev xs (y :: ys)) (min (1 + lev (x :: xs) ys) (subCost x y + lev xs ys)) := by
  simp only [lev, levenshtein_cons_cons]
  rfl

theorem lev_symm (xs : List Char) : ∀ ys : List Char, lev xs ys = lev ys xs := by
  induction xs with
  | nil => intro ys; rw [lev_nil_left, lev_nil_right]
  | cons x xs ihx =>
    intro ys
    induction ys with
    | nil => rw [lev_nil_left, lev_nil_right]
    | cons y ys ihy =>
      rw [lev_cons_cons, lev_cons_cons, ihx (y :: ys), ← ihy, ihx ys]
      have : subCost x y = subCost y x := by
        unfold subCost
        by_cases h : x = y
        · simp [h]
        · have h' : ¬ y = x := fun e => h e.symm
          simp [h, h']
      rw [this]
      omega

theorem min9_regroup (B1 B2 B3 C1 C2 C3 E1 E2 E3 s t : Nat) :
    min (1 + min (B1 + 1) (min (B2 + 1) (B3 + s)))
        (min (1 + min (C1 + 1) (min (C2 + 1) (C3 + s))) (t + min (E1 + 1) (min (E2 + 1) (E3 + s)))) =
      min (min (1 + B1) (min (1 + C1) (t + E1)) + 1)
        (min (min (1 + B2) (min (1 + C2) (t + E2)) + 1) (min (1 + B3) (min (1 + C3) (t + E3)) + s)) := by
  simp only [← Nat.add_min_add_left, ← Nat.add_min_add_right]
  simp only [Nat.add_comm, Nat.add_left_comm, Nat.add_assoc]
  simp only [min_assoc, min_comm, min_left_comm]

theorem lev_snoc_snoc (x y : Char) (xs : List Char) : ∀ ys : List Char,
    lev (xs ++ [x]) (ys ++ [y]) =
      min (lev xs (ys ++ [y]) + 1) (min (lev (xs ++ [x]) ys + 1) (lev xs ys + subCost x y)) := by
  induction xs with
  | nil =>
    intro ys
    induction ys with
    | nil =>
      simp only [List.nil_append, lev_cons_cons, lev_nil_left, lev_nil_right, List.length_nil,
        List.length_cons]
      omega
    | cons b ys ihy =>
      simp only [List.nil_append, List.cons_append] at ihy ⊢
      rw [lev_cons_cons, ihy, lev_cons_cons x b [] ys]
      simp only [lev_nil_left, List.length_cons, List.length_append, List.length_nil]
      generalize lev [x] ys = A
      generalize subCost x y = s
      generalize subCost x b = t
      omega
  | cons a xs ihx =>
    intro ys
    induction ys with
    | nil =>
      have h1 := ihx []
      simp only [List.nil_append, List.cons_append] at h1 ⊢
      rw [lev_cons_cons, h1, lev_cons_cons a y xs []]
      simp only [lev_nil_right, List.length_cons, List.length_append, List.length_nil]
      generalize lev xs [y] = A
      generalize subCost x y = s
      generalize subCost a y = t
      omega
    | cons b ys ihy =>
      have h1 := ihx (b :: ys)
      have h3 := ihx ys
      simp only [List.cons_append] at h1 h3 ihy ⊢
      rw [lev_cons_cons a b (xs ++ [x]) (ys ++ [y]), h1, ihy, h3,
        lev_cons_cons a b xs (ys ++ [y]), lev_cons_cons a b (xs ++ [x]) ys,
        lev_cons_cons a b xs ys]
      generalize lev xs (b :: (ys ++ [y])) = B1
      generalize lev (xs ++ [x]) (b :: ys) = B2
      generalize lev xs (b :: ys) = B3
      generalize lev (a :: xs) (ys ++ [y]) = C1
      generalize lev (a :: (xs ++ [x])) ys = C2
      generalize lev (a :: xs) ys = C3
      generalize lev xs (ys ++ [y]) = E1
      generalize lev (xs ++ [x]) ys = E2
      generalize lev xs ys = E3
      generalize subCost x y = s
      generalize subCost a b = t
      exact min9_regroup B1 B2 B3 C1 C2 C3 E1 E2 E3 s t

theorem length_le_lev_add (xs : List Char) : ∀ ys : List Char,
    xs.length ≤ lev xs ys + ys.length ∧ ys.length ≤ lev xs ys + xs.length := by
  induction xs with
  | nil => intro ys; rw [lev_nil_left]; simp
  | cons x xs ihx =>
    intro ys
    induction ys with
    | nil => rw [lev_nil_right]; simp
    | cons y ys ihy =>
      have h1 := ihx (y :: ys)
      have h2 := ihx ys
      rw [lev_cons_cons]
      simp only [List.length_cons] at h1 h2 ihy ⊢
      generalize lev xs (y :: ys) = A at *
      generalize lev (x :: xs) ys = B at *
      generalize lev xs ys = C at *
      generalize subCost x y = s
      omega

/-! ## Correctness of the banded matrix of `editDistDP` -/

theorem lev_take_succ (V H : List Char) (r c : Nat) (hr : r < V.length) (hc : c < H.length) :
    lev (V.take (r + 1)) (H.take (c + 1)) =
      min (lev (V.take r) (H.take (c + 1)) + 1)
        (min (lev (V.take (r + 1)) (H.take c) + 1)
          (lev (V.take r) (H.take c) + (if (V[r]? != H[c]?) = true then 1 else 0))) := by
  have hV : V.take (r + 1) = V.take r ++ [V[r]] := by
    rw [List.take_succ, List.getElem?_eq_getElem hr]; rfl
  have hH : H.take (c + 1) = H.take c ++ [H[c]] := by
    rw [List.take_succ, List.getElem?_eq_getElem hc]; rfl
  have hcost : (if (V[r]? != H[c]?) = true then 1 else 0) = subCost V[r] H[c] := by
    rw [List.getElem?_eq_getElem hr, List.getElem?_eq_getElem hc]
    by_cases h : V[r] = H[c] <;> simp [subCost, h]
  rw [hcost, hV, hH, lev_snoc_snoc, ← hV, ← hH]

theorem agrees_step (k cu du cl dl cd dd δ : Nat) (h1 : BandMatrix.Agrees k cu du)
    (h2 : BandMatrix.Agrees k cl dl) (h3 : BandMatrix.Agrees k cd dd) :
    BandMatrix.Agrees k (min (cu + 1) (min (cl + 1) (cd + δ)))
      (min (du + 1) (min (dl + 1) (dd + δ))) := by
  unfold BandMatrix.Agrees at *
  omega

theorem borderCell_agrees (V H : List Char) (fill k i j : Nat) (hfill : k < fill)
    (hi : i ≤ V.length) (hj : j ≤ H.length)
    (hb : i = 0 ∨ j = 0 ∨ k < i - j ∨ k < j - i) :
    BandMatrix.Agrees k (BandMatrix.borderCell fill k i j) (lev (V.take i) (H.take j)) := by
  have hlen := length_le_lev_add (V.take i) (H.take j)
  rw [List.length_take, List.length_take, Nat.min_eq_left hi, Nat.min_eq_left hj] at hlen
  unfold BandMatrix.Agrees
  by_cases hi0 : i = 0
  · subst hi0
    have hd : lev (List.take 0 V) (H.take j) = j := by
      rw [List.take_zero, lev_nil_left, List.length_take, Nat.min_eq_left hj]
    rw [hd]
    by_cases hjk : j ≤ k
    · have hval : BandMatrix.borderCell fill k 0 j = j := by simp [BandMatrix.borderCell, hjk]
      rw [hval]
      omega
    · have hval : BandMatrix.borderCell fill k 0 j = fill := by
        have hj0 : j ≠ 0 := by omega
        simp [BandMatrix.borderCell, hjk, hj0]
      rw [hval]
      omega
  · by_cases hj0 : j = 0
    · subst hj0
      have hd : lev (V.take i) (List.take 0 H) = i := by
        rw [List.take_zero, lev_nil_right, List.length_take, Nat.min_eq_left hi]
      rw [hd]
      by_cases hik : i ≤ k
      · have hval : BandMatrix.borderCell fill k i 0 = i := by
          simp [BandMatrix.borderCell, hi0, hik]
        rw [hval]
        omega
      · have hval : BandMatrix.borderCell fill k i 0 = fill := by
          simp [BandMatrix.borderCell, hi0, hik]
        rw [hval]
        omega
    · have hval : BandMatrix.borderCell fill k i j = fill := by
        simp [BandMatrix.borderCell, hi0, hj0]
      rw [hval]
      omega

theorem rowPart_step (H V : List Char) (cols fill k : Nat) (mat : BandMatrix) (r c : Nat)
    (hr : r < V.length) (hc : c < H.length)
    (h : editDistDP.RowPart H V cols fill k mat r c) :
    editDistDP.RowPart H V cols fill k
      (mat.updateMatrix (V[r + 1 - 1]? != H[c + 1 - 1]?) (r + 1) (c + 1)) r (c + 1) := by
  obtain ⟨hW, hn, hgood, hrest⟩ := h
  refine ⟨hW, hn, ?_, ?_⟩
  · intro i j hi hj hij
    simp only [BandMatrix.updateMatrix, Nat.add_sub_cancel]
    by_cases hcell : i = r + 1 ∧ j = c + 1
    · obtain ⟨rfl, rfl⟩ := hcell
      rw [if_pos ⟨rfl, rfl⟩, lev_take_succ V H r c hr hc]
      exact agrees_step k _ _ _ _ _ _ _
        (hgood r (c + 1) (by omega) hj (Or.inl (le_refl r)))
        (hgood (r + 1) c hi (by omega) (Or.inr ⟨rfl, le_refl c⟩))
        (hgood r c (by omega) (by omega) (Or.inl (le_refl r)))
    · rw [if_neg hcell]
      exact hgood i j hi hj (by omega)
  · intro i j hij
    simp only [BandMatrix.updateMatrix, Nat.add_sub_cancel]
    have hcell : ¬ (i = r + 1 ∧ j = c + 1) := by omega
    rw [if_neg hcell]
    exact hrest i j (by omega)

theorem rowPart_foldl (H V : List Char) (cols fill k r : Nat) (hr : r < V.length) :
    ∀ (len c : Nat) (mat : BandMatrix), (len = 0 ∨ c + len ≤ H.length) →
      editDistDP.RowPart H V cols fill k mat r c →
      editDistDP.RowPart H V cols fill k
        ((List.range' (c + 1) len).foldl
          (fun mat j => mat.updateMatrix (V[r + 1 - 1]? != H[j - 1]?) (r + 1) j) mat)
        r (c + len) := by
  intro len
  induction len with
  | zero => intro c mat _ h; simpa using h
  | succ len ih =>
    intro c mat hlen h
    have hc : c < H.length := by omega
    rw [List.range'_succ, List.foldl_cons]
    have hstep := rowPart_step H V cols fill k mat r c hr hc h
    have := ih (c + 1) _ (Or.inr (by omega)) hstep
    rw [show c + (len + 1) = c + 1 + len by omega]
    exact this

theorem rowsDone_fillRow (H V : List Char) (cols fill k : Nat) (mat : BandMatrix) (r : Nat)
    (hfill : k < fill) (hcols : H.length ≤ cols) (hr : r < V.length)
    (h : editDistDP.RowsDone H V cols fill k mat r) :
    editDistDP.RowsDone H V cols fill k (editDistDP.fillRow H V H.length mat (r + 1)) (r + 1) := by
  obtain ⟨hW, hn, hgood, hrest⟩ := h
  have hfirst : 1 ≤ mat.getFirstColumn (r + 1) := by
    unfold BandMatrix.getFirstColumn; omega
  have hfirst' : mat.getFirstColumn (r + 1) = max 1 (r + 1 - k) := by
    unfold BandMatrix.getFirstColumn; rw [hW]
  have hlast : mat.getLastColumn (r + 1) = min cols (r + 1 + k) := by
    unfold BandMatrix.getLastColumn; rw [hW, hn]
  have hstart : editDistDP.RowPart H V cols fill k mat r (mat.getFirstColumn (r + 1) - 1) := by
    refine ⟨hW, hn, ?_, ?_⟩
    · intro i j hi hj hij
      rcases hij with hir | ⟨rfl, hjc⟩
      · exact hgood i j hi hj hir
      · rw [hrest (r + 1) j (by omega)]
        exact borderCell_agrees V H fill k (r + 1) j hfill hi hj (by omega)
    · intro i j hij
      exact hrest i j (by omega)
  have hfold := rowPart_foldl H V cols fill k r hr
    (min (mat.getLastColumn (r + 1)) H.length + 1 - mat.getFirstColumn (r + 1))
    (mat.getFirstColumn (r + 1) - 1) mat (by omega) hstart
  rw [show mat.getFirstColumn (r + 1) - 1 + 1 = mat.getFirstColumn (r + 1) by omega] at hfold
  unfold editDistDP.fillRow
  obtain ⟨hW', hn', hgood', hrest'⟩ := hfold
  refine ⟨hW', hn', ?_, ?_⟩
  · intro i j hi hj hir
    by_cases hcase : i ≤ r ∨ (i = r + 1 ∧ j ≤ mat.getFirstColumn (r + 1) - 1 +
        (min (mat.getLastColumn (r + 1)) H.length + 1 - mat.getFirstColumn (r + 1)))
    · exact hgood' i j hi hj hcase
    · rw [hrest' i j (by omega)]
      exact borderCell_agrees V H fill k i j hfill hi hj (by omega)
  · intro i j hij
    exact hrest' i j (by omega)

theorem rowsDone_foldl (H V : List Char) (cols fill k : Nat) (hfill : k < fill)
    (hcols : H.length ≤ cols) :
    ∀ (cnt r : Nat) (mat : BandMatrix), r + cnt ≤ V.length →
      editDistDP.RowsDone H V cols fill k mat r →
      editDistDP.RowsDone H V cols fill k
        ((List.range' (r + 1) cnt).foldl (editDistDP.fillRow H V H.length) mat) (r + cnt) := by
  intro cnt
  induction cnt with
  | zero => intro r mat _ h; simpa using h
  | succ cnt ih =>
    intro r mat hle h
    rw [List.range'_succ, List.foldl_cons]
    have hrow := rowsDone_fillRow H V cols fill k mat r hfill hcols (by omega) h
    have := ih (r + 1) _ (by omega) hrow
    rw [show r + (cnt + 1) = r + 1 + cnt by omega]
    exact this

theorem rowsDone_create (H V : List Char) (cols fill height k : Nat) (hfill : k < fill) :
    editDistDP.RowsDone H V cols fill k (BandMatrix.create cols fill height k) 0 := by
  refine ⟨rfl, rfl, ?_, ?_⟩
  · intro i j hi hj hi0
    exact borderCell_agrees V H fill k i j hfill hi hj (by omega)
  · intro i j _
    rfl

/-- The matrix loop of `editDistDP`, run on a horizontal string `H` that is not longer than the
vertical string `V`, leaves the distance of the two strings in the cell `(|V|, |H|)` when this
distance is at most the band radius. -/
theorem bandMatrix_cell_eq_lev (H V : List Char) (cols fill height k : Nat) (hfill : k < fill)
    (hcols : H.length ≤ cols) (hd : lev V H ≤ k) :
    (((List.range' 1 V.length).foldl (editDistDP.fillRow H V H.length)
      (BandMatrix.create cols fill height k)).get V.length H.length) = lev V H := by
  have h := rowsDone_foldl H V cols fill k hfill hcols V.length 0
    (BandMatrix.create cols fill height k) (by omega) (rowsDone_create H V cols fill height k hfill)
  simp only [Nat.zero_add] at h
  obtain ⟨-, -, hgood, -⟩ := h
  have hcell := hgood V.length H.length (le_refl _) (le_refl _) (le_refl _)
  rw [List.take_length, List.take_length] at hcell
  exact hcell.1 hd

theorem toInt_of_le (x : Nat) (h : x ≤ 2147483647) : toInt x = (x : Int) := by
  unfold toInt
  omega

theorem lev_self (xs : List Char) : lev xs xs = 0 := by
  induction xs with
  | nil => exact lev_nil_left []
  | cons x xs ih =>
    rw [lev_cons_cons, ih]
    simp [subCost]

/-- One substitution at the head costs 1. -/
theorem lev_cons_ne (x y : Char) (hxy : x ≠ y) (xs : List Char) :
    lev (x :: xs) (y :: xs) = 1 := by
  rw [lev_cons_cons, lev_self]
  simp only [subCost, hxy, if_false]
  omega

/-- What `editDistDP` returns when the conversion to `int` turns both lengths into 0, as it does
for the length `2^32`: the cell `(0, 0)` of the fresh matrix. -/
theorem editDistDP_of_toInt_zero (cols fill : Nat) (P O : List Char) (maxED : Int)
    (hP : toInt P.length = 0) (hO : toInt O.length = 0) (h0 : 0 ≤ maxED)
    (hmax : maxED < 2147483647) : editDistDP cols fill P O maxED = some 0 := by
  unfold editDistDP
  simp only [hP, hO, lt_self_iff_false, if_false, max_self, min_self, sub_self]
  have e0 : Int.toNat 0 = 0 := rfl
  have hsmall : ¬ (0 + 1 + maxED > INT_MAX) := by unfold INT_MAX; omega
  simp only [if_neg (show ¬ ((0 : Int) > INT_MAX) by decide),
    if_neg (show ¬ ((0 : Int) > maxED) by omega), if_neg hsmall, e0, List.range'_zero,
    List.foldl_nil]
  simp [BandMatrix.get, BandMatrix.create, BandMatrix.borderCell]

/-- C10 as stated fails where a value leaves the type `int`.  With `maxED = INT_MAX` the size
`m + 1 + maxED` of the matrix overflows for the two empty strings, whose distance is 0, and the
call has no defined result.  And for two strings of `2^32` characters that differ in the first
one, so that their distance is 1, the lengths are converted to 0 and the result is 0. -/
theorem editDistDP_int_overflow :
    ((levenshtein Levenshtein.defaultCost ([] : List Char) [] : Nat) : Int) ≤ 2147483647 ∧
      editDistDP 0 2147483648 [] [] 2147483647 = none ∧
      ((levenshtein Levenshtein.defaultCost ('C' :: List.replicate 4294967295 'A')
        ('A' :: List.replicate 4294967295 'A') : Nat) : Int) = 1 ∧
      editDistDP 4294967296 2 ('C' :: List.replicate 4294967295 'A')
        ('A' :: List.replicate 4294967295 'A') 1 = some 0 := by
  refine ⟨by decide, by decide, ?_, ?_⟩
  · have h := lev_cons_ne 'C' 'A' (by decide) (List.replicate 4294967295 'A')
    simp only [lev] at h
    rw [h]
    rfl
  · apply editDistDP_of_toInt_zero
    · rw [List.length_cons, List.length_replicate]
      decide
    · rw [List.length_cons, List.length_replicate]
      decide
    · decide
    · decide

/-- C10, amended: `editDistDP(P, O, maxED)` recomputes the true edit distance: for all strings
`P`, `O` and every `maxED` with unit-cost Levenshtein distance `d(P, O) ≤ maxED`, for which the
size `max(|P|, |O|) + 1 + maxED` of the matrix is an `int`, the result is `d(P, O)`.  The
`BandMatrix` is the one modelled from the spec, for every choice of the two values the spec leaves
open: a last column `cols` that the shorter string fits in, and a start value `fill` above `maxED`
for the cells outside of the band. -/
theorem editDistDP_eq_levenshtein (cols fill : Nat) (P O : List Char) (maxED : Int)
    (hcols : min P.length O.length ≤ cols) (hfill : maxED < (fill : Int))
    (hd : ((levenshtein Levenshtein.defaultCost P O : Nat) : Int) ≤ maxED)
    (hint : ((max P.length O.length : Nat) : Int) + 1 + maxED ≤ INT_MAX) :
    editDistDP cols fill P O maxED =
      some ((levenshtein Levenshtein.defaultCost P O : Nat) : Int) := by
  have hk0 : 0 ≤ maxED := le_trans (Int.ofNat_nonneg _) hd
  obtain ⟨k, rfl⟩ := Int.eq_ofNat_of_zero_le hk0
  have hd' : lev P O ≤ k := by exact_mod_cast hd
  have hfill' : k < fill := by exact_mod_cast hfill
  have hlen := length_le_lev_add P O
  have hlen' := length_le_lev_add O P
  rw [lev_symm O P] at hlen'
  unfold INT_MAX at hint
  have hPb : P.length ≤ 2147483647 := by
    have := Nat.le_max_left P.length O.length
    omega
  have hOb : O.length ≤ 2147483647 := by
    have := Nat.le_max_right P.length O.length
    omega
  unfold editDistDP
  simp only [toInt_of_le _ hPb, toInt_of_le _ hOb, Int.toNat_ofNat, INT_MAX]
  by_cases hnm : (P.length : Int) > (O.length : Int)
  · have hnm' : O.length < P.length := by exact_mod_cast hnm
    simp only [hnm, if_true]
    rw [max_eq_left (by omega), min_eq_right (by omega)]
    rw [Nat.max_eq_left (by omega)] at hint
    rw [if_neg (by omega), if_neg (by omega), if_neg (by omega), if_neg (by omega)]
    have e1 : ((P.length : Int) + 1 + (k : Int)).toNat = P.length + 1 + k := by omega
    have e2 : ((P.length : Int)).toNat = P.length := by omega
    have e3 : ((O.length : Int)).toNat = O.length := by omega
    rw [e1, e2, e3, bandMatrix_cell_eq_lev O P cols fill _ k hfill' (by omega) hd']
  · have hnm' : P.length ≤ O.length := by
      have : ¬ O.length < P.length := fun h => hnm (by exact_mod_cast h)
      omega
    simp only [hnm, if_false]
    rw [max_eq_left (by omega), min_eq_right (by omega)]
    rw [Nat.max_eq_right (by omega)] at hint
    rw [if_neg (by omega), if_neg (by omega), if_neg (by omega), if_neg (by omega)]
    have e1 : ((O.length : Int) + 1 + (k : Int)).toNat = O.length + 1 + k := by omega
    have e2 : ((P.length : Int)).toNat = P.length := by omega
    have e3 : ((O.length : Int)).toNat = O.length := by omega
    rw [e1, e2, e3, bandMatrix_cell_eq_lev P O cols fill _ k hfill' (by omega)
      (by rw [lev_symm]; exact hd'), lev_symm]

theorem editDistDP_eq_levenshtein_witness :
    min (['G', 'A', 'T', 'A', 'C', 'A'] : List Char).length
        (['G', 'A', 'T', 'T', 'A', 'C', 'A'] : List Char).length ≤ 7 ∧
      (1 : Int) < ((2 : Nat) : Int) ∧
      ((levenshtein Levenshtein.defaultCost ['G', 'A', 'T', 'A', 'C', 'A']
        ['G', 'A', 'T', 'T', 'A', 'C', 'A'] : Nat) : Int) ≤ 1 ∧
      ((max (['G', 'A', 'T', 'A', 'C', 'A'] : List Char).length
        (['G', 'A', 'T', 'T', 'A', 'C', 'A'] : List Char).length : Nat) : Int) + 1 + 1 ≤
          INT_MAX ∧
      editDistDP 7 2 ['G', 'A', 'T', 'A', 'C', 'A'] ['G', 'A', 'T', 'T', 'A', 'C', 'A'] 1 =
        some ((levenshtein Levenshtein.defaultCost ['G', 'A', 'T', 'A', 'C', 'A']
          ['G', 'A', 'T', 'T', 'A', 'C', 'A'] : Nat) : Int) ∧
      editDistDP 7 2 ['G', 'A', 'T', 'A', 'C', 'A'] ['G', 'A', 'T', 'T', 'A', 'C', 'A'] 1 =
        some 1 :=
  ⟨by decide, by decide, by decide, by decide,
    editDistDP_eq_levenshtein 7 2 ['G', 'A', 'T', 'A', 'C', 'A']
      ['G', 'A', 'T', 'T', 'A', 'C', 'A'] 1 (by decide) (by decide) (by decide) (by decide),
    by decide⟩

/-! ## The reads and their reverse complements -/

theorem pairUp_append (getRevCompl : List Char → List Char) (records : List Read) (r : Read) :
    pairUp getRevCompl (records ++ [r]) =
      pairUp getRevCompl records ++ [(r.1, r.2), (r.1, getRevCompl r.2)] := by
  simp [pairUp, List.flatMap_append]

theorem pairUp_length (getRevCompl : List Char → List Char) (records : List Read) :
    (pairUp getRevCompl records).length = 2 * records.length := by
  induction records with
  | nil => rfl
  | cons r rs ih =>
    have : pairUp getRevCompl (r :: rs) =
        (r.1, r.2) :: (r.1, getRevCompl r.2) :: pairUp getRevCompl rs := rfl
    rw [this, List.length_cons, List.length_cons, ih, List.length_cons]
    omega

theorem pairUp_getElem? (getRevCompl : List Char → List Char) (records : List Read) :
    ∀ i, i < records.length → ∃ id seq,
      (pairUp getRevCompl records)[2 * i]? = some (id, seq) ∧
        (pairUp getRevCompl records)[2 * i + 1]? = some (id, getRevCompl seq) := by
  induction records with
  | nil => intro i hi; simp at hi
  | cons r rs ih =>
    intro i hi
    have hcons : pairUp getRevCompl (r :: rs) =
        (r.1, r.2) :: (r.1, getRevCompl r.2) :: pairUp getRevCompl rs := rfl
    rw [hcons]
    rcases i with _ | i
    · exact ⟨r.1, r.2, by simp, by simp⟩
    · obtain ⟨id, seq, h0, h1⟩ := ih i (by simpa using hi)
      refine ⟨id, seq, ?_, ?_⟩
      · rw [show 2 * (i + 1) = 2 * i + 1 + 1 by omega, List.getElem?_cons_succ,
          List.getElem?_cons_succ]
        exact h0
      · rw [show 2 * (i + 1) + 1 = 2 * i + 1 + 1 + 1 by omega, List.getElem?_cons_succ,
          List.getElem?_cons_succ]
        exact h1

theorem pairedReads_pairUp (getRevCompl : List Char → List Char) (records : List Read) :
    PairedReads getRevCompl (pairUp getRevCompl records) := by
  refine ⟨by rw [pairUp_length]; omega, ?_⟩
  intro i hi
  rw [pairUp_length] at hi
  exact pairUp_getElem? getRevCompl records i (by omega)

theorem fasta_foldl_pairUp (getRevCompl : List Char → List Char) (lines : List (List Char)) :
    ∀ st : getReads.FastaState, (∃ records, st.reads = pairUp getRevCompl records) →
      ∃ records, (lines.foldl (getReads.fastaLine getRevCompl) st).reads =
        pairUp getRevCompl records := by
  induction lines with
  | nil => intro st h; exact h
  | cons line lines ih =>
    intro st h
    rw [List.foldl_cons]
    apply ih
    obtain ⟨records, hrec⟩ := h
    unfold getReads.fastaLine
    split
    · split
      · exact ⟨records ++ [(st.p, st.read)], by simp [hrec, pairUp_append]⟩
      · exact ⟨records, hrec⟩
    · exact ⟨records, hrec⟩

theorem fastq_foldl_pairUp (getRevCompl : List Char → List Char) (lines : List (List Char)) :
    ∀ st : getReads.FastqState, (∃ records, st.reads = pairUp getRevCompl records) →
      ∃ records, (lines.foldl (getReads.fastqLine getRevCompl) st).reads =
        pairUp getRevCompl records := by
  induction lines with
  | nil => intro st h; exact h
  | cons line lines ih =>
    intro st h
    rw [List.foldl_cons]
    apply ih
    obtain ⟨records, hrec⟩ := h
    unfold getReads.fastqLine
    split
    · split
      · exact ⟨records ++ [(st.id, st.read)], by simp [hrec, pairUp_append]⟩
      · exact ⟨records, hrec⟩
    · split
      · exact ⟨records, hrec⟩
      · exact ⟨records, hrec⟩

/-- The FASTA and the FASTQ branch of `getReads` return the reads in pairs, whatever the lines of
the file are: every read is followed by its reverse complement under the same identifier. -/
theorem getReads_fasta_fastq_paired (getRevCompl : List Char → List Char)
    (lines : List (List Char)) :
    PairedReads getRevCompl (getReads.fasta getRevCompl lines) ∧
      PairedReads getRevCompl (getReads.fastq getRevCompl lines) := by
  constructor
  · obtain ⟨records, hrec⟩ := fasta_foldl_pairUp getRevCompl lines ⟨[], [], []⟩ ⟨[], rfl⟩
    unfold getReads.fasta
    simp only []
    split
    · rw [hrec, ← pairUp_append getRevCompl records (_, _)]
      exact pairedReads_pairUp _ _
    · rw [hrec]
      exact pairedReads_pairUp _ _
  · obtain ⟨records, hrec⟩ := fastq_foldl_pairUp getRevCompl lines ⟨[], [], [], false⟩ ⟨[], rfl⟩
    unfold getReads.fastq
    simp only []
    split
    · rw [hrec, ← pairUp_append getRevCompl records (_, _)]
      exact pairedReads_pairUp _ _
    · rw [hrec]
      exact pairedReads_pairUp _ _

/-- C11 fails in the CSV branch of `getReads`: for the file `reads.csv` with the header line and
the data lines `0,17,ACGT` and `1,42,TTGA` the result is the two entries `(17, ACGT)` and
`(42, TTGA)`, no reverse complement is added, and the entries are not paired, whatever
`getRevCompl` is; with the first data line alone the result has the odd length 1. -/
theorem getReads_csv_not_paired (getRevCompl : List Char → List Char) :
    getReads (fun _ => some ["id,position,read".toList, "0,17,ACGT".toList, "1,42,TTGA".toList])
        getRevCompl "reads.csv".toList =
      .ok [("17".toList, "ACGT".toList), ("42".toList, "TTGA".toList)] ∧
      ¬ PairedReads getRevCompl [("17".toList, "ACGT".toList), ("42".toList, "TTGA".toList)] ∧
      getReads (fun _ => some ["id,position,read".toList, "0,17,ACGT".toList])
        getRevCompl "reads.csv".toList = .ok [("17".toList, "ACGT".toList)] ∧
      ¬ PairedReads getRevCompl [("17".toList, "ACGT".toList)] := by
  refine ⟨rfl, ?_, rfl, ?_⟩
  · rintro ⟨-, h⟩
    obtain ⟨id, seq, h0, h1⟩ := h 0 (by decide)
    simp only [Nat.mul_zero, List.getElem?_cons_zero, Option.some.injEq, Prod.mk.injEq,
      Nat.zero_add, List.getElem?_cons_succ] at h0 h1
    obtain ⟨hid, -⟩ := h0
    obtain ⟨hid', -⟩ := h1
    rw [← hid] at hid'
    exact absurd hid' (by decide)
  · rintro ⟨h, -⟩
    exact absurd h (by decide)

/-! ## The output file -/

theorem foldl_append_eq_flatMap {α : Type} (g : α → List Char) (ms : List α) :
    ∀ init : List Char,
      ms.foldl (fun f2 m => f2 ++ g m) init = init ++ ms.flatMap g := by
  induction ms with
  | nil => intro init; simp
  | cons m ms ih => intro init; simp [ih]

theorem matchLines_eq (id : List Char) (flag : Char) (ms : List TextOcc) :
    writeToOutput.matchLines id flag ms =
      (ms.map (fun m => id ++ ['\t'] ++ m.getOutput ++ ['\t', flag])).flatMap
        (fun l => l ++ ['\n']) := by
  unfold writeToOutput.matchLines
  have h := foldl_append_eq_flatMap
    (fun m : TextOcc => id ++ ['\t'] ++ m.getOutput ++ ['\t', flag, '\n']) ms []
  simp only [List.append_assoc, List.nil_append] at h ⊢
  rw [h, List.flatMap_map]
  simp

theorem writeToOutput_foldlM (mPerRead : List (List TextOcc)) (reads : List Read)
    (idxs : List Nat) :
    ∀ f2 : List Char, (∀ i ∈ idxs, i < reads.length ∧ i + 1 < mPerRead.length) →
      idxs.foldlM
          (fun f2 i =>
            match reads[i]?, mPerRead[i]?, mPerRead[i + 1]? with
            | some (id, _), some ms, some msRev =>
              some (f2 ++ writeToOutput.matchLines id '0' ms ++
                writeToOutput.matchLines id '1' msRev)
            | _, _, _ => none)
          f2 =
        some (f2 ++ (idxs.flatMap (fun i =>
          ((mPerRead.getD i []).map
              (fun m => (reads.getD i ([], [])).1 ++ ['\t'] ++ m.getOutput ++ ['\t', '0'])) ++
            ((mPerRead.getD (i + 1) []).map
              (fun m => (reads.getD i ([], [])).1 ++ ['\t'] ++ m.getOutput ++
                ['\t', '1'])))).flatMap (fun l => l ++ ['\n'])) := by
  induction idxs with
  | nil => intro f2 _; simp
  | cons i idxs ih =>
    intro f2 h
    obtain ⟨hi, hi1⟩ := h i (List.mem_cons_self _ _)
    have hi0 : i < mPerRead.length := by omega
    rw [List.foldlM_cons]
    rw [List.getElem?_eq_getElem hi, List.getElem?_eq_getElem hi0,
      List.getElem?_eq_getElem hi1]
    simp only [Option.bind_eq_bind, Option.some_bind]
    rw [ih _ (fun j hj => h j (List.mem_cons_of_mem _ hj))]
    simp only [List.getD_eq_getElem?_getD, List.getElem?_eq_getElem hi,
      List.getElem?_eq_getElem hi0, List.getElem?_eq_getElem hi1, Option.getD_some,
      matchLines_eq, List.flatMap_cons, List.flatMap_append, List.append_assoc,
      List.get_eq_getElem]

theorem sum_pairs_eq_sum (H : Nat) :
    ∀ ms : List (List TextOcc), ms.length = 2 * H →
      ((List.range H).map
          (fun h => (ms.getD (2 * h) []).length + (ms.getD (2 * h + 1) []).length)).sum =
        (ms.map List.length).sum := by
  induction H with
  | zero =>
    intro ms h
    have : ms = [] := List.length_eq_zero.mp (by omega)
    simp [this]
  | succ H ih =>
    intro ms h
    match ms, h with
    | a :: b :: ms', h =>
      have h' : ms'.length = 2 * H := by simp at h; omega
      rw [List.range_succ_eq_map, List.map_cons, List.sum_cons, List.map_map]
      have hshift : (fun h => ((a :: b :: ms').getD (2 * h) []).length +
          ((a :: b :: ms').getD (2 * h + 1) []).length) ∘ Nat.succ =
          fun h => (ms'.getD (2 * h) []).length + (ms'.getD (2 * h + 1) []).length := by
        funext h
        simp only [Function.comp, Nat.succ_eq_add_one]
        rw [show 2 * (h + 1) = 2 * h + 1 + 1 by omega]
        simp
      rw [hshift, ih ms' h']
      simp
      omega

/-- The loop of `writeToOutput`, started at the even counter value `2 * h` with `n` passes to go,
is the fold over the remaining even indices, as long as the counter does not wrap around. -/
theorem writeToOutput_loop_eq_foldlM (mPerRead : List (List TextOcc)) (reads : List Read)
    (hsize : reads.length ≤ 4294967294) (n : Nat) :
    ∀ (h fuel : Nat) (f2 : List Char), h + n = (reads.length + 1) / 2 → n < fuel →
      writeToOutput.loop mPerRead reads fuel (2 * h) f2 =
        match ((List.range' h n).map (fun h => 2 * h)).foldlM
          (fun f2 i =>
            match reads[i]?, mPerRead[i]?, mPerRead[i + 1]? with
            | some (id, _), some ms, some msRev =>
              some (f2 ++ writeToOutput.matchLines id '0' ms ++
                writeToOutput.matchLines id '1' msRev)
            | _, _, _ => none)
          f2 with
        | some text => .finished text
        | none => .undefined := by
  induction n with
  | zero =>
    intro h fuel f2 hh hfuel
    obtain ⟨fuel, rfl⟩ : ∃ k, fuel = k + 1 := ⟨fuel - 1, by omega⟩
    unfold writeToOutput.loop
    rw [if_neg (by omega)]
    rfl
  | succ n ih =>
    intro h fuel f2 hh hfuel
    obtain ⟨fuel, rfl⟩ : ∃ k, fuel = k + 1 := ⟨fuel - 1, by omega⟩
    unfold writeToOutput.loop
    have hlt : 2 * h < reads.length := by omega
    have e1 : (2 * h + 1) % 4294967296 = 2 * h + 1 := Nat.mod_eq_of_lt (by omega)
    have e2 : (2 * h + 2) % 4294967296 = 2 * (h + 1) := by
      rw [Nat.mod_eq_of_lt (by omega)]; omega
    rw [if_pos hlt, e1, e2, List.range'_succ, List.map_cons, List.foldlM_cons]
    rcases hr : reads[2 * h]? with _ | ⟨id, seq⟩
    · rfl
    · rcases hm : mPerRead[2 * h]? with _ | ms
      · rfl
      · rcases hm1 : mPerRead[2 * h + 1]? with _ | msRev
        · rfl
        · simp only [Option.bind_eq_bind, Option.some_bind]
          exact ih (h + 1) fuel _ (by omega) (by omega)

/-- When `reads` has `2^32 - 1` or more entries, the counter of the loop of `writeToOutput`
wraps around from `2^32 - 2` to 0 before it reaches the size, and the loop does not end. -/
theorem writeToOutput_loop_outOfFuel (mPerRead : List (List TextOcc)) (reads : List Read)
    (hsize : 4294967295 ≤ reads.length) (hlen : 4294967296 ≤ mPerRead.length) (fuel : Nat) :
    ∀ (i : Nat) (f2 : List Char), i % 2 = 0 → i < 4294967296 →
      writeToOutput.loop mPerRead reads fuel i f2 = .outOfFuel := by
  induction fuel with
  | zero => intro i f2 _ _; rfl
  | succ fuel ih =>
    intro i f2 heven hi
    unfold writeToOutput.loop
    have hlt : i < reads.length := by omega
    have e1 : (i + 1) % 4294967296 = i + 1 := Nat.mod_eq_of_lt (by omega)
    rw [if_pos hlt, e1, List.getElem?_eq_getElem hlt,
      List.getElem?_eq_getElem (show i < mPerRead.length by omega),
      List.getElem?_eq_getElem (show i + 1 < mPerRead.length by omega)]
    exact ih _ _ (by omega) (Nat.mod_lt _ (by norm_num))

/-- C12 as stated fails where the counter leaves its machine type: for `2^32 - 1` reads (here
with empty identifiers and no matches) the loop `for (unsigned int i = 0; i < reads.size();
i += 2)` never ends, however many passes it is given, so `writeToOutput` does not write the file
that the claim describes. -/
theorem writeToOutput_counter_wraps :
    (List.replicate 4294967296 ([] : List TextOcc)).length =
        2 * (((List.replicate 4294967295 (([], []) : Read)).length + 1) / 2) ∧
      ∀ fuel : Nat,
        writeToOutput fuel (List.replicate 4294967296 ([] : List TextOcc))
          (List.replicate 4294967295 (([], []) : Read)) = .outOfFuel := by
  have h1 : (List.replicate 4294967296 ([] : List TextOcc)).length = 4294967296 :=
    List.length_replicate _ _
  have h2 : (List.replicate 4294967295 (([], []) : Read)).length = 4294967295 :=
    List.length_replicate _ _
  refine ⟨?_, fun fuel => ?_⟩
  · rw [h1, h2]
  · unfold writeToOutput
    exact writeToOutput_loop_outOfFuel _ _ (by rw [h2]) (by rw [h1]) fuel 0 _ (by decide)
      (by decide)

/-- C12, amended: for at most `2^32 - 2` reads, `writeToOutput` ends (within any number of passes
above the number of pairs) and has written the header line with the six tab-separated columns
identifier, position, length, ED, CIGAR, reverseComplement and then, for every even index
`i < |reads|` in increasing order, one line per match of `mPerRead[i]` ending in the field 0
followed by one line per match of `mPerRead[i+1]` ending in the field 1, each line starting with
the identifier `reads[i].first`; the number of data lines is the total number of matches.
`mPerRead` holds the two lists of matches of every read, as `doBench` builds it. -/
theorem writeToOutput_lines (fuel : Nat) (mPerRead : List (List TextOcc)) (reads : List Read)
    (hlen : mPerRead.length = 2 * ((reads.length + 1) / 2))
    (hsize : reads.length ≤ 4294967294) (hfuel : (reads.length + 1) / 2 < fuel) :
    writeToOutput.header =
        "identifier".toList ++ ['\t'] ++ "position".toList ++ ['\t'] ++ "length".toList ++
          ['\t'] ++ "ED".toList ++ ['\t'] ++ "CIGAR".toList ++ ['\t'] ++
          "reverseComplement".toList ++ ['\n'] ∧
      writeToOutput fuel mPerRead reads =
        .finished (writeToOutput.header ++
          (writeToOutput.dataLines mPerRead reads).flatMap (fun l => l ++ ['\n'])) ∧
      (writeToOutput.dataLines mPerRead reads).length = (mPerRead.map List.length).sum := by
  refine ⟨by decide, ?_, ?_⟩
  · unfold writeToOutput
    have h := writeToOutput_loop_eq_foldlM mPerRead reads hsize ((reads.length + 1) / 2) 0 fuel
      writeToOutput.header (by omega) hfuel
    rw [Nat.mul_zero] at h
    rw [h, ← List.range_eq_range', writeToOutput_foldlM]
    · rfl
    · intro i hi
      simp only [List.mem_map, List.mem_range] at hi
      obtain ⟨h, hh, rfl⟩ := hi
      omega
  · unfold writeToOutput.dataLines writeToOutput.evenIndices
    rw [List.length_flatMap, List.map_map]
    rw [← sum_pairs_eq_sum ((reads.length + 1) / 2) mPerRead hlen]
    congr 1
    apply List.map_congr_left
    intro h _
    simp

theorem writeToOutput_lines_witness :
    [[TextOcc.mk ⟨17, 21⟩ 0 [('M', 4)] "17\t4\t0\t4M".toList], []].length =
        2 * (([("r1".toList, "ACGT".toList), ("r1".toList, "ACGT".toList)].length + 1) / 2) ∧
      [("r1".toList, "ACGT".toList), ("r1".toList, "ACGT".toList)].length ≤ 4294967294 ∧
      ([("r1".toList, "ACGT".toList), ("r1".toList, "ACGT".toList)].length + 1) / 2 < 2 ∧
      writeToOutput 2 [[TextOcc.mk ⟨17, 21⟩ 0 [('M', 4)] "17\t4\t0\t4M".toList], []]
          [("r1".toList, "ACGT".toList), ("r1".toList, "ACGT".toList)] =
        .finished (writeToOutput.header ++
          (writeToOutput.dataLines [[TextOcc.mk ⟨17, 21⟩ 0 [('M', 4)] "17\t4\t0\t4M".toList], []]
            [("r1".toList, "ACGT".toList), ("r1".toList, "ACGT".toList)]).flatMap
              (fun l => l ++ ['\n'])) ∧
      writeToOutput.dataLines [[TextOcc.mk ⟨17, 21⟩ 0 [('M', 4)] "17\t4\t0\t4M".toList], []]
          [("r1".toList, "ACGT".toList), ("r1".toList, "ACGT".toList)] =
        ["r1\t17\t4\t0\t4M\t0".toList] ∧
      writeToOutput 2 [[TextOcc.mk ⟨17, 21⟩ 0 [('M', 4)] "17\t4\t0\t4M".toList], []]
          [("r1".toList, "ACGT".toList), ("r1".toList, "ACGT".toList)] =
        .finished
          "identifier\tposition\tlength\tED\tCIGAR\treverseComplement\nr1\t17\t4\t0\t4M\t0\n".toList :=
  ⟨by decide, by decide, by decide,
    (writeToOutput_lines 2 [[TextOcc.mk ⟨17, 21⟩ 0 [('M', 4)] "17\t4\t0\t4M".toList], []]
      [("r1".toList, "ACGT".toList), ("r1".toList, "ACGT".toList)] (by decide) (by decide)
      (by decide)).2.1,
    by decide, by decide⟩

/-! ## The command line -/

namespace Columba

theorem frame_refl (rest : List (List Char)) (s : Settings) : Frame rest s s :=
  ⟨fun _ _ => rfl, fun _ _ => rfl, fun _ _ => rfl, fun _ _ => ⟨rfl, rfl⟩, fun _ _ => rfl,
    fun _ _ => rfl⟩

theorem frame_step (arg : List Char) (rest rest' : List (List Char)) (s0 s' s : Settings)
    (h : Frame rest' s' s) (hsub : ∀ x, x ∈ rest' → x ∈ rest)
    (hp : ("-p".toList ≠ arg ∧ "--partitioning".toList ≠ arg) → s'.pStrat = s0.pStrat)
    (hs : ("-s".toList ≠ arg ∧ "--sa-sparseness".toList ≠ arg) → s'.saSparse = s0.saSparse)
    (he : ("-e".toList ≠ arg ∧ "--max-ed".toList ≠ arg) → s'.maxED = s0.maxED)
    (hss : ("-ss".toList ≠ arg ∧ "--search-scheme".toList ≠ arg) →
      s'.searchscheme = s0.searchscheme ∧ s'.customFile = s0.customFile)
    (hm : ("-m".toList ≠ arg ∧ "-metric".toList ≠ arg) → s'.metric = s0.metric)
    (hi : ("-i".toList ≠ arg ∧ "--in-text".toList ≠ arg) → s'.inTextPoint = s0.inTextPoint) :
    Frame (arg :: rest) s0 s := by
  obtain ⟨h1, h2, h3, h4, h5, h6⟩ := h
  have hn : ∀ x, x ∉ rest → x ∉ rest' := fun x hx hx' => hx (hsub x hx')
  simp only [Frame, List.mem_cons, not_or]
  refine ⟨?_, ?_, ?_, ?_, ?_, ?_⟩
  · rintro ⟨a, b⟩ ⟨c, d⟩; rw [h1 (hn _ b) (hn _ d)]; exact hp ⟨a, c⟩
  · rintro ⟨a, b⟩ ⟨c, d⟩; rw [h2 (hn _ b) (hn _ d)]; exact hs ⟨a, c⟩
  · rintro ⟨a, b⟩ ⟨c, d⟩; rw [h3 (hn _ b) (hn _ d)]; exact he ⟨a, c⟩
  · rintro ⟨a, b⟩ ⟨c, d⟩
    rw [(h4 (hn _ b) (hn _ d)).1, (h4 (hn _ b) (hn _ d)).2]; exact hss ⟨a, c⟩
  · rintro ⟨a, b⟩ ⟨c, d⟩; rw [h5 (hn _ b) (hn _ d)]; exact hm ⟨a, c⟩
  · rintro ⟨a, b⟩ ⟨c, d⟩; rw [h6 (hn _ b) (hn _ d)]; exact hi ⟨a, c⟩

theorem processOptions_nil (k : Nat) (s : Settings) : processOptions k [] s = .continues [] s := by
  cases k <;> rfl

set_option maxHeartbeats 4000000 in
/-- The option loop, when it runs to its end, prints nothing and leaves every setting alone whose
option does not occur at the `k` positions that the loop visits. -/
theorem processOptions_frame (n : Nat) : ∀ (k : Nat) (rest : List (List Char)) (s0 : Settings),
    rest.length ≤ n → ∀ log s, processOptions k rest s0 = .continues log s →
      Frame (rest.take k) s0 s ∧ log = [] := by
  induction n with
  | zero =>
    intro k rest s0 hlen log s h
    have : rest = [] := List.length_eq_zero.mp (by omega)
    subst this
    rw [processOptions_nil] at h
    cases h
    exact ⟨frame_refl _ _, rfl⟩
  | succ n ih =>
    intro k rest s0 hlen log s h
    cases k with
    | zero => simp [processOptions] at h; rw [h.2, h.1]; exact ⟨frame_refl _ _, rfl⟩
    | succ k =>
      rcases rest with _ | ⟨arg, _ | ⟨v, _ | ⟨f, rest''⟩⟩⟩
      · rw [processOptions_nil] at h
        cases h
        exact ⟨frame_refl _ _, rfl⟩
      all_goals
        unfold processOptions at h
        dsimp only at h
        split_ifs at h
        all_goals first
          | (cases h)
          | (rw [processOptions_nil] at h; cases h; exact ⟨frame_refl _ _, rfl⟩)
          | (rw [List.take_succ_cons]
             refine ⟨frame_step arg _ _ s0 _ s
              (ih _ _ _ (by simp only [List.length_cons] at hlen ⊢; omega) log s h).1
              (fun x hx => by
                rcases k with _ | _ | k
                · simp at hx
                · simp at hx ⊢
                  try simp [hx]
                · simp only [Nat.add_sub_cancel, List.take_succ_cons, List.mem_cons] at hx ⊢
                  first
                  | exact Or.inr hx
                  | exact Or.inr (Or.inr hx))
              ?_ ?_ ?_ ?_ ?_ ?_,
              (ih _ _ _ (by simp only [List.length_cons] at hlen ⊢; omega) log s h).2⟩ <;>
              first
              | (intro _; exact rfl)
              | (intro _; exact ⟨rfl, rfl⟩)
              | (rintro ⟨a, b⟩
                 rcases ‹arg = _ ∨ arg = _› with e | e
                 · exact absurd e.symm a
                 · exact absurd e.symm b))

theorem runBench_logs_getReads (w : World) (argv : List (List Char)) (c : Config) :
    Event.getReads (argv.getD (argv.length - 1) []) ∈ (runBench w argv c).events := by
  unfold runBench
  dsimp only
  split
  · simp
  · simp
  · split
    · simp
    · split
      · simp
      · split
        · simp
        · split <;> simp

/-- The run of `main` once the option loop has run to its end. -/
theorem main_of_options (w : World) (lengthBits : Nat) (argv : List (List Char))
    (log : List Event) (s : Settings) (hargc : 2 ≤ argv.length)
    (hhelp : ¬(argv.length = 2 ∧ argv[1]? = some "help".toList))
    (hopts : processOptions (argv.length - 2 - 1) (argv.drop 1) defaults = .continues log s) :
    main w lengthBits argv =
      match argumentChecks lengthBits s with
      | .stops log' outcome => ⟨Event.cout "Welcome to Columba!\n".toList :: log', outcome⟩
      | .continues log' c =>
        ⟨Event.cout "Welcome to Columba!\n".toList :: (log' ++ (runBench w argv c).events),
          (runBench w argv c).outcome⟩ := by
  have hlog : log = [] := (processOptions_frame _ _ _ _ (le_refl _) log s hopts).2
  subst hlog
  unfold main
  simp only [show ¬ argv.length < 2 by omega, hhelp, if_false, hopts, List.nil_append]

/-- The checks of `main` when the three numbers can be read and `ed` is at most 6: only the test
for `manbest` decides, and the log holds at most the message about the sparseness factor. -/
theorem argumentChecks_of_numbers (lengthBits : Nat) (s : Settings)
    (maxED saSparse inTextPoint : Int) (hed : stoi s.maxED = some maxED)
    (hbound : toLength lengthBits maxED ≤ 6) (hsa : stoi s.saSparse = some saSparse)
    (hin : stoi s.inTextPoint = some inTextPoint) :
    ∃ log', (∀ e ∈ log', ∃ text, e = Event.cerr text) ∧
      argumentChecks lengthBits s =
        if toLength lengthBits maxED ≠ 4 ∧ s.searchscheme = "manbest".toList then
          .stops log' (.terminated "manbest only supports 4 allowed errors".toList)
        else
          .continues log'
            { ed := toLength lengthBits maxED
              saSF := toLength lengthBits saSparse
              inTextSwitchPoint := toLength lengthBits inTextPoint
              searchscheme := s.searchscheme
              customFile := s.customFile
              pStrat := s.pStrat
              metric := s.metric } := by
  unfold argumentChecks
  simp only [hed, hsa, hin, show ¬ toLength lengthBits maxED > 6 by omega, if_false]
  refine ⟨_, ?_, rfl⟩
  intro e he
  split_ifs at he
  · exact ⟨_, List.mem_singleton.mp he⟩
  · exact absurd he (List.not_mem_nil _)

end Columba

section CommandLineRuns

open Columba

/-- C13 (the code at `columba -s 3 base reads.fq`): the sparseness factor 3 is no power of two,
and `main` only prints the message about it: in every world the run goes on to read the reads
file, and in the example world it loads the index with the factor 3, matches and returns 0. -/
theorem main_sparseness_not_rejected :
    (∀ w : World,
      Event.getReads "reads.fq".toList ∈
        (main w 32
          ["columba".toList, "-s".toList, "3".toList, "base".toList, "reads.fq".toList]).events) ∧
      main exampleWorld 32
          ["columba".toList, "-s".toList, "3".toList, "base".toList, "reads.fq".toList] =
        ⟨[.cout "Welcome to Columba!\n".toList,
          .cerr "3 is not allowed as sparse factor, should be in 2^[0, 8]\n".toList,
          .cout "Reading in reads from reads.fq\n".toList,
          .getReads "reads.fq".toList,
          .newFMIndex "base".toList 5 3,
          .newStrategy "kuch1".toList [] .DYNAMIC .EDITOPTIMIZED,
          .doBench "reads.fq".toList 0,
          .cout "Bye...\n".toList], .returned 0⟩ := by
  refine ⟨fun w => ?_, by decide⟩
  rw [main_of_options w 32 _ [] { defaults with saSparse := "3".toList } (by decide) (by decide)
    (by decide)]
  obtain ⟨log', -, h⟩ := argumentChecks_of_numbers 32 { defaults with saSparse := "3".toList }
    0 3 5 (by decide) (by decide) (by decide) (by decide)
  rw [h, if_neg (by decide)]
  exact List.mem_cons_of_mem _ (List.mem_append_right _ (runBench_logs_getReads w _ _))

/-- C14 (the code at `columba -x base reads.fq` and at `columba --metric hamming base reads.fq`):
in every world `main` prints that the argument is unknown and returns `false`, the exit status 0
of a successful run; the spelling `--metric` of the usage text is unknown to the option loop. -/
theorem main_unknown_option_returns_zero :
    (∀ w : World,
      main w 32 ["columba".toList, "-x".toList, "base".toList, "reads.fq".toList] =
        ⟨[.cout "Welcome to Columba!\n".toList,
          .cerr "Unknown argument: -x is not an option\n".toList], .returned 0⟩) ∧
      (∀ w : World,
        main w 32
            ["columba".toList, "--metric".toList, "hamming".toList, "base".toList,
              "reads.fq".toList] =
          ⟨[.cout "Welcome to Columba!\n".toList,
            .cerr "Unknown argument: --metric is not an option\n".toList], .returned 0⟩) ∧
      EXIT_SUCCESS = 0 ∧ EXIT_FAILURE ≠ 0 :=
  ⟨fun _ => rfl, fun _ => rfl, rfl, by decide⟩

/-- C15 (the code at `columba -e k -ss scheme base reads.fq` for `k` = 5, 6 and the schemes
kuch1, kuch2, kianfar, pigeon and 01*0): the bound of `main` is `ed > 6`, so the run reaches
`doBench` with the maximal edit distance `k`, for which the scheme has no search table. -/
theorem main_accepts_maxED_without_table :
    ∀ scheme ∈ ["kuch1".toList, "kuch2".toList, "kianfar".toList, "pigeon".toList, "01*0".toList],
      ∀ k ∈ [5, 6],
        Event.doBench "reads.fq".toList k ∈
            (main exampleWorld 32
              ["columba".toList, "-e".toList, (Nat.repr k).toList, "-ss".toList, scheme,
                "base".toList, "reads.fq".toList]).events ∧
          (main exampleWorld 32
              ["columba".toList, "-e".toList, (Nat.repr k).toList, "-ss".toList, scheme,
                "base".toList, "reads.fq".toList]).outcome = .returned 0 ∧
          (hardcodedScheme scheme).isSome ∧
          (hardcodedScheme scheme).bind (fun strategy => strategy.createSearches k) = none := by
  decide

theorem main_accepts_maxED_without_table_witness :
    "kuch1".toList ∈
        ["kuch1".toList, "kuch2".toList, "kianfar".toList, "pigeon".toList, "01*0".toList] ∧
      5 ∈ [5, 6] ∧
      Event.doBench "reads.fq".toList 5 ∈
        (main exampleWorld 32
          ["columba".toList, "-e".toList, (Nat.repr 5).toList, "-ss".toList, "kuch1".toList,
            "base".toList, "reads.fq".toList]).events ∧
      (hardcodedScheme "kuch1".toList).bind (fun strategy => strategy.createSearches 5) = none :=
  ⟨by decide, by decide,
    (main_accepts_maxED_without_table "kuch1".toList (by decide) 5 (by decide)).1,
    (main_accepts_maxED_without_table "kuch1".toList (by decide) 5 (by decide)).2.2.2⟩

/-- C18 (the code at `columba reads.fq` and at `columba`): with one argument after the program
name the test `argc < 2` does not fire: in every world `main` reads the reads file, and in the
example world it loads the index under the program name and matches.  Only the bare program
name is reported as insufficient. -/
theorem main_one_positional_argument :
    (∀ w : World,
      Event.getReads "reads.fq".toList ∈
        (main w 32 ["columba".toList, "reads.fq".toList]).events) ∧
      main exampleWorld 32 ["columba".toList, "reads.fq".toList] =
        ⟨[.cout "Welcome to Columba!\n".toList,
          .cout "Reading in reads from reads.fq\n".toList,
          .getReads "reads.fq".toList,
          .newFMIndex "columba".toList 5 1,
          .newStrategy "kuch1".toList [] .DYNAMIC .EDITOPTIMIZED,
          .doBench "reads.fq".toList 0,
          .cout "Bye...\n".toList], .returned 0⟩ ∧
      (∀ w : World,
        main w 32 ["columba".toList] =
          ⟨[.cerr "Insufficient number of arguments\n".toList, .showUsage],
            .returned EXIT_FAILURE⟩) := by
  refine ⟨fun w => ?_, by decide, fun _ => rfl⟩
  rw [main_of_options w 32 _ [] defaults (by decide) (by decide) (by decide)]
  obtain ⟨log', -, h⟩ := argumentChecks_of_numbers 32 defaults
    0 1 5 (by decide) (by decide) (by decide) (by decide)
  rw [h, if_neg (by decide)]
  exact List.mem_cons_of_mem _ (List.mem_append_right _ (runBench_logs_getReads w _ _))

end CommandLineRuns

section ManbestCheck

open Columba

/-- C16: when the option loop has run to its end and the earlier checks pass (the three numbers
can be read and `ed` is at most 6), `main` ends with the error "manbest only supports 4 allowed
errors", before the reads file is read, if and only if the search scheme is `manbest` and `ed`
is not 4; with `manbest` and `ed` = 4 the check passes: `main` goes on to read the reads with a
configuration that holds `ed` = 4, for which `ManBestStrategy` has its searches. -/
theorem main_manbest_check (w : World) (lengthBits : Nat) (argv : List (List Char))
    (log : List Event) (s : Settings) (maxED saSparse inTextPoint : Int)
    (hargc : 2 ≤ argv.length) (hhelp : ¬(argv.length = 2 ∧ argv[1]? = some "help".toList))
    (hopts : processOptions (argv.length - 2 - 1) (argv.drop 1) defaults = .continues log s)
    (hed : stoi s.maxED = some maxED) (hbound : toLength lengthBits maxED ≤ 6)
    (hsa : stoi s.saSparse = some saSparse) (hin : stoi s.inTextPoint = some inTextPoint) :
    (((main w lengthBits argv).outcome =
          .terminated "manbest only supports 4 allowed errors".toList ∧
        Event.getReads (argv.getD (argv.length - 1) []) ∉ (main w lengthBits argv).events) ↔
      (s.searchscheme = "manbest".toList ∧ toLength lengthBits maxED ≠ 4)) ∧
      (s.searchscheme = "manbest".toList → toLength lengthBits maxED = 4 →
        ∃ log' c, argumentChecks lengthBits s = .continues log' c ∧ c.ed = 4 ∧
          c.searchscheme = "manbest".toList ∧
          main w lengthBits argv =
            ⟨Event.cout "Welcome to Columba!\n".toList :: (log' ++ (runBench w argv c).events),
              (runBench w argv c).outcome⟩ ∧
          (ManBestStrategy.createSearches c.ed).isSome) := by
  obtain ⟨log', hlog', hchk⟩ :=
    argumentChecks_of_numbers lengthBits s maxED saSparse inTextPoint hed hbound hsa hin
  have hmain := main_of_options w lengthBits argv log s hargc hhelp hopts
  refine ⟨⟨?_, ?_⟩, ?_⟩
  · rintro ⟨-, hno⟩
    by_contra hnot
    rw [hchk, if_neg (fun h => hnot ⟨h.2, h.1⟩)] at hmain
    rw [hmain] at hno
    exact hno (List.mem_cons_of_mem _ (List.mem_append_right _ (runBench_logs_getReads w _ _)))
  · rintro ⟨hss, hne⟩
    rw [hchk, if_pos ⟨hne, hss⟩] at hmain
    rw [hmain]
    refine ⟨rfl, ?_⟩
    intro hmem
    rcases List.mem_cons.mp hmem with h | h
    · cases h
    · obtain ⟨text, htext⟩ := hlog' _ h
      cases htext
  · intro hss h4
    rw [hchk, if_neg (fun h => h.1 h4)] at hmain
    refine ⟨log', _, ?_, h4, hss, hmain, ?_⟩
    · rw [hchk, if_neg (fun h => h.1 h4)]
    · show (ManBestStrategy.createSearches (toLength lengthBits maxED)).isSome
      rw [h4]
      decide

theorem main_manbest_check_witness :
    (2 ≤ ["columba".toList, "-e".toList, "3".toList, "-ss".toList, "manbest".toList,
        "base".toList, "reads.fq".toList].length) ∧
      (main exampleWorld 32
          ["columba".toList, "-e".toList, "3".toList, "-ss".toList, "manbest".toList,
            "base".toList, "reads.fq".toList]).outcome =
        .terminated "manbest only supports 4 allowed errors".toList ∧
      Event.getReads "reads.fq".toList ∉
        (main exampleWorld 32
          ["columba".toList, "-e".toList, "3".toList, "-ss".toList, "manbest".toList,
            "base".toList, "reads.fq".toList]).events :=
  ⟨by decide,
    ((main_manbest_check exampleWorld 32
      ["columba".toList, "-e".toList, "3".toList, "-ss".toList, "manbest".toList,
        "base".toList, "reads.fq".toList]
      [] { defaults with maxED := "3".toList, searchscheme := "manbest".toList } 3 1 5
      (by decide) (by decide) (by decide) (by decide) (by decide) (by decide)
      (by decide)).1.mpr ⟨rfl, by decide⟩)⟩

end ManbestCheck

section DefaultsAndFrame

open Columba

theorem toLength_of_lt (lengthBits : Nat) (n : Nat) (h : n < 2 ^ lengthBits) :
    toLength lengthBits (n : Int) = n := by
  unfold toLength
  have h2 : ((n : Int) % (2 : Int) ^ lengthBits) = (n : Int) := by
    apply Int.emod_eq_of_lt (Int.natCast_nonneg n)
    exact_mod_cast h
  rw [h2]
  exact Int.toNat_natCast n

theorem argumentChecks_defaults (lengthBits : Nat) (hbits : 3 ≤ lengthBits) :
    argumentChecks lengthBits defaults = .continues [] defaultConfig := by
  have hpow : 8 ≤ 2 ^ lengthBits :=
    le_trans (by norm_num) (Nat.pow_le_pow_right (by norm_num : 0 < 2) hbits)
  have h0 : toLength lengthBits (0 : Int) = 0 := toLength_of_lt lengthBits 0 (by omega)
  have h1 : toLength lengthBits (1 : Int) = 1 := toLength_of_lt lengthBits 1 (by omega)
  have h5 : toLength lengthBits (5 : Int) = 5 := toLength_of_lt lengthBits 5 (by omega)
  have e0 : stoi defaults.maxED = some 0 := by decide
  have e1 : stoi defaults.saSparse = some 1 := by decide
  have e5 : stoi defaults.inTextPoint = some 5 := by decide
  unfold argumentChecks
  simp only [e0, e1, e5, h0, h1, h5]
  decide

/-- The last part of `main` when nothing outside of it fails: the reads are read, the index is
loaded with the in-text switch point and the sparseness factor, the strategy is created with the
scheme, the partitioning and the metric, and `doBench` is called with the maximal distance. -/
theorem runBench_of_success (w : World) (argv : List (List Char)) (c : Config)
    (reads : List Read)
    (hreads : getReads w.open_ w.getRevCompl (argv.getD (argv.length - 1) []) = .ok reads)
    (hindex : w.newFMIndex (argv.getD (argv.length - 2) []) c.inTextSwitchPoint c.saSF = none)
    (hscheme : c.searchscheme ∈ schemes)
    (hcustom : c.searchscheme = "custom".toList → w.newCustomSearchStrategy c.customFile = none)
    (hbench : w.doBench reads c.searchscheme c.ed = none) :
    runBench w argv c =
      ⟨[.cout ("Reading in reads from ".toList ++ argv.getD (argv.length - 1) [] ++ ['\n']),
        .getReads (argv.getD (argv.length - 1) []),
        .newFMIndex (argv.getD (argv.length - 2) []) c.inTextSwitchPoint c.saSF,
        .newStrategy c.searchscheme c.customFile c.pStrat c.metric,
        .doBench (argv.getD (argv.length - 1) []) c.ed,
        .cout "Bye...\n".toList], .returned 0⟩ := by
  have hc : (if c.searchscheme = "custom".toList then w.newCustomSearchStrategy c.customFile
      else none) = none := by
    split_ifs with h
    · exact hcustom h
    · rfl
  unfold runBench
  simp only [hreads, hindex, hc, hbench]
  rw [if_neg (not_not.mpr hscheme)]
  rfl

/-- Defaults and frame of the option loop of `main`.  Let the loop run to its end with the
settings `s`.  When no option is given (`argv` is program name, basename, reads file), `main`
goes on with the defaults, and where nothing outside of `main` fails its run is: the reads are
read, the index is loaded with in-text switch point 5 and sparseness factor 1, the strategy is
created for kuch1 with partitioning DYNAMIC and metric EDITOPTIMIZED, and `doBench` is called with
maximal edit distance 0.  In general every setting whose option does not occur at an option
position (`argv[1], …, argv[argc-3]`) is left at its default, the checks hand the settings on
unchanged (the numbers converted) to the same run, and an option that is given alone sets its own
setting to its value. -/
theorem main_defaults_and_frame (w : World) (lengthBits : Nat) (hbits : 3 ≤ lengthBits)
    (argv : List (List Char)) (log : List Event) (s : Settings) (hargc : 3 ≤ argv.length)
    (hopts : processOptions (argv.length - 2 - 1) (argv.drop 1) defaults = .continues log s) :
    (argv.length = 3 →
        s = defaults ∧
          main w lengthBits argv =
            ⟨Event.cout "Welcome to Columba!\n".toList :: (runBench w argv defaultConfig).events,
              (runBench w argv defaultConfig).outcome⟩ ∧
          ∀ reads, getReads w.open_ w.getRevCompl (argv.getD (argv.length - 1) []) = .ok reads →
            w.newFMIndex (argv.getD (argv.length - 2) []) 5 1 = none →
            w.doBench reads "kuch1".toList 0 = none →
            main w lengthBits argv =
              ⟨[.cout "Welcome to Columba!\n".toList,
                .cout ("Reading in reads from ".toList ++ argv.getD (argv.length - 1) [] ++
                  ['\n']),
                .getReads (argv.getD (argv.length - 1) []),
                .newFMIndex (argv.getD (argv.length - 2) []) 5 1,
                .newStrategy "kuch1".toList [] .DYNAMIC .EDITOPTIMIZED,
                .doBench (argv.getD (argv.length - 1) []) 0,
                .cout "Bye...\n".toList], .returned 0⟩) ∧
      defaultConfig.pStrat = .DYNAMIC ∧ defaultConfig.metric = .EDITOPTIMIZED ∧
      defaultConfig.inTextSwitchPoint = 5 ∧ defaultConfig.ed = 0 ∧ defaultConfig.saSF = 1 ∧
      Frame ((argv.drop 1).take (argv.length - 3)) defaults s ∧
      (∀ log' c, argumentChecks lengthBits s = .continues log' c →
        c.pStrat = s.pStrat ∧ c.metric = s.metric ∧ c.searchscheme = s.searchscheme ∧
          c.customFile = s.customFile ∧
          (stoi s.maxED).map (toLength lengthBits) = some c.ed ∧
          (stoi s.saSparse).map (toLength lengthBits) = some c.saSF ∧
          (stoi s.inTextPoint).map (toLength lengthBits) = some c.inTextSwitchPoint ∧
          main w lengthBits argv =
            ⟨Event.cout "Welcome to Columba!\n".toList :: (log' ++ (runBench w argv c).events),
              (runBench w argv c).outcome⟩ ∧
          ∀ reads, getReads w.open_ w.getRevCompl (argv.getD (argv.length - 1) []) = .ok reads →
            w.newFMIndex (argv.getD (argv.length - 2) []) c.inTextSwitchPoint c.saSF = none →
            c.searchscheme ∈ schemes →
            (c.searchscheme = "custom".toList →
              w.newCustomSearchStrategy c.customFile = none) →
            w.doBench reads c.searchscheme c.ed = none →
            main w lengthBits argv =
              ⟨Event.cout "Welcome to Columba!\n".toList :: (log' ++
                [.cout ("Reading in reads from ".toList ++ argv.getD (argv.length - 1) [] ++
                  ['\n']),
                .getReads (argv.getD (argv.length - 1) []),
                .newFMIndex (argv.getD (argv.length - 2) []) c.inTextSwitchPoint c.saSF,
                .newStrategy s.searchscheme s.customFile s.pStrat s.metric,
                .doBench (argv.getD (argv.length - 1) []) c.ed,
                .cout "Bye...\n".toList]), .returned 0⟩) ∧
      (∀ v base reads : List Char,
        processOptions 2 ["-s".toList, v, base, reads] defaults =
            .continues [] { defaults with saSparse := v } ∧
          processOptions 2 ["-e".toList, v, base, reads] defaults =
            .continues [] { defaults with maxED := v } ∧
          processOptions 2 ["-i".toList, v, base, reads] defaults =
            .continues [] { defaults with inTextPoint := v } ∧
          processOptions 3 ["-ss".toList, "custom".toList, v, base, reads] defaults =
            .continues [] { defaults with searchscheme := "custom".toList, customFile := v } ∧
          processOptions 2 ["-ss".toList, "kuch2".toList, base, reads] defaults =
            .continues [] { defaults with searchscheme := "kuch2".toList } ∧
          processOptions 2 ["-p".toList, "uniform".toList, base, reads] defaults =
            .continues [] { defaults with pStrat := .UNIFORM } ∧
          processOptions 2 ["-p".toList, "static".toList, base, reads] defaults =
            .continues [] { defaults with pStrat := .STATIC } ∧
          processOptions 2 ["-m".toList, "hamming".toList, base, reads] defaults =
            .continues [] { defaults with metric := .HAMMING } ∧
          processOptions 2 ["-m".toList, "editnaive".toList, base, reads] defaults =
            .continues [] { defaults with metric := .EDITNAIVE }) := by
  have hmain := main_of_options w lengthBits argv log s (by omega) (by omega) hopts
  refine ⟨?_, rfl, rfl, rfl, rfl, rfl, ?_, ?_, ?_⟩
  · intro h3
    have hs : s = defaults := by
      have h0 : argv.length - 2 - 1 = 0 := by omega
      rw [h0] at hopts
      have hz : processOptions 0 (argv.drop 1) defaults = .continues [] defaults := by
        simp [processOptions]
      rw [hz] at hopts
      cases hopts
      rfl
    subst hs
    rw [argumentChecks_defaults lengthBits hbits] at hmain
    have hmain' : main w lengthBits argv =
        ⟨Event.cout "Welcome to Columba!\n".toList :: (runBench w argv defaultConfig).events,
          (runBench w argv defaultConfig).outcome⟩ := by simpa using hmain
    refine ⟨rfl, hmain', ?_⟩
    intro reads hreads hindex hbench
    rw [hmain', runBench_of_success w argv defaultConfig reads hreads hindex (by decide)
      (fun h => absurd h (by decide)) hbench]
    rfl
  · have h := (processOptions_frame _ _ _ _ (le_refl _) log s hopts).1
    have e : argv.length - 2 - 1 = argv.length - 3 := by omega
    rwa [e] at h
  · intro log' c hc
    rw [hc] at hmain
    have hmain' : main w lengthBits argv =
        ⟨Event.cout "Welcome to Columba!\n".toList :: (log' ++ (runBench w argv c).events),
          (runBench w argv c).outcome⟩ := hmain
    have hrun : ∀ reads,
        getReads w.open_ w.getRevCompl (argv.getD (argv.length - 1) []) = .ok reads →
        w.newFMIndex (argv.getD (argv.length - 2) []) c.inTextSwitchPoint c.saSF = none →
        c.searchscheme ∈ schemes →
        (c.searchscheme = "custom".toList → w.newCustomSearchStrategy c.customFile = none) →
        w.doBench reads c.searchscheme c.ed = none →
        main w lengthBits argv =
          ⟨Event.cout "Welcome to Columba!\n".toList :: (log' ++
            [.cout ("Reading in reads from ".toList ++ argv.getD (argv.length - 1) [] ++
              ['\n']),
            .getReads (argv.getD (argv.length - 1) []),
            .newFMIndex (argv.getD (argv.length - 2) []) c.inTextSwitchPoint c.saSF,
            .newStrategy c.searchscheme c.customFile c.pStrat c.metric,
            .doBench (argv.getD (argv.length - 1) []) c.ed,
            .cout "Bye...\n".toList]), .returned 0⟩ := by
      intro reads hreads hindex hscheme hcustom hbench
      rw [hmain', runBench_of_success w argv c reads hreads hindex hscheme hcustom hbench]
    cases hed : stoi s.maxED with
    | none => simp [argumentChecks, hed] at hc
    | some maxED =>
      by_cases hbound : toLength lengthBits maxED ≤ 6
      · cases hsa : stoi s.saSparse with
        | none =>
          simp [argumentChecks, hed, hsa, show ¬ 6 < toLength lengthBits maxED by omega] at hc
        | some saSparse =>
          cases hin : stoi s.inTextPoint with
          | none =>
            simp [argumentChecks, hed, hsa, hin,
              show ¬ 6 < toLength lengthBits maxED by omega] at hc
          | some inTextPoint =>
            obtain ⟨log'', -, hchk⟩ :=
              argumentChecks_of_numbers lengthBits s maxED saSparse inTextPoint hed hbound hsa hin
            rw [hchk] at hc
            split_ifs at hc
            cases hc
            exact ⟨rfl, rfl, rfl, rfl, rfl, rfl, rfl, hmain', hrun⟩
      · have hgt : toLength lengthBits maxED > 6 := by omega
        simp [argumentChecks, hed, hgt] at hc
  · intro v base reads
    refine ⟨rfl, rfl, rfl, rfl, rfl, rfl, rfl, rfl, rfl⟩

theorem main_defaults_and_frame_witness :
    3 ≤ 32 ∧
      processOptions 4
          ["-e".toList, "2".toList, "-p".toList, "static".toList, "base".toList,
            "reads.fq".toList] defaults =
        .continues [] { defaults with maxED := "2".toList, pStrat := .STATIC } ∧
      Frame ["-e".toList, "2".toList, "-p".toList, "static".toList] defaults
        { defaults with maxED := "2".toList, pStrat := .STATIC } :=
  ⟨by decide, by decide,
    (main_defaults_and_frame exampleWorld 32 (by decide)
      ["columba".toList, "-e".toList, "2".toList, "-p".toList, "static".toList, "base".toList,
        "reads.fq".toList]
      [] { defaults with maxED := "2".toList, pStrat := .STATIC } (by decide)
      (by decide)).2.2.2.2.2.2.1⟩

/-- C17 (the code at `columba --metric hamming base reads.fq`): the option `--metric`, as the
usage text and the spec spell it, does not set the metric: in every world `main` prints that the
argument is unknown and returns 0 before a strategy is created.  The option loop compares with
`-m` and `-metric`, for which the run of the example world creates the strategy with the metric
HAMMING and the other settings at their defaults; without options it creates it with
EDITOPTIMIZED, the index with in-text switch point 5 and sparseness factor 1, and calls `doBench`
with maximal edit distance 0. -/
theorem main_long_metric_option_not_set :
    (∀ w : World,
      main w 32
          ["columba".toList, "--metric".toList, "hamming".toList, "base".toList,
            "reads.fq".toList] =
        ⟨[.cout "Welcome to Columba!\n".toList,
          .cerr "Unknown argument: --metric is not an option\n".toList], .returned 0⟩) ∧
      (∀ w : World, ∀ searchscheme customFile pStrat metric,
        Event.newStrategy searchscheme customFile pStrat metric ∉
          (main w 32
            ["columba".toList, "--metric".toList, "hamming".toList, "base".toList,
              "reads.fq".toList]).events) ∧
      main exampleWorld 32
          ["columba".toList, "-m".toList, "hamming".toList, "base".toList,
            "reads.fq".toList] =
        ⟨[.cout "Welcome to Columba!\n".toList,
          .cout "Reading in reads from reads.fq\n".toList,
          .getReads "reads.fq".toList,
          .newFMIndex "base".toList 5 1,
          .newStrategy "kuch1".toList [] .DYNAMIC .HAMMING,
          .doBench "reads.fq".toList 0,
          .cout "Bye...\n".toList], .returned 0⟩ ∧
      main exampleWorld 32
          ["columba".toList, "-metric".toList, "hamming".toList, "base".toList,
            "reads.fq".toList] =
        main exampleWorld 32
          ["columba".toList, "-m".toList, "hamming".toList, "base".toList,
            "reads.fq".toList] ∧
      main exampleWorld 32 ["columba".toList, "base".toList, "reads.fq".toList] =
        ⟨[.cout "Welcome to Columba!\n".toList,
          .cout "Reading in reads from reads.fq\n".toList,
          .getReads "reads.fq".toList,
          .newFMIndex "base".toList 5 1,
          .newStrategy "kuch1".toList [] .DYNAMIC .EDITOPTIMIZED,
          .doBench "reads.fq".toList 0,
          .cout "Bye...\n".toList], .returned 0⟩ := by
  have h : ∀ w : World,
      main w 32
          ["columba".toList, "--metric".toList, "hamming".toList, "base".toList,
            "reads.fq".toList] =
        ⟨[.cout "Welcome to Columba!\n".toList,
          .cerr "Unknown argument: --metric is not an option\n".toList], .returned 0⟩ :=
    fun _ => rfl
  refine ⟨h, ?_, by decide, by decide, by decide⟩
  intro w searchscheme customFile pStrat metric hmem
  rw [h w] at hmem
  simp at hmem

end DefaultsAndFrame

/-! ## The extension of the reads file -/

theorem rfind_eq_none (c : Char) (s : List Char) (h : c ∉ s) : rfind c s = none := by
  induction s with
  | nil => rfl
  | cons x xs ih =>
    simp only [List.mem_cons, not_or] at h
    have hx : ¬ x = c := fun e => h.1 e.symm
    simp [rfind, ih h.2, hx]

theorem rfind_append (c : Char) (pre ext : List Char) (h : c ∉ ext) :
    rfind c (pre ++ c :: ext) = some pre.length := by
  induction pre with
  | nil => simp [rfind, rfind_eq_none c ext h]
  | cons x pre ih => simp [rfind, ih]

theorem getFileExt_append (pre ext : List Char) (h : '.' ∉ ext) :
    getFileExt (pre ++ '.' :: ext) = ext := by
  unfold getFileExt
  rw [rfind_append '.' pre ext h]
  simp [substr]

theorem getFileExt_no_dot (s : List Char) (h : '.' ∉ s) : getFileExt s = [] := by
  unfold getFileExt
  rw [rfind_eq_none '.' s h]

theorem getReads_csv_ne_throws (lines : List (List Char)) :
    ∀ what : List Char, getReads.csv lines ≠ .throws what := by
  induction lines with
  | nil => intro what; simp [getReads.csv]
  | cons line lines ih =>
    intro what
    unfold getReads.csv
    split
    · split
      · simp
      · rename_i what' h; exact absurd h (ih what')
      · simp
    · simp

/-- C19: `getReads` on a file that can be opened throws a `runtime_error` if and only if
`getFileExt(file)` is none of `FASTA`, `fasta`, `fa`, `fq`, `fastq`, `csv`, and the error then
is "extension … is not a valid extension for the readsfile"; for `FASTA`, `fasta`, `fa` the file
is parsed as FASTA, for `fq`, `fastq` as FASTQ and for `csv` as CSV (after its header line).
`getFileExt(file)` is the text after the last `.` of the file name, empty without a `.`. -/
theorem getReads_extension (open_ : List Char → Option (List (List Char)))
    (getRevCompl : List Char → List Char) (file : List Char) (lines : List (List Char))
    (hopen : open_ file = some lines) :
    ((∃ what, getReads open_ getRevCompl file = .throws what) ↔
        getFileExt file ∉ ["FASTA".toList, "fasta".toList, "fa".toList, "fq".toList,
          "fastq".toList, "csv".toList]) ∧
      (getFileExt file ∉ ["FASTA".toList, "fasta".toList, "fa".toList, "fq".toList,
          "fastq".toList, "csv".toList] →
        getReads open_ getRevCompl file = .throws ("extension ".toList ++ getFileExt file ++
          " is not a valid extension for the readsfile".toList)) ∧
      (getFileExt file ∈ ["FASTA".toList, "fasta".toList, "fa".toList] →
        getReads open_ getRevCompl file = .ok (getReads.fasta getRevCompl lines)) ∧
      (getFileExt file ∈ ["fq".toList, "fastq".toList] →
        getReads open_ getRevCompl file = .ok (getReads.fastq getRevCompl lines)) ∧
      (getFileExt file = "csv".toList →
        getReads open_ getRevCompl file = getReads.csv (lines.drop 1)) ∧
      (∀ pre ext, file = pre ++ '.' :: ext → '.' ∉ ext → getFileExt file = ext) ∧
      ('.' ∉ file → getFileExt file = []) := by
  have hfasta : getFileExt file ∈ ["FASTA".toList, "fasta".toList, "fa".toList] →
      getReads open_ getRevCompl file = .ok (getReads.fasta getRevCompl lines) := by
    intro h
    simp only [List.mem_cons, List.mem_singleton, List.not_mem_nil, or_false] at h
    unfold getReads
    simp only [hopen]
    rcases h with h | h | h <;> rw [h] <;> rw [if_neg (by decide), if_pos (by decide)]
  have hfastq : getFileExt file ∈ ["fq".toList, "fastq".toList] →
      getReads open_ getRevCompl file = .ok (getReads.fastq getRevCompl lines) := by
    intro h
    simp only [List.mem_cons, List.mem_singleton, List.not_mem_nil, or_false] at h
    unfold getReads
    simp only [hopen]
    rcases h with h | h <;> rw [h] <;> rw [if_neg (by decide), if_neg (by decide)]
  have hcsv : getFileExt file = "csv".toList →
      getReads open_ getRevCompl file = getReads.csv (lines.drop 1) := by
    intro h
    unfold getReads
    simp only [hopen]
    rw [h, if_pos (by decide), if_neg (by decide)]
  have hbad : getFileExt file ∉ ["FASTA".toList, "fasta".toList, "fa".toList, "fq".toList,
      "fastq".toList, "csv".toList] →
      getReads open_ getRevCompl file = .throws ("extension ".toList ++ getFileExt file ++
        " is not a valid extension for the readsfile".toList) := by
    intro h
    simp only [List.mem_cons, List.mem_singleton, List.not_mem_nil, or_false, not_or] at h
    obtain ⟨h1, h2, h3, h4, h5, h6⟩ := h
    unfold getReads
    simp only [hopen]
    rw [if_pos ⟨fun h => h.elim h1 (fun h => h.elim h2 h3), fun h => h.elim h4 h5⟩, if_pos h6]
  refine ⟨⟨?_, fun h => ⟨_, hbad h⟩⟩, hbad, hfasta, hfastq, hcsv, ?_, ?_⟩
  · rintro ⟨what, hwhat⟩ hmem
    simp only [List.mem_cons, List.mem_singleton, List.not_mem_nil, or_false] at hmem
    rcases hmem with h | h | h | h | h | h
    · rw [hfasta (by simp [h])] at hwhat; simp at hwhat
    · rw [hfasta (by simp [h])] at hwhat; simp at hwhat
    · rw [hfasta (by simp [h])] at hwhat; simp at hwhat
    · rw [hfastq (by simp [h])] at hwhat; simp at hwhat
    · rw [hfastq (by simp [h])] at hwhat; simp at hwhat
    · rw [hcsv h] at hwhat; exact getReads_csv_ne_throws _ _ hwhat
  · intro pre ext hfile hdot
    rw [hfile]
    exact getFileExt_append pre ext hdot
  · exact getFileExt_no_dot file

theorem getReads_extension_witness :
    (fun _ : List Char => some ["@r1".toList, "ACGT".toList, "+".toList, "IIII".toList])
        "reads.txt".toList = some ["@r1".toList, "ACGT".toList, "+".toList, "IIII".toList] ∧
      getFileExt "reads.txt".toList = "txt".toList ∧
      getReads (fun _ => some ["@r1".toList, "ACGT".toList, "+".toList, "IIII".toList])
          List.reverse "reads.txt".toList =
        .throws "extension txt is not a valid extension for the readsfile".toList ∧
      getReads (fun _ => some ["@r1".toList, "ACGT".toList, "+".toList, "IIII".toList])
          List.reverse "reads.fq".toList =
        .ok (getReads.fastq List.reverse
          ["@r1".toList, "ACGT".toList, "+".toList, "IIII".toList]) :=
  ⟨rfl, by decide,
    (getReads_extension (fun _ => some ["@r1".toList, "ACGT".toList, "+".toList, "IIII".toList])
      List.reverse "reads.txt".toList _ rfl).2.1 (by decide),
    (getReads_extension (fun _ => some ["@r1".toList, "ACGT".toList, "+".toList, "IIII".toList])
      List.reverse "reads.fq".toList _ rfl).2.2.2.1 (by decide)⟩

/-! ## The observation behind the 01*0 strategy -/

theorem hasSeed_cons (a : Nat) (t : Pattern) (h : O1StarSearchStrategy.HasSeed t) :
    O1StarSearchStrategy.HasSeed (a :: t) := by
  obtain ⟨i, j, hij, hj, hi0, hj0, hmid⟩ := h
  refine ⟨i + 1, j + 1, by omega, by simp; omega, by simpa using hi0, by simpa using hj0, ?_⟩
  intro l hl1 hl2
  obtain ⟨l', rfl⟩ : ∃ l', l = l' + 1 := ⟨l - 1, by omega⟩
  simpa using hmid l' (by omega) (by omega)

theorem hasSeed_zero_cons (t : Pattern) (h : O1StarSearchStrategy.HasOpenSeed t) :
    O1StarSearchStrategy.HasSeed (0 :: t) := by
  obtain ⟨j, hj, hj0, hmid⟩ := h
  refine ⟨0, j + 1, by omega, by simp; omega, by simp, by simpa using hj0, ?_⟩
  intro l hl1 hl2
  obtain ⟨l', rfl⟩ : ∃ l', l = l' + 1 := ⟨l - 1, by omega⟩
  simpa using hmid l' (by omega)

theorem hasOpenSeed_one_cons (t : Pattern) (h : O1StarSearchStrategy.HasOpenSeed t) :
    O1StarSearchStrategy.HasOpenSeed (1 :: t) := by
  obtain ⟨j, hj, hj0, hmid⟩ := h
  refine ⟨j + 1, by simp; omega, by simpa using hj0, ?_⟩
  intro l hl
  rcases l with _ | l'
  · simp
  · simpa using hmid l' (by omega)

theorem hasSeed_of_few_errors (e : Pattern) :
    (e.sum + 2 ≤ e.length → O1StarSearchStrategy.HasSeed e) ∧
      (e.sum + 1 ≤ e.length →
        O1StarSearchStrategy.HasOpenSeed e ∨ O1StarSearchStrategy.HasSeed e) := by
  induction e with
  | nil => simp
  | cons a t ih =>
    obtain ⟨ih2, ih1⟩ := ih
    simp only [List.sum_cons, List.length_cons]
    constructor
    · intro h
      rcases Nat.eq_zero_or_pos a with ha | ha
      · subst ha
        rcases ih1 (by omega) with hq | hp
        · exact hasSeed_zero_cons t hq
        · exact hasSeed_cons 0 t hp
      · exact hasSeed_cons a t (ih2 (by omega))
    · intro h
      rcases Nat.lt_trichotomy a 1 with ha | ha | ha
      · have ha0 : a = 0 := by omega
        subst ha0
        exact Or.inl ⟨0, by simp, by simp, by intro l hl; omega⟩
      · subst ha
        rcases ih1 (by omega) with hq | hp
        · exact Or.inl (hasOpenSeed_one_cons t hq)
        · exact Or.inr (hasSeed_cons 1 t hp)
      · exact Or.inr (hasSeed_cons a t (ih2 (by omega)))

/-- C20: the 01*0 observation holds for every number of errors `x ≥ 0`: every vector `e` of
`x + 2` non-negative integers (the number of parts of the 01*0 strategy for `x` errors) with sum
at most `x` has indices `i < j` with `e[i] = 0`, `e[j] = 0` and `e[l] = 1` for every `l` between
them; the seed has `n = j - i + 1` parts with `2 ≤ n ≤ x + 2`. -/
theorem O1Star_seed_exists (x : Nat) (e : Pattern)
    (hlen : e.length = O1StarSearchStrategy.calculateNumParts x) (hsum : e.sum ≤ x) :
    ∃ i j, i < j ∧ j < e.length ∧ e[i]? = some 0 ∧ e[j]? = some 0 ∧
      (∀ l, i < l → l < j → e[l]? = some 1) ∧ 2 ≤ j - i + 1 ∧ j - i + 1 ≤ x + 2 := by
  have hlen' : e.length = x + 2 := hlen
  obtain ⟨i, j, hij, hj, hi0, hj0, hmid⟩ := (hasSeed_of_few_errors e).1 (by omega)
  exact ⟨i, j, hij, hj, hi0, hj0, hmid, by omega, by omega⟩

theorem O1Star_seed_exists_witness :
    ([1, 0, 1, 0, 0] : Pattern).length = O1StarSearchStrategy.calculateNumParts 3 ∧
      ([1, 0, 1, 0, 0] : Pattern).sum ≤ 3 ∧
      ∃ i j, i < j ∧ j < ([1, 0, 1, 0, 0] : Pattern).length ∧
        ([1, 0, 1, 0, 0] : Pattern)[i]? = some 0 ∧ ([1, 0, 1, 0, 0] : Pattern)[j]? = some 0 ∧
        (∀ l, i < l → l < j → ([1, 0, 1, 0, 0] : Pattern)[l]? = some 1) ∧
        2 ≤ j - i + 1 ∧ j - i + 1 ≤ 3 + 2 :=
  ⟨by decide, by decide, O1Star_seed_exists 3 [1, 0, 1, 0, 0] (by decide) (by decide)⟩

/-! ## The searches of the pigeonhole strategy -/

/-- C21: for every `k` in `{1, 2, 3, 4}` the list `PigeonHoleSearchStrategy::createSearches(k)`
has exactly `k + 1` searches, their first parts `π[0]` are pairwise distinct and are exactly the
parts `0, …, k`, and every search has `L = (0, …, 0)` and `U = (0, k, …, k)`: the starting
section is matched exactly and the rest with the full distance `k`. -/
theorem pigeonhole_iterates_sections (k : Nat) (h1 : 1 ≤ k) (h4 : k ≤ 4) :
    ∃ searches, PigeonHoleSearchStrategy.createSearches k = some searches ∧
      searches.length = k + 1 ∧
      (searches.map (fun s => s.getPart 0)).Nodup ∧
      (searches.map (fun s => s.getPart 0)).Perm (List.range (k + 1)) ∧
      ∀ s ∈ searches, s.pi.length = k + 1 ∧ s.L = List.replicate (k + 1) 0 ∧
        s.U = 0 :: List.replicate k k := by
  interval_cases k
  · exact ⟨PigeonHoleSearchStrategy.ED1, rfl, by decide⟩
  · exact ⟨PigeonHoleSearchStrategy.ED2, rfl, by decide⟩
  · exact ⟨PigeonHoleSearchStrategy.ED3, rfl, by decide⟩
  · exact ⟨PigeonHoleSearchStrategy.ED4, rfl, by decide⟩

theorem pigeonhole_iterates_sections_witness :
    1 ≤ 3 ∧ 3 ≤ 4 ∧
      ∃ searches, PigeonHoleSearchStrategy.createSearches 3 = some searches ∧
        searches.length = 3 + 1 ∧
        (searches.map (fun s => s.getPart 0)).Nodup ∧
        (searches.map (fun s => s.getPart 0)).Perm (List.range (3 + 1)) ∧
        ∀ s ∈ searches, s.pi.length = 3 + 1 ∧ s.L = List.replicate (3 + 1) 0 ∧
          s.U = 0 :: List.replicate 3 3 :=
  ⟨by decide, by decide, pigeonhole_iterates_sections 3 (by decide) (by decide)⟩

/-! ## The uniform positions of the base class -/

/-- C22: the default `SearchStrategy::getBegins(numParts, maxScore)` gives uniform positions: for
every `numParts ≥ 1` it returns exactly `numParts - 1` values, the `i`-th (1-based) being
`i * (1 / numParts)` as an exact rational, so that the values are strictly increasing and lie
strictly between 0 and 1; the result does not depend on `maxScore`, and
`CustomSearchStrategy::getBeginsDefault` returns the same values. -/
theorem getBegins_uniform (numParts maxScore : Int) (h : 1 ≤ numParts) :
    ((SearchStrategy.getBegins numParts maxScore).length : Int) = numParts - 1 ∧
      (∀ i : Nat, 1 ≤ i → (i : Int) < numParts →
        (SearchStrategy.getBegins numParts maxScore)[i - 1]? =
          some ((i : ℚ) * (1 / (numParts : ℚ)))) ∧
      (SearchStrategy.getBegins numParts maxScore).Pairwise (fun x y => x < y) ∧
      (∀ b ∈ SearchStrategy.getBegins numParts maxScore, 0 < b ∧ b < 1) ∧
      (∀ maxScore' : Int,
        SearchStrategy.getBegins numParts maxScore' =
          SearchStrategy.getBegins numParts maxScore) ∧
      CustomSearchStrategy.getBeginsDefault numParts maxScore =
        SearchStrategy.getBegins numParts maxScore := by
  obtain ⟨n, rfl⟩ := Int.eq_ofNat_of_zero_le (by omega : 0 ≤ numParts)
  have hn : 1 ≤ n := by exact_mod_cast h
  have hu : (0 : ℚ) < 1 / ((n : Int) : ℚ) := by
    apply one_div_pos.mpr
    exact_mod_cast hn
  have hcount : ((n : Int) - 1).toNat = n - 1 := by omega
  refine ⟨?_, ?_, ?_, ?_, fun _ => rfl, rfl⟩
  · simp only [SearchStrategy.getBegins, List.length_map, List.length_range', hcount]
    omega
  · intro i hi1 hin
    have hin' : i < n := by exact_mod_cast hin
    simp only [SearchStrategy.getBegins, hcount, List.getElem?_map]
    rw [List.getElem?_range' 1 1 (show i - 1 < n - 1 by omega)]
    simp only [Option.map_some']
    congr 2
    have : 1 + 1 * (i - 1) = i := by omega
    rw [this]
  · simp only [SearchStrategy.getBegins, hcount]
    rw [List.pairwise_map]
    refine List.Pairwise.imp ?_ (List.pairwise_lt_range' 1 (n - 1))
    intro a b hab
    have : (a : ℚ) < (b : ℚ) := by exact_mod_cast hab
    exact mul_lt_mul_of_pos_right this hu
  · intro b hb
    simp only [SearchStrategy.getBegins, hcount, List.mem_map, List.mem_range'_1] at hb
    obtain ⟨i, ⟨hi1, hi2⟩, rfl⟩ := hb
    have hi0 : (0 : ℚ) < (i : ℚ) := by exact_mod_cast hi1
    have hin : (i : ℚ) < (n : ℚ) := by
      have : i < n := by omega
      exact_mod_cast this
    have hn0 : (0 : ℚ) < (n : ℚ) := by exact_mod_cast hn
    refine ⟨mul_pos hi0 hu, ?_⟩
    simp only [Int.cast_natCast]
    rw [mul_one_div, div_lt_one hn0]
    exact hin

theorem getBegins_uniform_witness :
    (1 : Int) ≤ 4 ∧ SearchStrategy.getBegins 4 2 = [1 / 4, 2 * (1 / 4), 3 * (1 / 4)] ∧
      (SearchStrategy.getBegins 4 2).Pairwise (fun x y => x < y) ∧
      ∀ b ∈ SearchStrategy.getBegins 4 2, 0 < b ∧ b < 1 :=
  ⟨by decide, by simp [SearchStrategy.getBegins, List.range'],
    (getBegins_uniform 4 2 (by decide)).2.2.1, (getBegins_uniform 4 2 (by decide)).2.2.2.1⟩

/-! ## `findMedian` and the contract of `nth_element` -/

/-- The rearrangement `nthElementDescending` meets the contract of `std::nth_element`. -/
theorem nthElementDescending_spec : NthElementSpec nthElementDescending := by
  intro a nth hnth
  have hs : (a.insertionSort (fun x y => x ≤ y)).Sorted (fun x y => x ≤ y) :=
    List.sorted_insertionSort _ a
  have hp : (a.insertionSort (fun x y => x ≤ y)).Perm a := List.perm_insertionSort _ a
  have hlen : (a.insertionSort (fun x y => x ≤ y)).length = a.length := hp.length_eq
  unfold nthElementDescending
  generalize a.insertionSort (fun x y => x ≤ y) = s at hs hp hlen ⊢
  have htake : (s.take (nth + 1)).length = nth + 1 := by
    rw [List.length_take]; omega
  refine ⟨?_, ?_, ?_⟩
  · refine List.Perm.trans ?_ hp
    have h1 : (s.take (nth + 1) ++ (s.drop (nth + 1)).reverse).Perm
        (s.take (nth + 1) ++ s.drop (nth + 1)) :=
      List.Perm.append_left _ (List.reverse_perm _)
    rwa [List.take_append_drop] at h1
  · rw [List.getElem?_append_left (by omega), List.getElem?_take_of_lt (by omega)]
  · intro x hx y hy
    have hx' : x ∈ s.take nth := by
      rw [List.take_append_of_le_length (by omega), List.take_take] at hx
      rwa [Nat.min_eq_left (by omega)] at hx
    have hy' : y ∈ s.drop nth := by
      rw [List.drop_append_of_le_length (by omega), List.mem_append, List.mem_reverse] at hy
      rcases hy with hy | hy
      · rw [List.drop_take] at hy
        exact List.mem_of_mem_take hy
      · have : s.drop (nth + 1) = (s.drop nth).drop 1 := by
          rw [List.drop_drop]
        rw [this] at hy
        exact List.mem_of_mem_drop hy
    have hsplit : (s.take nth ++ s.drop nth).Sorted (fun x y => x ≤ y) := by
      rwa [List.take_append_drop]
    exact (List.pairwise_append.mp hsplit).2.2 x hx' y hy'

/-- For a vector of odd size `findMedian` returns the median, whatever `nth_element` does
within its contract. -/
theorem findMedian_odd (lengthBits : Nat) (nth_element : List Nat → Nat → List Nat)
    (hspec : NthElementSpec nth_element) (a : List Nat) (hodd : a.length % 2 = 1) :
    findMedian lengthBits nth_element a a.length = median a ∧ (median a).isSome := by
  have hlt : a.length / 2 < a.length := by omega
  have h1 : Int.tmod (a.length : Int) 2 = 1 := by
    rw [Int.tmod_eq_emod (by omega) (by omega)]; omega
  have h2 : Int.tdiv (a.length : Int) 2 = ((a.length / 2 : Nat) : Int) := by
    rw [Int.tdiv_eq_ediv (by omega) (by omega)]; omega
  obtain ⟨hperm, hnth, -⟩ := hspec a (a.length / 2) hlt
  have hmed : median a =
      ((a.insertionSort (fun x y => x ≤ y))[a.length / 2]?).map (fun x => (x : ℚ)) := by
    unfold median
    simp only [hodd, if_true]
  constructor
  · unfold findMedian
    rw [h1, if_neg (by decide)]
    simp only [h2, Int.toNat_ofNat]
    rw [if_pos ⟨by omega, by exact_mod_cast hlt⟩, hnth, hmed]
  · rw [hmed]
    have hl : a.length / 2 < (a.insertionSort (fun x y => x ≤ y)).length := by
      rw [(List.perm_insertionSort _ a).length_eq]; exact hlt
    rw [List.getElem?_eq_getElem hl]
    rfl

/-- C23 (the code for a vector of even size): after the second call of `nth_element` the element
at position `n / 2` need not be the one a sort would put there.  With `nthElementDescending`,
which meets the contract of `std::nth_element`, `findMedian({1, 2, 3, 4}, 4)` is `(2 + 4) / 2 = 3`
while the median is `5 / 2`, and `findMedian({4, 0, 0, 0, 2, 0, 0, 2, 0, 2}, 10)` is 2 while the
median is 0. -/
theorem findMedian_even_not_median :
    NthElementSpec nthElementDescending ∧
      nthElementDescending (nthElementDescending [1, 2, 3, 4] 2) 1 = [1, 2, 4, 3] ∧
      findMedian 32 nthElementDescending [1, 2, 3, 4] 4 = some 3 ∧
      median [1, 2, 3, 4] = some (5 / 2) ∧
      findMedian 32 nthElementDescending [4, 0, 0, 0, 2, 0, 0, 2, 0, 2] 10 = some 2 ∧
      median [4, 0, 0, 0, 2, 0, 0, 2, 0, 2] = some 0 := by
  refine ⟨nthElementDescending_spec, by decide, ?_, ?_, ?_, ?_⟩
  · have h : nthElementDescending (nthElementDescending [1, 2, 3, 4] 2) 1 = [1, 2, 4, 3] := by
      decide
    have e1 : Int.tmod 4 2 = 0 := rfl
    have e2 : Int.tdiv 4 2 = 2 := rfl
    have e3 : Int.tdiv (4 - 1) 2 = 1 := rfl
    simp only [findMedian, e1, e2, e3]
    simp [h]
    norm_num
  · simp [median]
  · have h : nthElementDescending (nthElementDescending [4, 0, 0, 0, 2, 0, 0, 2, 0, 2] 5) 4 =
        [0, 0, 0, 0, 0, 4, 2, 2, 2, 0] := by decide
    have e1 : Int.tmod 10 2 = 0 := rfl
    have e2 : Int.tdiv 10 2 = 5 := rfl
    have e3 : Int.tdiv (10 - 1) 2 = 4 := rfl
    simp only [findMedian, e1, e2, e3]
    simp [h]
    norm_num
  · simp [median]

/-! ## The check of the dimensions in `editDistDP` -/

theorem fillRow_params (horizontal vertical : List Char) (n : Nat) (mat : BandMatrix) (i : Nat) :
    (editDistDP.fillRow horizontal vertical n mat i).W = mat.W ∧
      (editDistDP.fillRow horizontal vertical n mat i).n = mat.n := by
  unfold editDistDP.fillRow
  generalize List.range' (mat.getFirstColumn i)
    (min (mat.getLastColumn i) n + 1 - mat.getFirstColumn i) = js
  induction js generalizing mat with
  | nil => exact ⟨rfl, rfl⟩
  | cons j js ih =>
    simp only [List.foldl_cons]
    have := ih (mat.updateMatrix (vertical[i - 1]? != horizontal[j - 1]?) i j)
    exact this

/-- The two loops of `editDistDP` are the calls of `updateMatrix` for the listed cells. -/
theorem fillRows_eq_foldl_cells (horizontal vertical : List Char) (n : Nat) (rows : List Nat)
    (mat : BandMatrix) :
    rows.foldl (editDistDP.fillRow horizontal vertical n) mat =
      (rows.flatMap (fun i =>
        (List.range' (max 1 (i - mat.W))
          (min (min mat.n (i + mat.W)) n + 1 - max 1 (i - mat.W))).map (fun j => (i, j)))).foldl
        (fun mat c => mat.updateMatrix (vertical[c.1 - 1]? != horizontal[c.2 - 1]?) c.1 c.2)
        mat := by
  induction rows generalizing mat with
  | nil => rfl
  | cons i rows ih =>
    simp only [List.foldl_cons, List.flatMap_cons, List.foldl_append]
    have hp := fillRow_params horizontal vertical n mat i
    rw [ih, hp.1, hp.2]
    congr 1
    unfold editDistDP.fillRow BandMatrix.getFirstColumn BandMatrix.getLastColumn
    rw [List.foldl_map]

/-- The cells listed by `editDistDP.updatedCells` are the calls of `updateMatrix` that
`editDistDP` makes: where it returns a value of the matrix, the value is read from the matrix
that these calls leave. -/
theorem editDistDP_eq_foldl_updatedCells (cols fill : Nat) (P O : List Char) (maxED : Int) :
    editDistDP cols fill P O maxED = none ∨ editDistDP cols fill P O maxED = some INT_MAX ∨
      editDistDP cols fill P O maxED =
        some ((((editDistDP.updatedCells cols P O maxED).foldl
          (fun mat c =>
            mat.updateMatrix
              ((if toInt P.length > toInt O.length then P else O)[c.1 - 1]? !=
                (if toInt P.length > toInt O.length then O else P)[c.2 - 1]?) c.1 c.2)
          (BandMatrix.create cols fill
            ((if toInt P.length > toInt O.length then toInt P.length else toInt O.length) + 1 +
              maxED).toNat
            maxED.toNat)).get
          (if toInt P.length > toInt O.length then toInt P.length else toInt O.length).toNat
          (if toInt P.length > toInt O.length then toInt O.length
            else toInt P.length).toNat : Nat) : Int) := by
  unfold editDistDP editDistDP.updatedCells
  simp only []
  split_ifs <;>
    first
    | exact Or.inl (by with_reducible rfl)
    | exact Or.inr (Or.inl (by with_reducible rfl))
    | (right; right; rw [fillRows_eq_foldl_cells]; rfl)

/-- C24 as stated fails where a length leaves the type `int`: for a string `P` of `2^32`
characters and the empty string `O`, with `maxED = 0`, the lengths differ by more than `maxED`,
but both are converted to 0, the check of the dimensions does not return, and the result is the
cell `(0, 0)` of the matrix, which is 0 and not `numeric_limits<int>::max()`. -/
theorem editDistDP_dimension_check_wraps :
    (0 : Int) < |(((List.replicate 4294967296 'A').length : Nat) : Int) -
        ((([] : List Char).length : Nat) : Int)| ∧
      editDistDP 0 1 (List.replicate 4294967296 'A') [] 0 = some 0 ∧
      editDistDP 0 1 (List.replicate 4294967296 'A') [] 0 ≠ some INT_MAX := by
  have hlen : (List.replicate 4294967296 'A').length = 4294967296 := List.length_replicate _ _
  have hP : toInt (List.replicate 4294967296 'A').length = 0 := by rw [hlen]; decide
  have hO : toInt ([] : List Char).length = 0 := by decide
  have h := editDistDP_of_toInt_zero 0 1 (List.replicate 4294967296 'A') [] 0 hP hO (by decide)
    (by decide)
  refine ⟨?_, h, ?_⟩
  · rw [hlen]
    decide
  · rw [h]
    decide

/-- C24, amended: `editDistDP` checks the dimensions first: for strings `P`, `O` whose lengths
are values of `int`, when the lengths differ by more than `maxED`, the result is
`numeric_limits<int>::max()`, whatever the matrix would be, and no cell is filled; and for such
strings of different lengths the result is the same for `(P, O)` and `(O, P)`, and so are the
cells filled, because the shorter string is made the horizontal one. -/
theorem editDistDP_checks_dimensions (cols fill : Nat) (P O : List Char) (maxED : Int)
    (hP : P.length ≤ 2147483647) (hO : O.length ≤ 2147483647) :
    ((maxED < |(P.length : Int) - (O.length : Int)|) →
        editDistDP cols fill P O maxED = some INT_MAX ∧
          editDistDP.updatedCells cols P O maxED = []) ∧
      (P.length ≠ O.length →
        editDistDP cols fill P O maxED = editDistDP cols fill O P maxED ∧
          editDistDP.updatedCells cols P O maxED = editDistDP.updatedCells cols O P maxED) := by
  have eP := toInt_of_le _ hP
  have eO := toInt_of_le _ hO
  refine ⟨fun h => ?_, fun hne => ?_⟩
  · by_cases hgt : (P.length : Int) > (O.length : Int)
    · rw [abs_of_nonneg (by omega)] at h
      constructor
      · unfold editDistDP
        simp only [eP, eO, hgt, if_true]
        rw [max_eq_left (by omega), min_eq_right (by omega), if_neg (by unfold INT_MAX; omega),
          if_pos (by omega)]
      · unfold editDistDP.updatedCells
        simp only [eP, eO, hgt, if_true]
        rw [max_eq_left (by omega), min_eq_right (by omega), if_neg (by unfold INT_MAX; omega),
          if_pos (by omega)]
    · rw [abs_of_nonpos (by omega)] at h
      constructor
      · unfold editDistDP
        simp only [eP, eO, hgt, if_false]
        rw [max_eq_left (by omega), min_eq_right (by omega), if_neg (by unfold INT_MAX; omega),
          if_pos (by omega)]
      · unfold editDistDP.updatedCells
        simp only [eP, eO, hgt, if_false]
        rw [max_eq_left (by omega), min_eq_right (by omega), if_neg (by unfold INT_MAX; omega),
          if_pos (by omega)]
  · rcases Nat.lt_or_gt_of_ne hne with hlt | hgt
    · have h1 : ¬ (P.length : Int) > (O.length : Int) := by omega
      have h2 : (O.length : Int) > (P.length : Int) := by omega
      constructor
      · unfold editDistDP
        simp only [eP, eO, h1, h2, if_true, if_false]
      · unfold editDistDP.updatedCells
        simp only [eP, eO, h1, h2, if_true, if_false]
    · have h1 : (P.length : Int) > (O.length : Int) := by omega
      have h2 : ¬ (O.length : Int) > (P.length : Int) := by omega
      constructor
      · unfold editDistDP
        simp only [eP, eO, h1, h2, if_true, if_false]
      · unfold editDistDP.updatedCells
        simp only [eP, eO, h1, h2, if_true, if_false]

theorem editDistDP_checks_dimensions_witness :
    (['A', 'C', 'G', 'T', 'A'] : List Char).length ≤ 2147483647 ∧
      (['A', 'C'] : List Char).length ≤ 2147483647 ∧
      ((1 : Int) < |((['A', 'C', 'G', 'T', 'A'] : List Char).length : Int) -
        ((['A', 'C'] : List Char).length : Int)|) ∧
      (['A', 'C', 'G', 'T', 'A'] : List Char).length ≠ (['A', 'C'] : List Char).length ∧
      editDistDP 6 2 ['A', 'C', 'G', 'T', 'A'] ['A', 'C'] 1 = some INT_MAX ∧
      editDistDP.updatedCells 6 ['A', 'C', 'G', 'T', 'A'] ['A', 'C'] 1 = [] ∧
      editDistDP 6 2 ['A', 'C', 'G', 'T', 'A'] ['A', 'C'] 1 =
        editDistDP 6 2 ['A', 'C'] ['A', 'C', 'G', 'T', 'A'] 1 :=
  ⟨by decide, by decide, by decide, by decide,
    ((editDistDP_checks_dimensions 6 2 ['A', 'C', 'G', 'T', 'A'] ['A', 'C'] 1 (by decide)
      (by decide)).1 (by decide)).1,
    ((editDistDP_checks_dimensions 6 2 ['A', 'C', 'G', 'T', 'A'] ['A', 'C'] 1 (by decide)
      (by decide)).1 (by decide)).2,
    ((editDistDP_checks_dimensions 6 2 ['A', 'C', 'G', 'T', 'A'] ['A', 'C'] 1 (by decide)
      (by decide)).2 (by decide)).1⟩

/-! ## Array lengths and partitioning tables of the hard-coded strategies -/

/-- C25: for every hard-coded strategy and every supported `k` (1..4; only 4 for ManBest) the
list `createSearches(k)` exists and every search in it has its three arrays `π`, `L` and `U` of
the same length `calculateNumParts(k)`, which is `k + 1` for KucherovKplus1, OptimalKianfar and
PigeonHole and `k + 2` for KucherovKplus2, 01*0 and ManBest. -/
theorem hardcoded_search_array_lengths (st : HardcodedScheme) (k : Nat) (h1 : 1 ≤ k)
    (h4 : k ≤ 4) (hman : st = .manbest → k = 4) :
    ∃ scheme, st.createSearches k = some scheme ∧
      (∀ s ∈ scheme, s.pi.length = st.calculateNumParts k ∧
        s.L.length = st.calculateNumParts k ∧ s.U.length = st.calculateNumParts k) ∧
      st.calculateNumParts k =
        (if st = .kuch1 ∨ st = .kianfar ∨ st = .pigeon then k + 1 else k + 2) := by
  interval_cases k <;> cases st <;>
    first
    | exact absurd (hman rfl) (by decide)
    | exact ⟨_, rfl, by decide, by decide⟩

theorem hardcoded_search_array_lengths_witness :
    1 ≤ 2 ∧ 2 ≤ 4 ∧
      ∃ scheme, HardcodedScheme.kuch2.createSearches 2 = some scheme ∧
        (∀ s ∈ scheme, s.pi.length = HardcodedScheme.kuch2.calculateNumParts 2 ∧
          s.L.length = HardcodedScheme.kuch2.calculateNumParts 2 ∧
          s.U.length = HardcodedScheme.kuch2.calculateNumParts 2) ∧
        HardcodedScheme.kuch2.calculateNumParts 2 =
          (if HardcodedScheme.kuch2 = .kuch1 ∨ HardcodedScheme.kuch2 = .kianfar ∨
            HardcodedScheme.kuch2 = .pigeon then 2 + 1 else 2 + 2) :=
  ⟨by decide, by decide,
    hardcoded_search_array_lengths .kuch2 2 (by decide) (by decide) (by decide)⟩

/-- C26: for KucherovKplus1, KucherovKplus2, OptimalKianfar, 01*0 (`k` in 1..4) and ManBest
(`k = 4`), with `p = calculateNumParts(k)`, `getBegins(p, k)` has exactly `p - 1` entries,
`getSeedingPositions(p, k)` has exactly `p - 2` entries, both are strictly increasing with every
entry strictly between 0 and 1, and `getWeights(p, k)` has exactly `p` entries, all positive. -/
theorem partitioning_tables_fit (st : PartitionedScheme) (k : Nat) (h1 : 1 ≤ k) (h4 : k ≤ 4)
    (hman : st = .manbest → k = 4) :
    ∃ begins seeds weights,
      st.getBegins (st.toHardcodedScheme.calculateNumParts k) k = some begins ∧
      st.getSeedingPositions (st.toHardcodedScheme.calculateNumParts k) k = some seeds ∧
      st.getWeights (st.toHardcodedScheme.calculateNumParts k) k = some weights ∧
      begins.length = st.toHardcodedScheme.calculateNumParts k - 1 ∧
      seeds.length = st.toHardcodedScheme.calculateNumParts k - 2 ∧
      weights.length = st.toHardcodedScheme.calculateNumParts k ∧
      begins.Pairwise (fun x y => x < y) ∧ seeds.Pairwise (fun x y => x < y) ∧
      (∀ b ∈ begins, 0 < b ∧ b < 1) ∧ (∀ s ∈ seeds, 0 < s ∧ s < 1) ∧
      ∀ w ∈ weights, 0 < w := by
  interval_cases k <;> cases st <;>
    first
    | exact absurd (hman rfl) (by decide)
    | (refine ⟨_, _, _, rfl, rfl, rfl, rfl, rfl, rfl, ?_, ?_, ?_, ?_, ?_⟩ <;>
      norm_num [show Int.toNat 0 = 0 from rfl, show Int.toNat 1 = 1 from rfl,
        show Int.toNat 2 = 2 from rfl, show Int.toNat 3 = 3 from rfl,
        KucherovKplus1.staticPositions,
        KucherovKplus1.seedingPositions,
        KucherovKplus1.weights,
        KucherovKplus2.staticPositions,
        KucherovKplus2.seedingPositions,
        KucherovKplus2.weights,
        OptimalKianfar.staticPositions,
        OptimalKianfar.seedingPositions,
        OptimalKianfar.weights,
        O1StarSearchStrategy.staticPositions,
        O1StarSearchStrategy.seedingPositions,
        O1StarSearchStrategy.weights,
        ManBestStrategy.staticPositions,
        ManBestStrategy.seedingPositions,
        ManBestStrategy.weights])

theorem partitioning_tables_fit_witness :
    1 ≤ 3 ∧ 3 ≤ 4 ∧
      PartitionedScheme.kuch2.getBegins 5 3 = some [0.22, 0.44, 0.66, 0.88] ∧
      PartitionedScheme.kuch2.getSeedingPositions 5 3 = some [0.4, 0.63, 0.9] ∧
      PartitionedScheme.kuch2.getWeights 5 3 = some [6, 3, 2, 1, 1] ∧
      ∃ begins seeds weights,
        PartitionedScheme.kuch2.getBegins
          (PartitionedScheme.kuch2.toHardcodedScheme.calculateNumParts 3) (3 : Nat) =
            some begins ∧
        PartitionedScheme.kuch2.getSeedingPositions
          (PartitionedScheme.kuch2.toHardcodedScheme.calculateNumParts 3) (3 : Nat) =
            some seeds ∧
        PartitionedScheme.kuch2.getWeights
          (PartitionedScheme.kuch2.toHardcodedScheme.calculateNumParts 3) (3 : Nat) =
            some weights ∧
        begins.length = PartitionedScheme.kuch2.toHardcodedScheme.calculateNumParts 3 - 1 ∧
        seeds.length = PartitionedScheme.kuch2.toHardcodedScheme.calculateNumParts 3 - 2 ∧
        weights.length = PartitionedScheme.kuch2.toHardcodedScheme.calculateNumParts 3 ∧
        begins.Pairwise (fun x y => x < y) ∧ seeds.Pairwise (fun x y => x < y) ∧
        (∀ b ∈ begins, 0 < b ∧ b < 1) ∧ (∀ s ∈ seeds, 0 < s ∧ s < 1) ∧
        ∀ w ∈ weights, 0 < w :=
  ⟨by decide, by decide, rfl, rfl, rfl,
    partitioning_tables_fit .kuch2 3 (by decide) (by decide) (by decide)⟩

/-! ## Parsing of well-formed FASTQ and FASTA files -/

/-- The four lines of a well-formed FASTQ record add its two entries to what the loop of
`getReads` and the push after the loop give, whatever the state before. -/
theorem fastq_record_step (getRevCompl : List Char → List Char) (st : getReads.FastqState)
    (r : FastqRecord) (hwf : r.WellFormed) :
    (if (r.lines.foldl (getReads.fastqLine getRevCompl) st).read ≠ [] then
        (r.lines.foldl (getReads.fastqLine getRevCompl) st).reads ++
          [((r.lines.foldl (getReads.fastqLine getRevCompl) st).id,
              (r.lines.foldl (getReads.fastqLine getRevCompl) st).read),
            ((r.lines.foldl (getReads.fastqLine getRevCompl) st).id,
              getRevCompl (r.lines.foldl (getReads.fastqLine getRevCompl) st).read)]
      else (r.lines.foldl (getReads.fastqLine getRevCompl) st).reads) =
      (if st.read ≠ [] then st.reads ++ [(st.id, st.read), (st.id, getRevCompl st.read)]
        else st.reads) ++ [(r.id, r.sequence), (r.id, getRevCompl r.sequence)] := by
  obtain ⟨hne, hhead⟩ := hwf
  have h1 : getReads.fastqLine getRevCompl st ('@' :: r.id) =
      ⟨if st.read ≠ [] then st.reads ++ [(st.id, st.read), (st.id, getRevCompl st.read)]
        else st.reads, [], r.id, true⟩ := by
    by_cases hst : st.read = []
    · simp [getReads.fastqLine, hst, substrFrom]
    · simp [getReads.fastqLine, hst, substrFrom]
  have h2 : ∀ reads : List Read,
      getReads.fastqLine getRevCompl ⟨reads, [], r.id, true⟩ r.sequence =
        ⟨reads, r.sequence, r.id, false⟩ := by
    intro reads
    simp [getReads.fastqLine, hhead]
  have h3 : ∀ reads : List Read,
      getReads.fastqLine getRevCompl ⟨reads, r.sequence, r.id, false⟩ ('+' :: r.plus) =
        ⟨reads, r.sequence, r.id, false⟩ := by
    intro reads
    simp [getReads.fastqLine]
  have h4 : ∀ reads : List Read,
      getReads.fastqLine getRevCompl ⟨reads, r.sequence, r.id, false⟩ r.quality =
        if r.quality ≠ [] ∧ r.quality.head? = some '@' then
          ⟨reads ++ [(r.id, r.sequence), (r.id, getRevCompl r.sequence)], [],
            substrFrom r.quality 1, true⟩
        else ⟨reads, r.sequence, r.id, false⟩ := by
    intro reads
    by_cases hq : r.quality ≠ [] ∧ r.quality.head? = some '@'
    · rw [if_pos hq]
      unfold getReads.fastqLine
      rw [if_pos hq, if_pos hne]
    · rw [if_neg hq]
      unfold getReads.fastqLine
      rw [if_neg hq]
      rfl
  simp only [FastqRecord.lines, List.foldl_cons, List.foldl_nil]
  rw [h1, h2, h3, h4]
  by_cases hq : r.quality ≠ [] ∧ r.quality.head? = some '@'
  · rw [if_pos hq]
    simp
  · rw [if_neg hq]
    simp [hne]

theorem fastq_foldl_records (getRevCompl : List Char → List Char) (records : List FastqRecord)
    (hwf : ∀ r ∈ records, r.WellFormed) (st : getReads.FastqState) :
    (if ((records.flatMap FastqRecord.lines).foldl (getReads.fastqLine getRevCompl) st).read ≠ []
      then
        ((records.flatMap FastqRecord.lines).foldl (getReads.fastqLine getRevCompl) st).reads ++
          [(((records.flatMap FastqRecord.lines).foldl (getReads.fastqLine getRevCompl) st).id,
              ((records.flatMap FastqRecord.lines).foldl
                (getReads.fastqLine getRevCompl) st).read),
            (((records.flatMap FastqRecord.lines).foldl (getReads.fastqLine getRevCompl) st).id,
              getRevCompl ((records.flatMap FastqRecord.lines).foldl
                (getReads.fastqLine getRevCompl) st).read)]
      else
        ((records.flatMap FastqRecord.lines).foldl (getReads.fastqLine getRevCompl) st).reads) =
      (if st.read ≠ [] then st.reads ++ [(st.id, st.read), (st.id, getRevCompl st.read)]
        else st.reads) ++
        records.flatMap (fun r => [(r.id, r.sequence), (r.id, getRevCompl r.sequence)]) := by
  induction records generalizing st with
  | nil => simp
  | cons r records ih =>
    rw [List.flatMap_cons, List.foldl_append,
      ih (fun r' hr' => hwf r' (List.mem_cons_of_mem _ hr')),
      fastq_record_step getRevCompl st r (hwf r (List.mem_cons_self _ _)), List.flatMap_cons,
      List.append_assoc]

/-- C27: for every FASTQ file made of well-formed 4-line records (`@id`, a non-empty sequence
line that does not start with `@`, a `+` line, a quality line of any content, also one that
starts with `@`), `getReads` returns, in file order, for each record exactly the two entries
`(id, sequence)` and `(id, getRevCompl(sequence))`, and nothing else. -/
theorem getReads_fastq_records (open_ : List Char → Option (List (List Char)))
    (getRevCompl : List Char → List Char) (file : List Char) (records : List FastqRecord)
    (hext : getFileExt file = "fq".toList ∨ getFileExt file = "fastq".toList)
    (hopen : open_ file = some (records.flatMap FastqRecord.lines))
    (hwf : ∀ r ∈ records, r.WellFormed) :
    getReads open_ getRevCompl file =
      .ok (records.flatMap (fun r => [(r.id, r.sequence), (r.id, getRevCompl r.sequence)])) := by
  have hfq : getReads.fastq getRevCompl (records.flatMap FastqRecord.lines) =
      records.flatMap (fun r => [(r.id, r.sequence), (r.id, getRevCompl r.sequence)]) := by
    have h := fastq_foldl_records getRevCompl records hwf ⟨[], [], [], false⟩
    simpa [getReads.fastq] using h
  have hnf : ¬ (getFileExt file = "FASTA".toList ∨ getFileExt file = "fasta".toList ∨
      getFileExt file = "fa".toList) := by
    rcases hext with h | h <;> rw [h] <;> decide
  unfold getReads
  simp only [hopen]
  rw [if_neg (fun h => h.2 hext), if_neg hnf, hfq]

theorem getReads_fastq_records_witness :
    (getFileExt "reads.fq".toList = "fq".toList ∨ getFileExt "reads.fq".toList = "fastq".toList) ∧
      (∀ r ∈ [FastqRecord.mk "r1".toList "ACGT".toList [] "@III".toList,
          FastqRecord.mk "r2".toList "TTGA".toList "r2".toList "II@I".toList], r.WellFormed) ∧
      getReads
          (fun _ => some ["@r1".toList, "ACGT".toList, "+".toList, "@III".toList, "@r2".toList,
            "TTGA".toList, "+r2".toList, "II@I".toList])
          List.reverse "reads.fq".toList =
        .ok [("r1".toList, "ACGT".toList), ("r1".toList, "TGCA".toList),
          ("r2".toList, "TTGA".toList), ("r2".toList, "AGTT".toList)] :=
  ⟨by decide, by simp [FastqRecord.WellFormed],
    getReads_fastq_records
      (fun _ => some ["@r1".toList, "ACGT".toList, "+".toList, "@III".toList, "@r2".toList,
        "TTGA".toList, "+r2".toList, "II@I".toList])
      List.reverse "reads.fq".toList
      [FastqRecord.mk "r1".toList "ACGT".toList [] "@III".toList,
        FastqRecord.mk "r2".toList "TTGA".toList "r2".toList "II@I".toList]
      (by decide) rfl (by simp [FastqRecord.WellFormed])⟩

/-- Sequence lines are appended to the sequence that is being collected. -/
theorem fasta_sequence_lines (getRevCompl : List Char → List Char) (ls : List (List Char))
    (hls : ∀ l ∈ ls, l.head? ≠ some '>') (st : getReads.FastaState) :
    ls.foldl (getReads.fastaLine getRevCompl) st = { st with read := st.read ++ ls.flatten } := by
  induction ls generalizing st with
  | nil => simp
  | cons l ls ih =>
    have hl : ¬ (l ≠ [] ∧ l.head? = some '>') := fun h => hls l (List.mem_cons_self _ _) h.2
    rw [List.foldl_cons, ih (fun l' hl' => hls l' (List.mem_cons_of_mem _ hl'))]
    unfold getReads.fastaLine
    rw [if_neg hl]
    simp

/-- The lines of a well-formed FASTA record add its two entries to what the loop of `getReads`
and the push after the loop give, whatever the state before. -/
theorem fasta_record_step (getRevCompl : List Char → List Char) (st : getReads.FastaState)
    (r : FastaRecord) (hwf : r.WellFormed) :
    (if (r.lines.foldl (getReads.fastaLine getRevCompl) st).read ≠ [] then
        (r.lines.foldl (getReads.fastaLine getRevCompl) st).reads ++
          [((r.lines.foldl (getReads.fastaLine getRevCompl) st).p,
              (r.lines.foldl (getReads.fastaLine getRevCompl) st).read),
            ((r.lines.foldl (getReads.fastaLine getRevCompl) st).p,
              getRevCompl (r.lines.foldl (getReads.fastaLine getRevCompl) st).read)]
      else (r.lines.foldl (getReads.fastaLine getRevCompl) st).reads) =
      (if st.read ≠ [] then st.reads ++ [(st.p, st.read), (st.p, getRevCompl st.read)]
        else st.reads) ++
        [(r.header, r.sequenceLines.flatten), (r.header, getRevCompl r.sequenceLines.flatten)] := by
  obtain ⟨-, hls, hne⟩ := hwf
  have h1 : getReads.fastaLine getRevCompl st ('>' :: r.header) =
      ⟨if st.read ≠ [] then st.reads ++ [(st.p, st.read), (st.p, getRevCompl st.read)]
        else st.reads, [], r.header⟩ := by
    by_cases hst : st.read = []
    · simp [getReads.fastaLine, hst, substrFrom]
    · simp [getReads.fastaLine, hst, substrFrom]
  simp only [FastaRecord.lines, List.foldl_cons]
  rw [h1, fasta_sequence_lines getRevCompl r.sequenceLines hls]
  simp [hne]

theorem fasta_foldl_records (getRevCompl : List Char → List Char) (records : List FastaRecord)
    (hwf : ∀ r ∈ records, r.WellFormed) (st : getReads.FastaState) :
    (if ((records.flatMap FastaRecord.lines).foldl (getReads.fastaLine getRevCompl) st).read ≠ []
      then
        ((records.flatMap FastaRecord.lines).foldl (getReads.fastaLine getRevCompl) st).reads ++
          [(((records.flatMap FastaRecord.lines).foldl (getReads.fastaLine getRevCompl) st).p,
              ((records.flatMap FastaRecord.lines).foldl
                (getReads.fastaLine getRevCompl) st).read),
            (((records.flatMap FastaRecord.lines).foldl (getReads.fastaLine getRevCompl) st).p,
              getRevCompl ((records.flatMap FastaRecord.lines).foldl
                (getReads.fastaLine getRevCompl) st).read)]
      else
        ((records.flatMap FastaRecord.lines).foldl (getReads.fastaLine getRevCompl) st).reads) =
      (if st.read ≠ [] then st.reads ++ [(st.p, st.read), (st.p, getRevCompl st.read)]
        else st.reads) ++
        records.flatMap (fun r =>
          [(r.header, r.sequenceLines.flatten),
            (r.header, getRevCompl r.sequenceLines.flatten)]) := by
  induction records generalizing st with
  | nil => simp
  | cons r records ih =>
    rw [List.flatMap_cons, List.foldl_append,
      ih (fun r' hr' => hwf r' (List.mem_cons_of_mem _ hr')),
      fasta_record_step getRevCompl st r (hwf r (List.mem_cons_self _ _)), List.flatMap_cons,
      List.append_assoc]

/-- C28: for every FASTA file whose lines form records of one header line starting with `>`
followed by one or more sequence lines (lines that do not start with `>`) with non-empty
concatenation, `getReads` returns, in file order, for each record exactly the two entries
(header without the leading `>`, concatenation of its sequence lines) and (same identifier,
`getRevCompl` of that concatenation); the result has 2 × (number of records) entries. -/
theorem getReads_fasta_records (open_ : List Char → Option (List (List Char)))
    (getRevCompl : List Char → List Char) (file : List Char) (records : List FastaRecord)
    (hext : getFileExt file = "FASTA".toList ∨ getFileExt file = "fasta".toList ∨
      getFileExt file = "fa".toList)
    (hopen : open_ file = some (records.flatMap FastaRecord.lines))
    (hwf : ∀ r ∈ records, r.WellFormed) :
    getReads open_ getRevCompl file =
        .ok (records.flatMap (fun r =>
          [(r.header, r.sequenceLines.flatten),
            (r.header, getRevCompl r.sequenceLines.flatten)])) ∧
      (records.flatMap (fun r =>
          [(r.header, r.sequenceLines.flatten),
            (r.header, getRevCompl r.sequenceLines.flatten)])).length = 2 * records.length := by
  have hfa : getReads.fasta getRevCompl (records.flatMap FastaRecord.lines) =
      records.flatMap (fun r =>
        [(r.header, r.sequenceLines.flatten),
          (r.header, getRevCompl r.sequenceLines.flatten)]) := by
    have h := fasta_foldl_records getRevCompl records hwf ⟨[], [], []⟩
    simpa [getReads.fasta] using h
  constructor
  · unfold getReads
    simp only [hopen]
    rw [if_neg (fun h => h.1 hext), if_pos hext, hfa]
  · clear hfa hwf hopen
    induction records with
    | nil => rfl
    | cons r records ih =>
      rw [List.flatMap_cons, List.length_append, ih]
      simp only [List.length_cons, List.length_nil]
      omega

theorem getReads_fasta_records_witness :
    (getFileExt "reads.fa".toList = "FASTA".toList ∨
        getFileExt "reads.fa".toList = "fasta".toList ∨
        getFileExt "reads.fa".toList = "fa".toList) ∧
      (∀ r ∈ [FastaRecord.mk "r1 first".toList ["ACGT".toList, [], "AC".toList],
          FastaRecord.mk "r2".toList ["TTGA".toList]], r.WellFormed) ∧
      getReads
          (fun _ => some [">r1 first".toList, "ACGT".toList, [], "AC".toList, ">r2".toList,
            "TTGA".toList])
          List.reverse "reads.fa".toList =
        .ok [("r1 first".toList, "ACGTAC".toList), ("r1 first".toList, "CATGCA".toList),
          ("r2".toList, "TTGA".toList), ("r2".toList, "AGTT".toList)] :=
  ⟨by decide, by simp [FastaRecord.WellFormed],
    (getReads_fasta_records
      (fun _ => some [">r1 first".toList, "ACGT".toList, [], "AC".toList, ">r2".toList,
        "TTGA".toList])
      List.reverse "reads.fa".toList
      [FastaRecord.mk "r1 first".toList ["ACGT".toList, [], "AC".toList],
        FastaRecord.mk "r2".toList ["TTGA".toList]]
      (by decide) rfl (by simp [FastaRecord.WellFormed])).1⟩
